import Mathlib

/-! # AVL tree (`avl_tree.c`, `avl_tree.h`): embedding and verification

The C module keeps a binary search tree of heap nodes, each holding an
element pointer, two child pointers and a cached height of type `long`.
The key of an element is obtained through a caller supplied accessor
returning a `uint64_t`.

Embedding choices.

* A value of type `struct avl_tree_node *` is a value of `avl_tree_node α`:
  the constructor `NULL` is the null pointer, `mk element left right height`
  is a pointer to a node with these four fields.  The child links of the C
  structure form a tree (each node is owned by exactly one parent), so the
  in-place updates of the C code become functions that consume a subtree and
  return the updated subtree.
* `avl_tree_element_t *` is an arbitrary type `α`; `hash_field : α → Nat`
  is the accessor.  Keys are only ever compared (`<`, `>`, `!=`), never
  computed with, so the unsigned 64 bit keys are the natural numbers below
  `2 ^ 64` and no wrap-around arises.
* `avl_tree_height_t` (`long`) is `Int`.  Heights are only ever produced by
  `max(..) + 1` over the heights of the children and compared through a
  difference; signed overflow is undefined in C and would need a tree of
  depth `2 ^ 63`, so heights are unbounded integers here.
* Dereferencing a null pointer has no defined result; a function that would
  do so returns `none`.  The same holds for the one place where the C code
  would link a node that is still part of the tree below itself.
-/

namespace AvlTree

/-- Pointer to a `struct avl_tree_node` (`avl_tree.c`, lines 17-22). -/
inductive avl_tree_node (α : Type) where
  | NULL : avl_tree_node α
  | mk (element : α) (left right : avl_tree_node α) (height : Int) : avl_tree_node α
  deriving DecidableEq

/-- The tree handle `struct avl_tree` (`avl_tree.h`, lines 26-29). -/
structure avl_tree (α : Type) where
  root : avl_tree_node α
  hash_field : α → Nat

variable {α : Type}

/-- The macro `max(a, b)` of `avl_tree.c`, line 14: `((a) > (b) ? (a) : (b))`. -/
def max (a b : Int) : Int := if a > b then a else b

/-- `avl_tree_node_height` (`avl_tree.c`, lines 224-228): `0` for a null pointer,
the cached field otherwise. -/
def avl_tree_node_height : avl_tree_node α → Int
  | .NULL => 0
  | .mk _ _ _ h => h

/-- The macro `avl_tree_node_balance` (`avl_tree.c`, lines 12-13). -/
def avl_tree_node_balance : avl_tree_node α → Int
  | .NULL => 0
  | .mk _ l r _ => avl_tree_node_height r - avl_tree_node_height l

/-- `avl_tree_node_create` (`avl_tree.c`, lines 182-192), for a successful
allocation. -/
def avl_tree_node_create (element : α) : avl_tree_node α :=
  .mk element .NULL .NULL 1

/-- `avl_tree_node_rotate_right` (`avl_tree.c`, lines 24-37). -/
def avl_tree_node_rotate_right : avl_tree_node α → Option (avl_tree_node α)
  | .mk e (.mk e2 l2 r2 _) r _ =>
    let h := max (avl_tree_node_height r2) (avl_tree_node_height r) + 1
    some (.mk e2 l2 (.mk e r2 r h) (max (avl_tree_node_height l2) h + 1))
  | _ => none

/-- `avl_tree_node_rotate_left` (`avl_tree.c`, lines 39-52). -/
def avl_tree_node_rotate_left : avl_tree_node α → Option (avl_tree_node α)
  | .mk e l (.mk e2 l2 r2 _) _ =>
    let h := max (avl_tree_node_height l) (avl_tree_node_height l2) + 1
    some (.mk e2 (.mk e l l2 h) r2 (max (avl_tree_node_height r2) h + 1))
  | _ => none

/-- `avl_tree_node_rotate_left_right` (`avl_tree.c`, lines 54-60). -/
def avl_tree_node_rotate_left_right : avl_tree_node α → Option (avl_tree_node α)
  | .NULL => none
  | .mk e l r h =>
    (avl_tree_node_rotate_left l).bind fun l2 =>
      avl_tree_node_rotate_right (.mk e l2 r h)

/-- `avl_tree_node_rotate_right_left` (`avl_tree.c`, lines 62-68). -/
def avl_tree_node_rotate_right_left : avl_tree_node α → Option (avl_tree_node α)
  | .NULL => none
  | .mk e l r h =>
    (avl_tree_node_rotate_right r).bind fun r2 =>
      avl_tree_node_rotate_left (.mk e l r2 h)

/-- The statement `root->height = max(height(root->left), height(root->right)) + 1`
(`avl_tree.c`, line 109 and lines 161-162). -/
def update_height : avl_tree_node α → Option (avl_tree_node α)
  | .NULL => none
  | .mk e l r _ => some (.mk e l r (max (avl_tree_node_height l) (avl_tree_node_height r) + 1))

/-- Lines 84-91 of `avl_tree_node_insert`: the check made after the recursion
into the left child; `key` is `hash_field(node->element)`. -/
def insert_rebalance_left (hash_field : α → Nat) (key : Nat) (root : avl_tree_node α) :
    Option (avl_tree_node α) :=
  if avl_tree_node_balance root = -2 then
    match root with
    | .mk _ (.mk le _ _ _) _ _ =>
      if key < hash_field le then avl_tree_node_rotate_right root
      else avl_tree_node_rotate_left_right root
    | _ => none
  else some root

/-- Lines 97-104 of `avl_tree_node_insert`: the check made after the recursion
into the right child. -/
def insert_rebalance_right (hash_field : α → Nat) (key : Nat) (root : avl_tree_node α) :
    Option (avl_tree_node α) :=
  if avl_tree_node_balance root = 2 then
    match root with
    | .mk _ _ (.mk re _ _ _) _ =>
      if key > hash_field re then avl_tree_node_rotate_left root
      else avl_tree_node_rotate_right_left root
    | _ => none
  else some root

/-- `avl_tree_node_insert` (`avl_tree.c`, lines 70-113). -/
def avl_tree_node_insert (hash_field : α → Nat) :
    avl_tree_node α → avl_tree_node α → Option (avl_tree_node α)
  | .NULL, node => some node
  | .mk _ _ _ _, .NULL => none
  | .mk e l r h, .mk ne nl nr nh =>
    if hash_field ne < hash_field e then
      (avl_tree_node_insert hash_field l (.mk ne nl nr nh)).bind fun l2 =>
        (insert_rebalance_left hash_field (hash_field ne) (.mk e l2 r h)).bind update_height
    else if hash_field ne > hash_field e then
      (avl_tree_node_insert hash_field r (.mk ne nl nr nh)).bind fun r2 =>
        (insert_rebalance_right hash_field (hash_field ne) (.mk e l r2 h)).bind update_height
    else
      update_height (.mk e l r h)

/-- Lines 160-179 of `avl_tree_node_remove`: height update and balance check
made on the subtree root before it is returned. -/
def remove_rebalance : avl_tree_node α → Option (avl_tree_node α)
  | .NULL => some .NULL
  | .mk e l r _ =>
    let root : avl_tree_node α :=
      .mk e l r (max (avl_tree_node_height l) (avl_tree_node_height r) + 1)
    if avl_tree_node_balance root > 1 then
      if avl_tree_node_balance r ≥ 0 then avl_tree_node_rotate_left root
      else avl_tree_node_rotate_right_left root
    else if avl_tree_node_balance root < -1 then
      if avl_tree_node_balance l ≤ 0 then avl_tree_node_rotate_right root
      else avl_tree_node_rotate_left_right root
    else some root

/-- The loop of lines 138-140 of `avl_tree_node_remove`, started at a node:
follow `left` links while there is one. -/
def leftmost : avl_tree_node α → avl_tree_node α
  | .NULL => .NULL
  | .mk e .NULL r h => .mk e .NULL r h
  | .mk _ (.mk e2 l2 r2 h2) _ _ => leftmost (.mk e2 l2 r2 h2)

/-- `avl_tree_node_remove` (`avl_tree.c`, lines 120-180).  The result is the
new subtree root together with what the call stored through `removed`:
`none` when `*removed` was left untouched, `some n` when it was assigned and
the node it points to has the contents `n` on return.

In the case of two children the nested call receives the address of
`successor`.  When that call does not find the key (possible only in a tree
that is not ordered) `successor` still points into the right subtree, and
lines 145-147 would link that node below itself; this is the second `none`. -/
def avl_tree_node_remove (hash_field : α → Nat) :
    avl_tree_node α → Nat → Option (avl_tree_node α × Option (avl_tree_node α))
  | .NULL, _ => some (.NULL, none)
  | .mk e l r h, hash =>
    if hash < hash_field e then
      (avl_tree_node_remove hash_field l hash).bind fun res =>
        (remove_rebalance (.mk e res.1 r h)).map fun root => (root, res.2)
    else if hash > hash_field e then
      (avl_tree_node_remove hash_field r hash).bind fun res =>
        (remove_rebalance (.mk e l res.1 h)).map fun root => (root, res.2)
    else
      match l, r with
      | .NULL, _ => (remove_rebalance r).map fun root => (root, some (.mk e .NULL .NULL 1))
      | .mk _ _ _ _, .NULL => (remove_rebalance l).map fun root => (root, some (.mk e .NULL .NULL 1))
      | .mk _ _ _ _, .mk _ _ _ _ =>
        match leftmost r with
        | .NULL => none
        | .mk se _ _ _ =>
          (avl_tree_node_remove hash_field r (hash_field se)).bind fun res =>
            match res.2 with
            | some (.mk se2 _ _ sh) =>
              (remove_rebalance (.mk se2 l res.1 sh)).map
                fun root => (root, some (.mk e .NULL .NULL 1))
            | _ => none

/-- The loop of `avl_tree_find` (`avl_tree.c`, lines 268-276), started with
`current` at the given node.  Every iteration moves to a child, so the loop
is a recursion on the tree. -/
def find_loop (hash_field : α → Nat) : avl_tree_node α → Nat → avl_tree_node α
  | .NULL, _ => .NULL
  | .mk e l r h, hash =>
    if hash_field e ≠ hash then
      if hash < hash_field e then find_loop hash_field l hash
      else find_loop hash_field r hash
    else .mk e l r h

/-- `avl_tree_init` (`avl_tree.c`, lines 230-236). -/
def avl_tree_init (hash_field : α → Nat) : avl_tree α :=
  ⟨.NULL, hash_field⟩

/-- `avl_tree_insert` (`avl_tree.c`, lines 244-250). -/
def avl_tree_insert (tree : avl_tree α) (node : avl_tree_node α) : Option (avl_tree α) :=
  (avl_tree_node_insert tree.hash_field tree.root node).map fun root =>
    ⟨root, tree.hash_field⟩

/-- `avl_tree_remove` (`avl_tree.c`, lines 252-261): the local `removed`
starts as `NULL`. -/
def avl_tree_remove (tree : avl_tree α) (hash : Nat) :
    Option (avl_tree α × avl_tree_node α) :=
  (avl_tree_node_remove tree.hash_field tree.root hash).map fun res =>
    (⟨res.1, tree.hash_field⟩, res.2.getD .NULL)

/-- `avl_tree_find` (`avl_tree.c`, lines 263-279). -/
def avl_tree_find (tree : avl_tree α) (hash : Nat) : avl_tree_node α :=
  find_loop tree.hash_field tree.root hash

/-! ## Observations and invariants -/

/-- In-order sequence of the elements of a subtree. -/
def inorder : avl_tree_node α → List α
  | .NULL => []
  | .mk e l r _ => inorder l ++ e :: inorder r

/-- Number of nodes of a subtree. -/
def node_count : avl_tree_node α → Nat
  | .NULL => 0
  | .mk _ l r _ => node_count l + 1 + node_count r

/-- BST ordering: at every node, every key of the left subtree is below the
key of the node and every key of the right subtree is above it. -/
def bst_ordered (hash_field : α → Nat) : avl_tree_node α → Prop
  | .NULL => True
  | .mk e l r _ =>
    (∀ x ∈ inorder l, hash_field x < hash_field e) ∧
    (∀ x ∈ inorder r, hash_field e < hash_field x) ∧
    bst_ordered hash_field l ∧ bst_ordered hash_field r

/-- AVL balance: at every node the cached heights of the two children differ
by at most one. -/
def avl_balanced : avl_tree_node α → Prop
  | .NULL => True
  | .mk _ l r _ =>
    |avl_tree_node_height r - avl_tree_node_height l| ≤ 1 ∧
    avl_balanced l ∧ avl_balanced r

/-- Cached height: at every node the field `height` is one more than the
larger of the heights of the children, an absent child counting as `0`. -/
def height_cached : avl_tree_node α → Prop
  | .NULL => True
  | .mk _ l r h =>
    h = 1 + Max.max (avl_tree_node_height l) (avl_tree_node_height r) ∧
    height_cached l ∧ height_cached r

/-- No cached height is negative (weaker than `height_cached`). -/
def heights_nonneg : avl_tree_node α → Prop
  | .NULL => True
  | .mk _ l r h => 0 ≤ h ∧ heights_nonneg l ∧ heights_nonneg r

/-- The three invariants of the data model together. -/
def invariants (hash_field : α → Nat) (t : avl_tree_node α) : Prop :=
  bst_ordered hash_field t ∧ avl_balanced t ∧ height_cached t

instance bst_ordered_decidable (hash_field : α → Nat) :
    (t : avl_tree_node α) → Decidable (bst_ordered hash_field t)
  | .NULL => isTrue trivial
  | .mk _ l r _ =>
    have := bst_ordered_decidable hash_field l
    have := bst_ordered_decidable hash_field r
    inferInstanceAs (Decidable (_ ∧ _ ∧ _ ∧ _))

instance avl_balanced_decidable : (t : avl_tree_node α) → Decidable (avl_balanced t)
  | .NULL => isTrue trivial
  | .mk _ l r _ =>
    have := avl_balanced_decidable l
    have := avl_balanced_decidable r
    inferInstanceAs (Decidable (_ ∧ _ ∧ _))

instance height_cached_decidable : (t : avl_tree_node α) → Decidable (height_cached t)
  | .NULL => isTrue trivial
  | .mk _ l r _ =>
    have := height_cached_decidable l
    have := height_cached_decidable r
    inferInstanceAs (Decidable (_ ∧ _ ∧ _))

instance heights_nonneg_decidable : (t : avl_tree_node α) → Decidable (heights_nonneg t)
  | .NULL => isTrue trivial
  | .mk _ l r _ =>
    have := heights_nonneg_decidable l
    have := heights_nonneg_decidable r
    inferInstanceAs (Decidable (_ ∧ _ ∧ _))

instance invariants_decidable (hash_field : α → Nat) (t : avl_tree_node α) :
    Decidable (invariants hash_field t) :=
  inferInstanceAs (Decidable (_ ∧ _ ∧ _))

/-- Element stored at a node, when the pointer is not null. -/
def element_of : avl_tree_node α → Option α
  | .NULL => none
  | .mk e _ _ _ => some e

/-- Successive `avl_tree_insert` calls, one fresh node per element of the list. -/
def insert_all (tree : avl_tree α) : List α → Option (avl_tree α)
  | [] => some tree
  | e :: es => (avl_tree_insert tree (avl_tree_node_create e)).bind fun t => insert_all t es

/-- Successive `avl_tree_remove` calls, one per key of the list; the nodes
handed back are collected in call order. -/
def remove_all (tree : avl_tree α) :
    List Nat → Option (avl_tree α × List (avl_tree_node α))
  | [] => some (tree, [])
  | k :: ks =>
    (avl_tree_remove tree k).bind fun res =>
      (remove_all res.1 ks).map fun rest => (rest.1, res.2 :: rest.2)

/-- The four rotation primitives. -/
inductive rotation where
  | right | left | left_right | right_left
  deriving DecidableEq

/-- One rotation performed during an insertion: the primitive, the element of
the node it was applied to, and the depth of that node below the root the
insertion started from (`0` for the root itself). -/
structure rotation_event (α : Type) where
  kind : rotation
  element : α
  depth : Nat
  deriving DecidableEq

/-- `insert_rebalance_left` with its record; `depth` is the depth of `root`. -/
def insert_rebalance_left_log (hash_field : α → Nat) (key : Nat) (depth : Nat)
    (root : avl_tree_node α) : Option (avl_tree_node α × List (rotation_event α)) :=
  if avl_tree_node_balance root = -2 then
    match root with
    | .mk e (.mk le _ _ _) _ _ =>
      if key < hash_field le then
        (avl_tree_node_rotate_right root).map fun t => (t, [⟨.right, e, depth⟩])
      else
        (avl_tree_node_rotate_left_right root).map fun t => (t, [⟨.left_right, e, depth⟩])
    | _ => none
  else some (root, [])

/-- `insert_rebalance_right` with its record; `depth` is the depth of `root`. -/
def insert_rebalance_right_log (hash_field : α → Nat) (key : Nat) (depth : Nat)
    (root : avl_tree_node α) : Option (avl_tree_node α × List (rotation_event α)) :=
  if avl_tree_node_balance root = 2 then
    match root with
    | .mk e _ (.mk re _ _ _) _ =>
      if key > hash_field re then
        (avl_tree_node_rotate_left root).map fun t => (t, [⟨.left, e, depth⟩])
      else
        (avl_tree_node_rotate_right_left root).map fun t => (t, [⟨.right_left, e, depth⟩])
    | _ => none
  else some (root, [])

/-- `avl_tree_node_insert` with its record of rotations, in the order in which
they are performed; `depth` is the depth of `root`. -/
def avl_tree_node_insert_log (hash_field : α → Nat) :
    Nat → avl_tree_node α → avl_tree_node α →
      Option (avl_tree_node α × List (rotation_event α))
  | _, .NULL, node => some (node, [])
  | _, .mk _ _ _ _, .NULL => none
  | depth, .mk e l r h, .mk ne nl nr nh =>
    if hash_field ne < hash_field e then
      (avl_tree_node_insert_log hash_field (depth + 1) l (.mk ne nl nr nh)).bind fun res =>
        (insert_rebalance_left_log hash_field (hash_field ne) depth (.mk e res.1 r h)).bind
          fun res2 => (update_height res2.1).map fun t => (t, res.2 ++ res2.2)
    else if hash_field ne > hash_field e then
      (avl_tree_node_insert_log hash_field (depth + 1) r (.mk ne nl nr nh)).bind fun res =>
        (insert_rebalance_right_log hash_field (hash_field ne) depth (.mk e l res.1 h)).bind
          fun res2 => (update_height res2.1).map fun t => (t, res.2 ++ res2.2)
    else
      (update_height (.mk e l r h)).map fun t => (t, [])

/-- Successive `avl_tree_insert` calls as in `insert_all`, with the record of
rotations of each call, in call order. -/
def insert_all_log (tree : avl_tree α) :
    List α → Option (avl_tree α × List (List (rotation_event α)))
  | [] => some (tree, [])
  | e :: es =>
    (avl_tree_node_insert_log tree.hash_field 0 tree.root (avl_tree_node_create e)).bind
      fun res =>
        (insert_all_log ⟨res.1, tree.hash_field⟩ es).map fun rest => (rest.1, res.2 :: rest.2)

/-- The loop of `avl_tree_find` (`avl_tree.c`, lines 268-276) together with
the number of nodes it examines, that is, the number of times the loop
condition reads `current->element`. -/
def find_loop_count (hash_field : α → Nat) : avl_tree_node α → Nat → avl_tree_node α × Nat
  | .NULL, _ => (.NULL, 0)
  | .mk e l r h, hash =>
    if hash_field e ≠ hash then
      if hash < hash_field e then
        ((find_loop_count hash_field l hash).1, (find_loop_count hash_field l hash).2 + 1)
      else
        ((find_loop_count hash_field r hash).1, (find_loop_count hash_field r hash).2 + 1)
    else (.mk e l r h, 1)

/-- `avl_tree_node_insert` (`avl_tree.c`, lines 70-113) in which the
rebalancing of the insertion (the test of lines 84-91 or 97-104 followed by the
height update of line 109) is replaced by the rebalancing step of removal
(lines 160-177, `remove_rebalance`).  Not part of the C code: the function the
insertion is compared with. -/
def avl_tree_node_insert_remove_rule (hash_field : α → Nat) :
    avl_tree_node α → avl_tree_node α → Option (avl_tree_node α)
  | .NULL, node => some node
  | .mk _ _ _ _, .NULL => none
  | .mk e l r h, .mk ne nl nr nh =>
    if hash_field ne < hash_field e then
      (avl_tree_node_insert_remove_rule hash_field l (.mk ne nl nr nh)).bind fun l2 =>
        remove_rebalance (.mk e l2 r h)
    else if hash_field ne > hash_field e then
      (avl_tree_node_insert_remove_rule hash_field r (.mk ne nl nr nh)).bind fun r2 =>
        remove_rebalance (.mk e l r2 h)
    else
      update_height (.mk e l r h)

/-- One node of the insertion path at which the balance is tested after the
recursive call: its depth below the root the insertion started from, its
element, the balance factor computed by the test (line 84 or 97), the rotation
applied there if any, the cached height the node had when the call reached it
and the cached height of the subtree root the call returns in its place. -/
structure insert_step (α : Type) where
  depth : Nat
  element : α
  balance : Int
  rotation : Option rotation
  height_before : Int
  height_after : Int
  deriving DecidableEq

/-- `avl_tree_node_insert` with the list of the balance tests it performs, in
the order in which they are performed (deepest node first); `depth` is the
depth of `root`.  The rotation of a step is the one recorded by
`insert_rebalance_left_log` or `insert_rebalance_right_log`. -/
def avl_tree_node_insert_path (hash_field : α → Nat) :
    Nat → avl_tree_node α → avl_tree_node α →
      Option (avl_tree_node α × List (insert_step α))
  | _, .NULL, node => some (node, [])
  | _, .mk _ _ _ _, .NULL => none
  | depth, .mk e l r h, .mk ne nl nr nh =>
    if hash_field ne < hash_field e then
      (avl_tree_node_insert_path hash_field (depth + 1) l (.mk ne nl nr nh)).bind fun res =>
        (insert_rebalance_left_log hash_field (hash_field ne) depth (.mk e res.1 r h)).bind
          fun res2 => (update_height res2.1).map fun t =>
            (t, res.2 ++ [⟨depth, e, avl_tree_node_balance (.mk e res.1 r h),
              res2.2.head?.map (fun ev => ev.kind), h, avl_tree_node_height t⟩])
    else if hash_field ne > hash_field e then
      (avl_tree_node_insert_path hash_field (depth + 1) r (.mk ne nl nr nh)).bind fun res =>
        (insert_rebalance_right_log hash_field (hash_field ne) depth (.mk e l res.1 h)).bind
          fun res2 => (update_height res2.1).map fun t =>
            (t, res.2 ++ [⟨depth, e, avl_tree_node_balance (.mk e l res.1 h),
              res2.2.head?.map (fun ev => ev.kind), h, avl_tree_node_height t⟩])
    else
      (update_height (.mk e l r h)).map fun t => (t, [])

/-- A step at which nothing is repaired: no rotation, balance within `[-1, 1]`. -/
def insert_step.calm (s : insert_step α) : Prop :=
  s.rotation = none ∧ -1 ≤ s.balance ∧ s.balance ≤ 1

/-- One execution of the balance test of `avl_tree_node_remove` (lines
164-176): the balance factor computed at the subtree root and the rotation
applied, if any. -/
structure balance_check where
  balance : Int
  rotation : Option rotation
  deriving DecidableEq

/-- `remove_rebalance` with the balance test it performs (none when the subtree
root is null). -/
def remove_rebalance_log : avl_tree_node α → Option (avl_tree_node α × List balance_check)
  | .NULL => some (.NULL, [])
  | .mk e l r _ =>
    let root : avl_tree_node α :=
      .mk e l r (max (avl_tree_node_height l) (avl_tree_node_height r) + 1)
    if avl_tree_node_balance root > 1 then
      if avl_tree_node_balance r ≥ 0 then
        (avl_tree_node_rotate_left root).map fun t =>
          (t, [⟨avl_tree_node_balance root, some .left⟩])
      else
        (avl_tree_node_rotate_right_left root).map fun t =>
          (t, [⟨avl_tree_node_balance root, some .right_left⟩])
    else if avl_tree_node_balance root < -1 then
      if avl_tree_node_balance l ≤ 0 then
        (avl_tree_node_rotate_right root).map fun t =>
          (t, [⟨avl_tree_node_balance root, some .right⟩])
      else
        (avl_tree_node_rotate_left_right root).map fun t =>
          (t, [⟨avl_tree_node_balance root, some .left_right⟩])
    else some (root, [⟨avl_tree_node_balance root, none⟩])

/-- `avl_tree_node_remove` with the list of the balance tests it performs, the
nested call for the successor included, in the order in which they are
performed. -/
def avl_tree_node_remove_log (hash_field : α → Nat) :
    avl_tree_node α → Nat →
      Option ((avl_tree_node α × Option (avl_tree_node α)) × List balance_check)
  | .NULL, _ => some ((.NULL, none), [])
  | .mk e l r h, hash =>
    if hash < hash_field e then
      (avl_tree_node_remove_log hash_field l hash).bind fun res =>
        (remove_rebalance_log (.mk e res.1.1 r h)).map fun out =>
          ((out.1, res.1.2), res.2 ++ out.2)
    else if hash > hash_field e then
      (avl_tree_node_remove_log hash_field r hash).bind fun res =>
        (remove_rebalance_log (.mk e l res.1.1 h)).map fun out =>
          ((out.1, res.1.2), res.2 ++ out.2)
    else
      match l, r with
      | .NULL, _ =>
        (remove_rebalance_log r).map fun out => ((out.1, some (.mk e .NULL .NULL 1)), out.2)
      | .mk _ _ _ _, .NULL =>
        (remove_rebalance_log l).map fun out => ((out.1, some (.mk e .NULL .NULL 1)), out.2)
      | .mk _ _ _ _, .mk _ _ _ _ =>
        match leftmost r with
        | .NULL => none
        | .mk se _ _ _ =>
          (avl_tree_node_remove_log hash_field r (hash_field se)).bind fun res =>
            match res.1.2 with
            | some (.mk se2 _ _ sh) =>
              (remove_rebalance_log (.mk se2 l res.1.1 sh)).map fun out =>
                ((out.1, some (.mk e .NULL .NULL 1)), res.2 ++ out.2)
            | _ => none

/-- What C15 says of one balance test: the balance lies in `[-2, 2]`, so the
tests `balance > 1` and `balance < -1` hold exactly at `+2` and at `-2`, and a
rotation is applied exactly at `+2` or `-2`. -/
def balance_check.within_two (c : balance_check) : Prop :=
  -2 ≤ c.balance ∧ c.balance ≤ 2 ∧
    (c.balance > 1 ↔ c.balance = 2) ∧ (c.balance < -1 ↔ c.balance = -2) ∧
    (c.rotation ≠ none ↔ (c.balance = 2 ∨ c.balance = -2))

theorem max_eq (a b : Int) : max a b = Max.max a b := by
  unfold max; omega

theorem height_NULL : avl_tree_node_height (.NULL : avl_tree_node α) = 0 := rfl

theorem height_mk (e : α) (l r : avl_tree_node α) (h : Int) :
    avl_tree_node_height (.mk e l r h) = h := rfl

theorem balance_NULL : avl_tree_node_balance (.NULL : avl_tree_node α) = 0 := rfl

theorem balance_mk (e : α) (l r : avl_tree_node α) (h : Int) :
    avl_tree_node_balance (.mk e l r h) = avl_tree_node_height r - avl_tree_node_height l := rfl

theorem height_cached_nonneg :
    ∀ t : avl_tree_node α, height_cached t → 0 ≤ avl_tree_node_height t
  | .NULL, _ => by simp [height_NULL]
  | .mk _ l r h, hc => by
    have hl := height_cached_nonneg l hc.2.1
    have hr := height_cached_nonneg r hc.2.2
    have h0 := hc.1
    simp only [height_NULL, height_mk] at *
    omega

theorem height_cached_pos (e : α) (l r : avl_tree_node α) (h : Int)
    (hc : height_cached (.mk e l r h)) : 1 ≤ h := by
  have hl := height_cached_nonneg l hc.2.1
  have hr := height_cached_nonneg r hc.2.2
  have h0 := hc.1
  omega

theorem eq_NULL_of_height (t : avl_tree_node α) (hc : height_cached t)
    (h0 : avl_tree_node_height t ≤ 0) : t = .NULL := by
  cases t with
  | NULL => rfl
  | mk e l r h =>
    have := height_cached_pos e l r h hc
    simp only [height_NULL, height_mk] at h0
    omega

theorem update_height_of_cached (e : α) (l r : avl_tree_node α) (h : Int)
    (hc : height_cached (.mk e l r h)) :
    update_height (.mk e l r h) = some (.mk e l r h) := by
  have h0 := hc.1
  simp only [update_height, max_eq]
  congr 2
  omega

/-! ## Rotations -/

theorem rotate_right_inorder (t t2 : avl_tree_node α)
    (h : avl_tree_node_rotate_right t = some t2) : inorder t2 = inorder t := by
  unfold avl_tree_node_rotate_right at h
  split at h
  · cases h; simp [inorder]
  · cases h

theorem rotate_left_inorder (t t2 : avl_tree_node α)
    (h : avl_tree_node_rotate_left t = some t2) : inorder t2 = inorder t := by
  unfold avl_tree_node_rotate_left at h
  split at h
  · cases h; simp [inorder]
  · cases h

theorem rotate_left_right_inorder (t t2 : avl_tree_node α)
    (h : avl_tree_node_rotate_left_right t = some t2) : inorder t2 = inorder t := by
  cases t with
  | NULL => cases h
  | mk e l r ht =>
    simp only [avl_tree_node_rotate_left_right, Option.bind_eq_some] at h
    obtain ⟨l2, hl, hr⟩ := h
    rw [rotate_right_inorder _ _ hr]
    simp [inorder, rotate_left_inorder _ _ hl]

theorem rotate_right_left_inorder (t t2 : avl_tree_node α)
    (h : avl_tree_node_rotate_right_left t = some t2) : inorder t2 = inorder t := by
  cases t with
  | NULL => cases h
  | mk e l r ht =>
    simp only [avl_tree_node_rotate_right_left, Option.bind_eq_some] at h
    obtain ⟨r2, hr, hl⟩ := h
    rw [rotate_left_inorder _ _ hl]
    simp [inorder, rotate_right_inorder _ _ hr]

theorem rotate_right_avl (e e2 : α) (l2 r2 r : avl_tree_node α) (h h2 : Int)
    (bl : avl_balanced (.mk e2 l2 r2 h2)) (cl : height_cached (.mk e2 l2 r2 h2))
    (br : avl_balanced r) (cr : height_cached r)
    (hd : h2 = avl_tree_node_height r + 2)
    (hb : avl_tree_node_height r2 ≤ avl_tree_node_height l2) :
    ∃ t, avl_tree_node_rotate_right (.mk e (.mk e2 l2 r2 h2) r h) = some t ∧
      avl_balanced t ∧ height_cached t ∧
      avl_tree_node_height t =
        (if avl_tree_node_height l2 = avl_tree_node_height r2 then h2 + 1 else h2) := by
  simp only [avl_balanced, height_cached, height_mk, abs_le] at bl cl
  obtain ⟨⟨bl0, bl1⟩, bl2, br2⟩ := bl
  obtain ⟨cl0, cl2, cr2⟩ := cl
  refine ⟨_, rfl, ?_, ?_, ?_⟩ <;>
    simp only [avl_balanced, height_cached, height_mk, abs_le, max_eq] <;>
    (try and_intros) <;> first | assumption | omega

theorem rotate_left_avl (e e2 : α) (l l2 r2 : avl_tree_node α) (h h2 : Int)
    (br : avl_balanced (.mk e2 l2 r2 h2)) (cr : height_cached (.mk e2 l2 r2 h2))
    (bl : avl_balanced l) (cl : height_cached l)
    (hd : h2 = avl_tree_node_height l + 2)
    (hb : avl_tree_node_height l2 ≤ avl_tree_node_height r2) :
    ∃ t, avl_tree_node_rotate_left (.mk e l (.mk e2 l2 r2 h2) h) = some t ∧
      avl_balanced t ∧ height_cached t ∧
      avl_tree_node_height t =
        (if avl_tree_node_height l2 = avl_tree_node_height r2 then h2 + 1 else h2) := by
  simp only [avl_balanced, height_cached, height_mk, abs_le] at br cr
  obtain ⟨⟨br0, br1⟩, bl2, br2⟩ := br
  obtain ⟨cr0, cl2, cr2⟩ := cr
  refine ⟨_, rfl, ?_, ?_, ?_⟩ <;>
    simp only [avl_balanced, height_cached, height_mk, abs_le, max_eq] <;>
    (try and_intros) <;> first | assumption | omega

theorem rotate_left_right_avl (e e2 : α) (l2 r2 r : avl_tree_node α) (h h2 : Int)
    (bl : avl_balanced (.mk e2 l2 r2 h2)) (cl : height_cached (.mk e2 l2 r2 h2))
    (br : avl_balanced r) (cr : height_cached r)
    (hd : h2 = avl_tree_node_height r + 2)
    (hb : avl_tree_node_height l2 < avl_tree_node_height r2) :
    ∃ t, avl_tree_node_rotate_left_right (.mk e (.mk e2 l2 r2 h2) r h) = some t ∧
      avl_balanced t ∧ height_cached t ∧ avl_tree_node_height t = h2 := by
  have hl2 := height_cached_nonneg l2 cl.2.1
  cases r2 with
  | NULL => simp only [height_NULL] at hb; omega
  | mk e3 l3 r3 h3 =>
    have hl3 := height_cached_nonneg l3 cl.2.2.2.1
    have hr3 := height_cached_nonneg r3 cl.2.2.2.2
    simp only [avl_balanced, height_cached, height_mk, abs_le] at bl cl hb
    obtain ⟨⟨bl0, bl1⟩, bl2, ⟨b30, b31⟩, bl3, br3⟩ := bl
    obtain ⟨cl0, cl2, c30, cl3, cr3⟩ := cl
    refine ⟨_, rfl, ?_, ?_, ?_⟩ <;>
      simp only [avl_balanced, height_cached, height_mk, abs_le, max_eq] <;>
      (try and_intros) <;> first | assumption | omega

theorem rotate_right_left_avl (e e2 : α) (l l2 r2 : avl_tree_node α) (h h2 : Int)
    (br : avl_balanced (.mk e2 l2 r2 h2)) (cr : height_cached (.mk e2 l2 r2 h2))
    (bl : avl_balanced l) (cl : height_cached l)
    (hd : h2 = avl_tree_node_height l + 2)
    (hb : avl_tree_node_height r2 < avl_tree_node_height l2) :
    ∃ t, avl_tree_node_rotate_right_left (.mk e l (.mk e2 l2 r2 h2) h) = some t ∧
      avl_balanced t ∧ height_cached t ∧ avl_tree_node_height t = h2 := by
  have hr2 := height_cached_nonneg r2 cr.2.2
  cases l2 with
  | NULL => simp only [height_NULL] at hb; omega
  | mk e3 l3 r3 h3 =>
    have hl3 := height_cached_nonneg l3 cr.2.1.2.1
    have hr3 := height_cached_nonneg r3 cr.2.1.2.2
    simp only [avl_balanced, height_cached, height_mk, abs_le] at br cr hb
    obtain ⟨⟨br0, br1⟩, ⟨⟨b30, b31⟩, bl3, br3⟩, br2⟩ := br
    obtain ⟨cr0, ⟨c30, cl3, cr3⟩, cr2⟩ := cr
    refine ⟨_, rfl, ?_, ?_, ?_⟩ <;>
      simp only [avl_balanced, height_cached, height_mk, abs_le, max_eq] <;>
      (try and_intros) <;> first | assumption | omega

/-! ## Insertion keeps the tree balanced -/

theorem insert_rebalance_left_skip (hash_field : α → Nat) (k : Nat) (t : avl_tree_node α)
    (h : avl_tree_node_balance t ≠ -2) : insert_rebalance_left hash_field k t = some t := by
  unfold insert_rebalance_left; rw [if_neg h]

theorem insert_rebalance_right_skip (hash_field : α → Nat) (k : Nat) (t : avl_tree_node α)
    (h : avl_tree_node_balance t ≠ 2) : insert_rebalance_right hash_field k t = some t := by
  unfold insert_rebalance_right; rw [if_neg h]

theorem insert_rebalance_left_fire (hash_field : α → Nat) (k : Nat) (e le : α)
    (ll lr r : avl_tree_node α) (h lh : Int)
    (hb : avl_tree_node_balance (.mk e (.mk le ll lr lh) r h) = -2) :
    insert_rebalance_left hash_field k (.mk e (.mk le ll lr lh) r h) =
      if k < hash_field le then avl_tree_node_rotate_right (.mk e (.mk le ll lr lh) r h)
      else avl_tree_node_rotate_left_right (.mk e (.mk le ll lr lh) r h) := by
  unfold insert_rebalance_left; rw [if_pos hb]

theorem insert_rebalance_right_fire (hash_field : α → Nat) (k : Nat) (e re : α)
    (l rl rr : avl_tree_node α) (h rh : Int)
    (hb : avl_tree_node_balance (.mk e l (.mk re rl rr rh) h) = 2) :
    insert_rebalance_right hash_field k (.mk e l (.mk re rl rr rh) h) =
      if k > hash_field re then avl_tree_node_rotate_left (.mk e l (.mk re rl rr rh) h)
      else avl_tree_node_rotate_right_left (.mk e l (.mk re rl rr rh) h) := by
  unfold insert_rebalance_right; rw [if_pos hb]

/-- Inserting a fresh node into a balanced subtree with exact cached heights
succeeds and gives such a subtree again, of the same height or one more; when
the subtree was not empty and became taller, its root leans towards the side
the new key went to. -/
theorem insert_avl (hash_field : α → Nat) (x : α) :
    ∀ t : avl_tree_node α, avl_balanced t → height_cached t →
      ∃ t2, avl_tree_node_insert hash_field t (avl_tree_node_create x) = some t2 ∧
        avl_balanced t2 ∧ height_cached t2 ∧
        (avl_tree_node_height t2 = avl_tree_node_height t ∨
          (avl_tree_node_height t2 = avl_tree_node_height t + 1 ∧
            (t = .NULL ∨ ∃ e2 l2 r2 h2, t2 = .mk e2 l2 r2 h2 ∧
              ((hash_field x < hash_field e2 ∧
                  avl_tree_node_height l2 = avl_tree_node_height r2 + 1) ∨
               (hash_field e2 < hash_field x ∧
                  avl_tree_node_height r2 = avl_tree_node_height l2 + 1))))) := by
  intro t
  induction t with
  | NULL =>
    intro _ _
    refine ⟨avl_tree_node_create x, rfl, ?_, ?_, Or.inr ⟨?_, Or.inl rfl⟩⟩ <;>
      simp [avl_tree_node_create, avl_balanced, height_cached, height_NULL, height_mk]
  | mk e l r h ihl ihr =>
    intro hb hc
    have hb2 := hb
    have hc2 := hc
    simp only [avl_balanced, height_cached, abs_le] at hb2 hc2
    obtain ⟨⟨b0, b1⟩, bl, br⟩ := hb2
    obtain ⟨c0, cl, cr⟩ := hc2
    have nl := height_cached_nonneg l cl
    have nr := height_cached_nonneg r cr
    simp only [avl_tree_node_create, avl_tree_node_insert]
    by_cases hlt : hash_field x < hash_field e
    · rw [if_pos hlt]
      obtain ⟨l2, hl2, bl2, cl2, hd⟩ := ihl bl cl
      simp only [avl_tree_node_create] at hl2
      rw [hl2, Option.some_bind]
      by_cases hbal : avl_tree_node_balance (.mk e l2 r h) = -2
      · simp only [balance_mk] at hbal
        rcases hd with hd | ⟨hd, hs⟩
        · omega
        · rcases hs with hs | ⟨le, ll, lr, lh, rfl, hs⟩
          · subst hs; simp only [height_NULL] at *; omega
          · rw [insert_rebalance_left_fire _ _ _ _ _ _ _ _ _ (by simpa [balance_mk] using hbal)]
            simp only [height_mk] at hd hbal
            by_cases hk : hash_field x < hash_field le
            · rw [if_pos hk]
              obtain ⟨t2, ht2, bt2, ct2, hh2⟩ := rotate_right_avl e le ll lr r h lh bl2 cl2 br cr
                (by omega) (by omega)
              rw [ht2, Option.some_bind]
              cases t2 with
              | NULL => simp [avl_tree_node_rotate_right] at ht2
              | mk e3 l3 r3 h3 =>
                refine ⟨_, update_height_of_cached _ _ _ _ ct2, bt2, ct2, Or.inl ?_⟩
                simp only [height_mk] at hh2 ⊢
                split at hh2 <;> omega
            · rw [if_neg hk]
              obtain ⟨t2, ht2, bt2, ct2, hh2⟩ :=
                rotate_left_right_avl e le ll lr r h lh bl2 cl2 br cr (by omega) (by omega)
              rw [ht2, Option.some_bind]
              cases t2 with
              | NULL =>
                have := height_cached_pos le ll lr lh cl2
                simp only [height_NULL] at hh2; omega
              | mk e3 l3 r3 h3 =>
                refine ⟨_, update_height_of_cached _ _ _ _ ct2, bt2, ct2, Or.inl ?_⟩
                simp only [height_mk] at hh2 ⊢
                omega
      · rw [insert_rebalance_left_skip _ _ _ hbal, Option.some_bind]
        simp only [balance_mk] at hbal
        refine ⟨_, rfl, ?_, ?_, ?_⟩
        · simp only [avl_balanced, abs_le]
          exact ⟨⟨by omega, by omega⟩, bl2, br⟩
        · simp only [height_cached, max_eq]
          exact ⟨by omega, cl2, cr⟩
        · simp only [height_mk, max_eq]
          rcases hd with hd | ⟨hd, _⟩
          · left; omega
          · by_cases hg : avl_tree_node_height r = avl_tree_node_height l
            · right
              refine ⟨by omega, Or.inr ⟨e, l2, r, _, rfl, Or.inl ⟨hlt, by omega⟩⟩⟩
            · left; omega
    · rw [if_neg hlt]
      by_cases hgt : hash_field x > hash_field e
      · rw [if_pos hgt]
        obtain ⟨r2, hr2, br2, cr2, hd⟩ := ihr br cr
        simp only [avl_tree_node_create] at hr2
        rw [hr2, Option.some_bind]
        by_cases hbal : avl_tree_node_balance (.mk e l r2 h) = 2
        · simp only [balance_mk] at hbal
          rcases hd with hd | ⟨hd, hs⟩
          · omega
          · rcases hs with hs | ⟨re, rl, rr, rh, rfl, hs⟩
            · subst hs; simp only [height_NULL] at *; omega
            · rw [insert_rebalance_right_fire _ _ _ _ _ _ _ _ _
                (by simpa [balance_mk] using hbal)]
              simp only [height_mk] at hd hbal
              by_cases hk : hash_field x > hash_field re
              · rw [if_pos hk]
                obtain ⟨t2, ht2, bt2, ct2, hh2⟩ :=
                  rotate_left_avl e re l rl rr h rh br2 cr2 bl cl (by omega) (by omega)
                rw [ht2, Option.some_bind]
                cases t2 with
                | NULL => simp [avl_tree_node_rotate_left] at ht2
                | mk e3 l3 r3 h3 =>
                  refine ⟨_, update_height_of_cached _ _ _ _ ct2, bt2, ct2, Or.inl ?_⟩
                  simp only [height_mk] at hh2 ⊢
                  split at hh2 <;> omega
              · rw [if_neg hk]
                obtain ⟨t2, ht2, bt2, ct2, hh2⟩ :=
                  rotate_right_left_avl e re l rl rr h rh br2 cr2 bl cl (by omega) (by omega)
                rw [ht2, Option.some_bind]
                cases t2 with
                | NULL =>
                  have := height_cached_pos re rl rr rh cr2
                  simp only [height_NULL] at hh2; omega
                | mk e3 l3 r3 h3 =>
                  refine ⟨_, update_height_of_cached _ _ _ _ ct2, bt2, ct2, Or.inl ?_⟩
                  simp only [height_mk] at hh2 ⊢
                  omega
        · rw [insert_rebalance_right_skip _ _ _ hbal, Option.some_bind]
          simp only [balance_mk] at hbal
          refine ⟨_, rfl, ?_, ?_, ?_⟩
          · simp only [avl_balanced, abs_le]
            exact ⟨⟨by omega, by omega⟩, bl, br2⟩
          · simp only [height_cached, max_eq]
            exact ⟨by omega, cl, cr2⟩
          · simp only [height_mk, max_eq]
            rcases hd with hd | ⟨hd, _⟩
            · left; omega
            · by_cases hg : avl_tree_node_height r = avl_tree_node_height l
              · right
                refine ⟨by omega, Or.inr ⟨e, l, r2, _, rfl, Or.inr ⟨hgt, by omega⟩⟩⟩
              · left; omega
      · rw [if_neg hgt]
        exact ⟨_, update_height_of_cached _ _ _ _ hc, hb, hc, Or.inl rfl⟩

/-! ## In-order sequence and ordering -/

theorem inorder_mk (e : α) (l r : avl_tree_node α) (h : Int) :
    inorder (.mk e l r h) = inorder l ++ e :: inorder r := rfl

theorem bst_ordered_iff_pairwise (hash_field : α → Nat) (t : avl_tree_node α) :
    bst_ordered hash_field t ↔
      (inorder t).Pairwise (fun a b => hash_field a < hash_field b) := by
  induction t with
  | NULL => simp [bst_ordered, inorder]
  | mk e l r h ihl ihr =>
    simp only [bst_ordered, inorder_mk, List.pairwise_append, List.pairwise_cons,
      List.mem_cons, ihl, ihr]
    constructor
    · rintro ⟨h1, h2, h3, h4⟩
      refine ⟨h3, ⟨h2, h4⟩, ?_⟩
      rintro a ha b (rfl | hb)
      · exact h1 a ha
      · exact lt_trans (h1 a ha) (h2 b hb)
    · rintro ⟨h3, ⟨h2, h4⟩, h5⟩
      exact ⟨fun a ha => h5 a ha e (Or.inl rfl), h2, h3, h4⟩

theorem update_height_inorder (t t2 : avl_tree_node α) (h : update_height t = some t2) :
    inorder t2 = inorder t := by
  cases t with
  | NULL => cases h
  | mk e l r ht => simp only [update_height, Option.some.injEq] at h; subst h; rfl

theorem insert_rebalance_left_inorder (hash_field : α → Nat) (k : Nat)
    (t t2 : avl_tree_node α) (h : insert_rebalance_left hash_field k t = some t2) :
    inorder t2 = inorder t := by
  unfold insert_rebalance_left at h
  split at h
  · split at h
    · split at h
      · exact rotate_right_inorder _ _ h
      · exact rotate_left_right_inorder _ _ h
    · cases h
  · cases h; rfl

theorem insert_rebalance_right_inorder (hash_field : α → Nat) (k : Nat)
    (t t2 : avl_tree_node α) (h : insert_rebalance_right hash_field k t = some t2) :
    inorder t2 = inorder t := by
  unfold insert_rebalance_right at h
  split at h
  · split at h
    · split at h
      · exact rotate_left_inorder _ _ h
      · exact rotate_right_left_inorder _ _ h
    · cases h
  · cases h; rfl

theorem remove_rebalance_inorder (t t2 : avl_tree_node α)
    (h : remove_rebalance t = some t2) : inorder t2 = inorder t := by
  cases t with
  | NULL => simp only [remove_rebalance, Option.some.injEq] at h; subst h; rfl
  | mk e l r ht =>
    simp only [remove_rebalance] at h
    split at h
    · split at h
      · rw [rotate_left_inorder _ _ h]; rfl
      · rw [rotate_right_left_inorder _ _ h]; rfl
    · split at h
      · split at h
        · rw [rotate_right_inorder _ _ h]; rfl
        · rw [rotate_left_right_inorder _ _ h]; rfl
      · cases h; rfl

/-- In-order sequence after inserting a fresh node whose key is new: the
old sequence with the element placed between the smaller and the larger keys. -/
theorem insert_inorder (hash_field : α → Nat) (x : α) :
    ∀ t t2 : avl_tree_node α, bst_ordered hash_field t →
      (∀ y ∈ inorder t, hash_field y ≠ hash_field x) →
      avl_tree_node_insert hash_field t (avl_tree_node_create x) = some t2 →
      inorder t2 =
        (inorder t).filter (fun y => hash_field y < hash_field x) ++
          x :: (inorder t).filter (fun y => hash_field x < hash_field y) := by
  intro t
  induction t with
  | NULL =>
    intro t2 _ _ h
    simp only [avl_tree_node_insert, Option.some.injEq] at h
    subst h
    simp [inorder, avl_tree_node_create]
  | mk e l r ht ihl ihr =>
    intro t2 hbst hnew h
    obtain ⟨hl, hr, bl, br⟩ := hbst
    simp only [inorder_mk, List.mem_append, List.mem_cons] at hnew
    have hle : ∀ y ∈ inorder l, hash_field y ≠ hash_field x := fun y hy => hnew y (Or.inl hy)
    have hre : ∀ y ∈ inorder r, hash_field y ≠ hash_field x :=
      fun y hy => hnew y (Or.inr (Or.inr hy))
    have hee : hash_field e ≠ hash_field x := hnew e (Or.inr (Or.inl rfl))
    simp only [avl_tree_node_create, avl_tree_node_insert] at h
    by_cases hlt : hash_field x < hash_field e
    · rw [if_pos hlt] at h
      simp only [Option.bind_eq_some] at h
      obtain ⟨l2, hl2, t3, ht3, ht2⟩ := h
      rw [update_height_inorder _ _ ht2, insert_rebalance_left_inorder _ _ _ _ ht3, inorder_mk,
        ihl l2 bl hle hl2]
      have h1 : (inorder r).filter (fun y => hash_field y < hash_field x) = [] := by
        rw [List.filter_eq_nil_iff]
        intro a ha
        have := hr a ha
        simp only [decide_eq_true_eq]; omega
      have h2 : (inorder r).filter (fun y => hash_field x < hash_field y) = inorder r := by
        rw [List.filter_eq_self]
        intro a ha
        have := hr a ha
        simp only [decide_eq_true_eq]; omega
      have h3 : ¬ hash_field e < hash_field x := by omega
      simp [inorder_mk, List.filter_append, List.filter_cons, h1, h2, h3, hlt]
    · have hgt : hash_field x > hash_field e := by omega
      rw [if_neg hlt, if_pos hgt] at h
      simp only [Option.bind_eq_some] at h
      obtain ⟨r2, hr2, t3, ht3, ht2⟩ := h
      rw [update_height_inorder _ _ ht2, insert_rebalance_right_inorder _ _ _ _ ht3, inorder_mk,
        ihr r2 br hre hr2]
      have h1 : (inorder l).filter (fun y => hash_field y < hash_field x) = inorder l := by
        rw [List.filter_eq_self]
        intro a ha
        have := hl a ha
        simp only [decide_eq_true_eq]; omega
      have h2 : (inorder l).filter (fun y => hash_field x < hash_field y) = [] := by
        rw [List.filter_eq_nil_iff]
        intro a ha
        have := hl a ha
        simp only [decide_eq_true_eq]; omega
      have h3 : hash_field e < hash_field x := hgt
      simp [inorder_mk, List.filter_append, List.filter_cons, h1, h2, h3, hlt]

/-- Inserting a fresh node whose key is already stored gives back the very
same subtree. -/
theorem insert_duplicate (hash_field : α → Nat) (x : α) :
    ∀ t : avl_tree_node α, bst_ordered hash_field t → avl_balanced t → height_cached t →
      (∃ y ∈ inorder t, hash_field y = hash_field x) →
      avl_tree_node_insert hash_field t (avl_tree_node_create x) = some t := by
  intro t
  induction t with
  | NULL => intro _ _ _ h; simp [inorder] at h
  | mk e l r ht ihl ihr =>
    intro hbst hb hc hdup
    obtain ⟨hl, hr, bl, br⟩ := hbst
    have hb2 := hb
    simp only [avl_balanced, abs_le] at hb2
    obtain ⟨⟨b0, b1⟩, bal, bar⟩ := hb2
    obtain ⟨y, hy, hk⟩ := hdup
    simp only [inorder_mk, List.mem_append, List.mem_cons] at hy
    simp only [avl_tree_node_create, avl_tree_node_insert]
    by_cases hlt : hash_field x < hash_field e
    · rw [if_pos hlt]
      have hyl : y ∈ inorder l := by
        rcases hy with hy | rfl | hy
        · exact hy
        · omega
        · have := hr y hy; omega
      have := ihl bl bal hc.2.1 ⟨y, hyl, hk⟩
      simp only [avl_tree_node_create] at this
      rw [this, Option.some_bind, insert_rebalance_left_skip _ _ _ (by rw [balance_mk]; omega),
        Option.some_bind]
      exact update_height_of_cached _ _ _ _ hc
    · rw [if_neg hlt]
      by_cases hgt : hash_field x > hash_field e
      · rw [if_pos hgt]
        have hyr : y ∈ inorder r := by
          rcases hy with hy | rfl | hy
          · have := hl y hy; omega
          · omega
          · exact hy
        have := ihr br bar hc.2.2 ⟨y, hyr, hk⟩
        simp only [avl_tree_node_create] at this
        rw [this, Option.some_bind,
          insert_rebalance_right_skip _ _ _ (by rw [balance_mk]; omega), Option.some_bind]
        exact update_height_of_cached _ _ _ _ hc
      · rw [if_neg hgt]
        exact update_height_of_cached _ _ _ _ hc

/-! ## The rebalancing step of removal -/

/-- With exact cached heights below the root, the rebalancing step of removal
never meets a null pointer, and re-establishes exact cached heights. -/
theorem remove_rebalance_cached_mk (e : α) (l r : avl_tree_node α) (h : Int)
    (cl : height_cached l) (cr : height_cached r) :
    ∃ t2, remove_rebalance (.mk e l r h) = some t2 ∧ height_cached t2 := by
  have nl := height_cached_nonneg l cl
  have nr := height_cached_nonneg r cr
  simp only [remove_rebalance, balance_mk]
  split
  · next h1 =>
    cases r with
    | NULL => simp only [height_NULL] at h1; omega
    | mk e2 l2 r2 h2 =>
      have nl2 := height_cached_nonneg l2 cr.2.1
      have nr2 := height_cached_nonneg r2 cr.2.2
      split
      · refine ⟨_, rfl, ?_⟩
        simp only [height_cached, height_mk, max_eq]
        exact ⟨by omega, ⟨by omega, cl, cr.2.1⟩, cr.2.2⟩
      · next h2 =>
        simp only [balance_mk] at h2
        cases l2 with
        | NULL => simp only [height_NULL] at h2; omega
        | mk e3 l3 r3 h3 =>
          refine ⟨_, rfl, ?_⟩
          simp only [height_cached, height_mk, max_eq]
          exact ⟨by omega, ⟨by omega, cl, cr.2.1.2.1⟩, by omega, cr.2.1.2.2, cr.2.2⟩
  · split
    · next h1 =>
      cases l with
      | NULL => simp only [height_NULL] at h1; omega
      | mk e2 l2 r2 h2 =>
        have nl2 := height_cached_nonneg l2 cl.2.1
        have nr2 := height_cached_nonneg r2 cl.2.2
        split
        · refine ⟨_, rfl, ?_⟩
          simp only [height_cached, height_mk, max_eq]
          exact ⟨by omega, cl.2.1, by omega, cl.2.2, cr⟩
        · next h2 =>
          simp only [balance_mk] at h2
          cases r2 with
          | NULL => simp only [height_NULL] at h2; omega
          | mk e3 l3 r3 h3 =>
            refine ⟨_, rfl, ?_⟩
            simp only [height_cached, height_mk, max_eq]
            exact ⟨by omega, ⟨by omega, cl.2.1, cl.2.2.2.1⟩, by omega, cl.2.2.2.2, cr⟩
    · refine ⟨_, rfl, ?_⟩
      simp only [height_cached, max_eq]
      exact ⟨by omega, cl, cr⟩

theorem remove_rebalance_cached (t : avl_tree_node α) (c : height_cached t) :
    ∃ t2, remove_rebalance t = some t2 ∧ height_cached t2 := by
  cases t with
  | NULL => exact ⟨.NULL, rfl, trivial⟩
  | mk e l r h => exact remove_rebalance_cached_mk e l r h c.2.1 c.2.2

/-- On a balanced subtree with exact cached heights the rebalancing step of
removal changes nothing. -/
theorem remove_rebalance_fixed (t : avl_tree_node α) (b : avl_balanced t)
    (c : height_cached t) : remove_rebalance t = some t := by
  cases t with
  | NULL => rfl
  | mk e l r h =>
    have b0 := b.1
    have c0 := c.1
    rw [abs_le] at b0
    simp only [remove_rebalance, balance_mk, max_eq]
    rw [if_neg (by omega), if_neg (by omega)]
    congr 2
    omega

/-- The rebalancing step of removal, on a root whose subtrees are balanced
with exact cached heights and differ in height by at most two. -/
theorem remove_rebalance_avl (e : α) (l r : avl_tree_node α) (h : Int)
    (bl : avl_balanced l) (cl : height_cached l) (br : avl_balanced r) (cr : height_cached r)
    (d0 : -2 ≤ avl_tree_node_height r - avl_tree_node_height l)
    (d1 : avl_tree_node_height r - avl_tree_node_height l ≤ 2) :
    ∃ t2, remove_rebalance (.mk e l r h) = some t2 ∧ avl_balanced t2 ∧ height_cached t2 ∧
      (avl_tree_node_height t2 =
          1 + Max.max (avl_tree_node_height l) (avl_tree_node_height r) ∨
        (avl_tree_node_height t2 = Max.max (avl_tree_node_height l) (avl_tree_node_height r) ∧
          (avl_tree_node_height r - avl_tree_node_height l = 2 ∨
            avl_tree_node_height r - avl_tree_node_height l = -2))) := by
  have nl := height_cached_nonneg l cl
  have nr := height_cached_nonneg r cr
  simp only [remove_rebalance, balance_mk]
  split
  · next h1 =>
    cases r with
    | NULL => simp only [height_NULL] at h1; omega
    | mk e2 l2 r2 h2 =>
      have b2 := br.1
      have c2 := cr.1
      rw [abs_le] at b2
      simp only [height_mk] at h1 d0 d1 ⊢
      split
      · next h3 =>
        simp only [balance_mk] at h3
        obtain ⟨t2, ht2, bt2, ct2, hh⟩ :=
          rotate_left_avl e e2 l l2 r2 (max (avl_tree_node_height l) h2 + 1) h2 br cr bl cl
            (by omega) (by omega)
        refine ⟨t2, ht2, bt2, ct2, ?_⟩
        rw [hh]; split <;> omega
      · next h3 =>
        simp only [balance_mk] at h3
        obtain ⟨t2, ht2, bt2, ct2, hh⟩ :=
          rotate_right_left_avl e e2 l l2 r2 (max (avl_tree_node_height l) h2 + 1) h2 br cr bl cl
            (by omega) (by omega)
        refine ⟨t2, ht2, bt2, ct2, ?_⟩
        rw [hh]; omega
  · split
    · next h0 h1 =>
      cases l with
      | NULL => simp only [height_NULL] at h1; omega
      | mk e2 l2 r2 h2 =>
        have b2 := bl.1
        have c2 := cl.1
        rw [abs_le] at b2
        simp only [height_mk] at h1 d0 d1 ⊢
        split
        · next h3 =>
          simp only [balance_mk] at h3
          obtain ⟨t2, ht2, bt2, ct2, hh⟩ :=
            rotate_right_avl e e2 l2 r2 r (max h2 (avl_tree_node_height r) + 1) h2 bl cl br cr
              (by omega) (by omega)
          refine ⟨t2, ht2, bt2, ct2, ?_⟩
          rw [hh]; split <;> omega
        · next h3 =>
          simp only [balance_mk] at h3
          obtain ⟨t2, ht2, bt2, ct2, hh⟩ :=
            rotate_left_right_avl e e2 l2 r2 r (max h2 (avl_tree_node_height r) + 1) h2 bl cl
              br cr (by omega) (by omega)
          refine ⟨t2, ht2, bt2, ct2, ?_⟩
          rw [hh]; omega
    · next h0 h1 =>
      refine ⟨_, rfl, ?_, ?_, Or.inl ?_⟩
      · simp only [avl_balanced, abs_le]
        exact ⟨⟨by omega, by omega⟩, bl, br⟩
      · simp only [height_cached, max_eq]
        exact ⟨by omega, cl, cr⟩
      · simp only [height_mk, max_eq]; omega

theorem heights_nonneg_height :
    ∀ t : avl_tree_node α, heights_nonneg t → 0 ≤ avl_tree_node_height t
  | .NULL, _ => by simp [height_NULL]
  | .mk _ _ _ _, hn => hn.1

theorem heights_nonneg_of_cached :
    ∀ t : avl_tree_node α, height_cached t → heights_nonneg t
  | .NULL, _ => trivial
  | .mk e l r h, hc =>
    ⟨by have := height_cached_pos e l r h hc; omega,
      heights_nonneg_of_cached l hc.2.1, heights_nonneg_of_cached r hc.2.2⟩

/-- When no cached height below the root is negative, the rebalancing step of
removal never meets a null pointer, and no cached height of its result is
negative. -/
theorem remove_rebalance_nonneg_mk (e : α) (l r : avl_tree_node α) (h : Int)
    (cl : heights_nonneg l) (cr : heights_nonneg r) :
    ∃ t2, remove_rebalance (.mk e l r h) = some t2 ∧ heights_nonneg t2 := by
  have nl := heights_nonneg_height l cl
  have nr := heights_nonneg_height r cr
  simp only [remove_rebalance, balance_mk]
  split
  · next h1 =>
    cases r with
    | NULL => simp only [height_NULL] at h1; omega
    | mk e2 l2 r2 h2 =>
      have nl2 := heights_nonneg_height l2 cr.2.1
      have nr2 := heights_nonneg_height r2 cr.2.2
      split
      · refine ⟨_, rfl, ?_⟩
        simp only [heights_nonneg, height_mk, max_eq]
        exact ⟨by omega, ⟨by omega, cl, cr.2.1⟩, cr.2.2⟩
      · next h2 =>
        simp only [balance_mk] at h2
        cases l2 with
        | NULL => simp only [height_NULL] at h2; omega
        | mk e3 l3 r3 h3 =>
          have nl3 := heights_nonneg_height l3 cr.2.1.2.1
          have nr3 := heights_nonneg_height r3 cr.2.1.2.2
          refine ⟨_, rfl, ?_⟩
          simp only [heights_nonneg, height_mk, max_eq]
          exact ⟨by omega, ⟨by omega, cl, cr.2.1.2.1⟩, by omega, cr.2.1.2.2, cr.2.2⟩
  · split
    · next h1 =>
      cases l with
      | NULL => simp only [height_NULL] at h1; omega
      | mk e2 l2 r2 h2 =>
        have nl2 := heights_nonneg_height l2 cl.2.1
        have nr2 := heights_nonneg_height r2 cl.2.2
        split
        · refine ⟨_, rfl, ?_⟩
          simp only [heights_nonneg, height_mk, max_eq]
          exact ⟨by omega, cl.2.1, by omega, cl.2.2, cr⟩
        · next h2 =>
          simp only [balance_mk] at h2
          cases r2 with
          | NULL => simp only [height_NULL] at h2; omega
          | mk e3 l3 r3 h3 =>
            have nl3 := heights_nonneg_height l3 cl.2.2.2.1
            have nr3 := heights_nonneg_height r3 cl.2.2.2.2
            refine ⟨_, rfl, ?_⟩
            simp only [heights_nonneg, height_mk, max_eq]
            exact ⟨by omega, ⟨by omega, cl.2.1, cl.2.2.2.1⟩, by omega, cl.2.2.2.2, cr⟩
    · refine ⟨_, rfl, ?_⟩
      simp only [heights_nonneg, max_eq]
      exact ⟨by omega, cl, cr⟩

theorem remove_rebalance_nonneg (t : avl_tree_node α) (c : heights_nonneg t) :
    ∃ t2, remove_rebalance t = some t2 ∧ heights_nonneg t2 := by
  cases t with
  | NULL => exact ⟨.NULL, rfl, trivial⟩
  | mk e l r h => exact remove_rebalance_nonneg_mk e l r h c.2.1 c.2.2

theorem remove_rebalance_nonneg_of_eq (e : α) (l r t2 : avl_tree_node α) (h : Int)
    (cl : heights_nonneg l) (cr : heights_nonneg r)
    (heq : remove_rebalance (.mk e l r h) = some t2) : heights_nonneg t2 := by
  obtain ⟨t3, h3, c3⟩ := remove_rebalance_nonneg_mk e l r h cl cr
  rw [h3] at heq
  cases heq
  exact c3

/-! ## Removal -/

/-- Removal never produces a negative cached height. -/
theorem remove_nonneg (hash_field : α → Nat) :
    ∀ (t : avl_tree_node α) (k : Nat) (t2 : avl_tree_node α) (rem : Option (avl_tree_node α)),
      heights_nonneg t → avl_tree_node_remove hash_field t k = some (t2, rem) →
      heights_nonneg t2 := by
  intro t
  induction t with
  | NULL =>
    intro k t2 rem _ h
    simp only [avl_tree_node_remove, Option.some.injEq, Prod.mk.injEq] at h
    rw [← h.1]; trivial
  | mk e l r ht ihl ihr =>
    intro k t2 rem hc h
    obtain ⟨-, cl, cr⟩ := hc
    simp only [avl_tree_node_remove] at h
    split at h
    · simp only [Option.bind_eq_some, Option.map_eq_some', Prod.mk.injEq] at h
      obtain ⟨res, h1, root, h2, rfl, -⟩ := h
      exact remove_rebalance_nonneg_of_eq _ _ _ _ _ (ihl k res.1 res.2 cl h1) cr h2
    · split at h
      · simp only [Option.bind_eq_some, Option.map_eq_some', Prod.mk.injEq] at h
        obtain ⟨res, h1, root, h2, rfl, -⟩ := h
        exact remove_rebalance_nonneg_of_eq _ _ _ _ _ cl (ihr k res.1 res.2 cr h1) h2
      · split at h
        · simp only [Option.map_eq_some', Prod.mk.injEq] at h
          obtain ⟨root, h2, rfl, -⟩ := h
          obtain ⟨t3, h3, c3⟩ := remove_rebalance_nonneg _ cr
          rw [h3] at h2; cases h2; exact c3
        · simp only [Option.map_eq_some', Prod.mk.injEq] at h
          obtain ⟨root, h2, rfl, -⟩ := h
          obtain ⟨t3, h3, c3⟩ := remove_rebalance_nonneg _ cl
          rw [h3] at h2; cases h2; exact c3
        · split at h
          · cases h
          · simp only [Option.bind_eq_some] at h
            obtain ⟨res, h1, h2⟩ := h
            split at h2
            · simp only [Option.map_eq_some', Prod.mk.injEq] at h2
              obtain ⟨root, h3, rfl, -⟩ := h2
              exact remove_rebalance_nonneg_of_eq _ _ _ _ _ cl (ihr _ res.1 res.2 cr h1) h3
            · cases h2

theorem remove_rebalance_cached_of_eq (e : α) (l r t2 : avl_tree_node α) (h : Int)
    (cl : height_cached l) (cr : height_cached r)
    (heq : remove_rebalance (.mk e l r h) = some t2) : height_cached t2 := by
  obtain ⟨t3, h3, c3⟩ := remove_rebalance_cached_mk e l r h cl cr
  rw [h3] at heq
  cases heq
  exact c3

/-- Removal keeps the cached heights exact. -/
theorem remove_cached (hash_field : α → Nat) :
    ∀ (t : avl_tree_node α) (k : Nat) (t2 : avl_tree_node α) (rem : Option (avl_tree_node α)),
      height_cached t → avl_tree_node_remove hash_field t k = some (t2, rem) →
      height_cached t2 := by
  intro t
  induction t with
  | NULL =>
    intro k t2 rem _ h
    simp only [avl_tree_node_remove, Option.some.injEq, Prod.mk.injEq] at h
    rw [← h.1]; trivial
  | mk e l r ht ihl ihr =>
    intro k t2 rem hc h
    obtain ⟨-, cl, cr⟩ := hc
    simp only [avl_tree_node_remove] at h
    split at h
    · simp only [Option.bind_eq_some, Option.map_eq_some', Prod.mk.injEq] at h
      obtain ⟨res, h1, root, h2, rfl, -⟩ := h
      exact remove_rebalance_cached_of_eq _ _ _ _ _ (ihl k res.1 res.2 cl h1) cr h2
    · split at h
      · simp only [Option.bind_eq_some, Option.map_eq_some', Prod.mk.injEq] at h
        obtain ⟨res, h1, root, h2, rfl, -⟩ := h
        exact remove_rebalance_cached_of_eq _ _ _ _ _ cl (ihr k res.1 res.2 cr h1) h2
      · split at h
        · simp only [Option.map_eq_some', Prod.mk.injEq] at h
          obtain ⟨root, h2, rfl, -⟩ := h
          obtain ⟨t3, h3, c3⟩ := remove_rebalance_cached _ cr
          rw [h3] at h2; cases h2; exact c3
        · simp only [Option.map_eq_some', Prod.mk.injEq] at h
          obtain ⟨root, h2, rfl, -⟩ := h
          obtain ⟨t3, h3, c3⟩ := remove_rebalance_cached _ cl
          rw [h3] at h2; cases h2; exact c3
        · split at h
          · cases h
          · simp only [Option.bind_eq_some] at h
            obtain ⟨res, h1, h2⟩ := h
            split at h2
            · simp only [Option.map_eq_some', Prod.mk.injEq] at h2
              obtain ⟨root, h3, rfl, -⟩ := h2
              exact remove_rebalance_cached_of_eq _ _ _ _ _ cl (ihr _ res.1 res.2 cr h1) h3
            · cases h2

/-- Removal keeps a balanced subtree with exact cached heights balanced, and
lowers its height by at most one. -/
theorem remove_balanced (hash_field : α → Nat) :
    ∀ (t : avl_tree_node α) (k : Nat) (t2 : avl_tree_node α) (rem : Option (avl_tree_node α)),
      avl_balanced t → height_cached t →
      avl_tree_node_remove hash_field t k = some (t2, rem) →
      avl_balanced t2 ∧
        (avl_tree_node_height t2 = avl_tree_node_height t ∨
          avl_tree_node_height t2 + 1 = avl_tree_node_height t) := by
  intro t
  induction t with
  | NULL =>
    intro k t2 rem _ _ h
    simp only [avl_tree_node_remove, Option.some.injEq, Prod.mk.injEq] at h
    rw [← h.1]; exact ⟨trivial, Or.inl rfl⟩
  | mk e l r ht ihl ihr =>
    intro k t2 rem hb hc h
    obtain ⟨b0, bl, br⟩ := hb
    obtain ⟨c0, cl, cr⟩ := hc
    rw [abs_le] at b0
    have nl := height_cached_nonneg l cl
    have nr := height_cached_nonneg r cr
    simp only [avl_tree_node_remove] at h
    split at h
    · simp only [Option.bind_eq_some, Option.map_eq_some', Prod.mk.injEq] at h
      obtain ⟨res, h1, root, h2, rfl, -⟩ := h
      obtain ⟨b2, hd⟩ := ihl k res.1 res.2 bl cl h1
      have c2 := remove_cached hash_field l k res.1 res.2 cl h1
      obtain ⟨t3, h3, b3, -, hh⟩ :=
        remove_rebalance_avl e res.1 r ht b2 c2 br cr (by omega) (by omega)
      rw [h3] at h2; cases h2
      refine ⟨b3, ?_⟩
      simp only [height_mk]; omega
    · split at h
      · simp only [Option.bind_eq_some, Option.map_eq_some', Prod.mk.injEq] at h
        obtain ⟨res, h1, root, h2, rfl, -⟩ := h
        obtain ⟨b2, hd⟩ := ihr k res.1 res.2 br cr h1
        have c2 := remove_cached hash_field r k res.1 res.2 cr h1
        obtain ⟨t3, h3, b3, -, hh⟩ :=
          remove_rebalance_avl e l res.1 ht bl cl b2 c2 (by omega) (by omega)
        rw [h3] at h2; cases h2
        refine ⟨b3, ?_⟩
        simp only [height_mk]; omega
      · split at h
        · simp only [Option.map_eq_some', Prod.mk.injEq] at h
          obtain ⟨root, h2, rfl, -⟩ := h
          rw [remove_rebalance_fixed _ br cr] at h2; cases h2
          refine ⟨br, ?_⟩
          simp only [height_mk, height_NULL] at *; omega
        · simp only [Option.map_eq_some', Prod.mk.injEq] at h
          obtain ⟨root, h2, rfl, -⟩ := h
          rw [remove_rebalance_fixed _ bl cl] at h2; cases h2
          refine ⟨bl, ?_⟩
          simp only [height_mk, height_NULL] at *; omega
        · split at h
          · cases h
          · simp only [Option.bind_eq_some] at h
            obtain ⟨res, h1, h2⟩ := h
            split at h2
            · simp only [Option.map_eq_some', Prod.mk.injEq] at h2
              obtain ⟨root, h3, rfl, -⟩ := h2
              obtain ⟨b2, hd⟩ := ihr _ res.1 res.2 br cr h1
              have c2 := remove_cached hash_field _ _ res.1 res.2 cr h1
              obtain ⟨t3, h4, b3, -, hh⟩ :=
                remove_rebalance_avl _ _ res.1 _ bl cl b2 c2 (by omega) (by omega)
              rw [h4] at h3; cases h3
              refine ⟨b3, ?_⟩
              simp only [height_mk]; omega
            · cases h2

theorem find_none_of_ne (hash_field : α → Nat) (k : Nat) (xs : List α)
    (h : ∀ y ∈ xs, hash_field y ≠ k) : xs.find? (fun y => hash_field y == k) = none := by
  rw [List.find?_eq_none]
  intro y hy
  simpa using h y hy

theorem filter_self_of_ne (hash_field : α → Nat) (k : Nat) (xs : List α)
    (h : ∀ y ∈ xs, hash_field y ≠ k) : xs.filter (fun y => hash_field y != k) = xs := by
  rw [List.filter_eq_self]
  intro y hy
  simpa using h y hy

/-- The loop of lines 138-140 ends on the first node of the in-order sequence. -/
theorem leftmost_spec :
    ∀ (l r : avl_tree_node α) (e : α) (h : Int),
      ∃ se sr sh rest, leftmost (.mk e l r h) = .mk se .NULL sr sh ∧
        inorder (.mk e l r h) = se :: rest
  | .NULL, r, e, h => ⟨e, r, h, inorder r, rfl, rfl⟩
  | .mk e2 l2 r2 h2, r, e, h => by
    obtain ⟨se, sr, sh, rest, h1, h3⟩ := leftmost_spec l2 r2 e2 h2
    refine ⟨se, sr, sh, rest ++ e :: inorder r, ?_, ?_⟩
    · rw [leftmost, h1]
    · rw [inorder_mk, h3]; rfl

/-- Removal on an ordered subtree without negative cached heights never meets a
null pointer; it hands back the first element of key `k` (as a node reset to a
leaf) and leaves the in-order sequence without the elements of key `k`. -/
theorem remove_spec (hash_field : α → Nat) :
    ∀ (t : avl_tree_node α) (k : Nat), bst_ordered hash_field t → heights_nonneg t →
      ∃ t2, avl_tree_node_remove hash_field t k =
          some (t2, ((inorder t).find? (fun y => hash_field y == k)).map
            avl_tree_node_create) ∧
        inorder t2 = (inorder t).filter (fun y => hash_field y != k) := by
  intro t
  induction t with
  | NULL => intro k _ _; exact ⟨.NULL, rfl, rfl⟩
  | mk e l r ht ihl ihr =>
    intro k hbst hc
    obtain ⟨hl, hr, bl, br⟩ := hbst
    obtain ⟨-, cl, cr⟩ := hc
    by_cases hlt : k < hash_field e
    · obtain ⟨l2, h1, h2⟩ := ihl k bl cl
      have c2 := remove_nonneg hash_field l k _ _ cl h1
      obtain ⟨t3, h3, -⟩ := remove_rebalance_nonneg_mk e l2 r ht c2 cr
      have hne : ∀ y ∈ e :: inorder r, hash_field y ≠ k := by
        intro y hy
        rcases List.mem_cons.1 hy with rfl | hy
        · omega
        · have := hr y hy; omega
      refine ⟨t3, ?_, ?_⟩
      · simp only [avl_tree_node_remove]
        rw [if_pos hlt, h1]
        simp only [Option.some_bind, h3, Option.map_some']
        rw [inorder_mk, List.find?_append, find_none_of_ne hash_field k _ hne, Option.or_none]
      · rw [remove_rebalance_inorder _ _ h3, inorder_mk, h2, inorder_mk, List.filter_append,
          filter_self_of_ne hash_field k _ hne]
    · by_cases hgt : k > hash_field e
      · obtain ⟨r2, h1, h2⟩ := ihr k br cr
        have c2 := remove_nonneg hash_field r k _ _ cr h1
        obtain ⟨t3, h3, -⟩ := remove_rebalance_nonneg_mk e l r2 ht cl c2
        have hne : ∀ y ∈ inorder l, hash_field y ≠ k := by
          intro y hy
          have := hl y hy; omega
        have hne2 : hash_field e ≠ k := by omega
        refine ⟨t3, ?_, ?_⟩
        · simp only [avl_tree_node_remove]
          rw [if_neg hlt, if_pos hgt, h1]
          simp only [Option.some_bind, h3, Option.map_some']
          rw [inorder_mk, List.find?_append, find_none_of_ne hash_field k _ hne, Option.none_or,
            List.find?_cons_of_neg _ (by simpa using hne2)]
        · rw [remove_rebalance_inorder _ _ h3, inorder_mk, h2, inorder_mk, List.filter_append,
            filter_self_of_ne hash_field k _ hne, List.filter_cons_of_pos (by simpa using hne2)]
      · have heq : hash_field e = k := by omega
        have hnel : ∀ y ∈ inorder l, hash_field y ≠ k := by
          intro y hy
          have := hl y hy; omega
        have hner : ∀ y ∈ inorder r, hash_field y ≠ k := by
          intro y hy
          have := hr y hy; omega
        have hfind : (inorder (.mk e l r ht)).find? (fun y => hash_field y == k) = some e := by
          rw [inorder_mk, List.find?_append, find_none_of_ne hash_field k _ hnel, Option.none_or,
            List.find?_cons_of_pos _ (by simpa using heq)]
        have hfilter : (inorder (.mk e l r ht)).filter (fun y => hash_field y != k) =
            inorder l ++ inorder r := by
          rw [inorder_mk, List.filter_append, filter_self_of_ne hash_field k _ hnel,
            List.filter_cons_of_neg (by simpa using heq), filter_self_of_ne hash_field k _ hner]
        rw [hfind, hfilter]
        cases l with
        | NULL =>
          obtain ⟨t3, h3, -⟩ := remove_rebalance_nonneg r cr
          refine ⟨t3, ?_, ?_⟩
          · simp only [avl_tree_node_remove]
            rw [if_neg hlt, if_neg hgt]
            simp only [h3, Option.map_some']
            rfl
          · rw [remove_rebalance_inorder _ _ h3]; rfl
        | mk e1 l1 r1 h1 =>
          cases r with
          | NULL =>
            obtain ⟨t3, h3, -⟩ := remove_rebalance_nonneg _ cl
            refine ⟨t3, ?_, ?_⟩
            · simp only [avl_tree_node_remove]
              rw [if_neg hlt, if_neg hgt]
              simp only [h3, Option.map_some']
              rfl
            · rw [remove_rebalance_inorder _ _ h3]; simp [inorder]
          | mk e2 l2 r2 h2 =>
            obtain ⟨se, sr, sh, rest, hs1, hs2⟩ := leftmost_spec l2 r2 e2 h2
            obtain ⟨r3, hr3, hi3⟩ := ihr (hash_field se) br cr
            have hpw := (bst_ordered_iff_pairwise hash_field _).1 br
            rw [hs2, List.pairwise_cons] at hpw
            have hrest : ∀ y ∈ rest, hash_field y ≠ hash_field se := by
              intro y hy
              have := hpw.1 y hy; omega
            rw [hs2, List.find?_cons_of_pos _ (by simp)] at hr3
            rw [hs2, List.filter_cons_of_neg (by simp),
              filter_self_of_ne hash_field _ _ hrest] at hi3
            have c3 := remove_nonneg hash_field _ _ _ _ cr hr3
            obtain ⟨t3, h3, -⟩ := remove_rebalance_nonneg_mk se (.mk e1 l1 r1 h1) r3 1 cl c3
            refine ⟨t3, ?_, ?_⟩
            · rw [avl_tree_node_remove, if_neg hlt, if_neg hgt]
              simp only [hs1, hr3, Option.some_bind, Option.map_some', avl_tree_node_create, h3]
            · rw [remove_rebalance_inorder _ _ h3, inorder_mk, hi3, hs2]

/-! ## Lookup -/

theorem find_loop_NULL_iff (hash_field : α → Nat) (t : avl_tree_node α) (k : Nat) :
    find_loop hash_field t k = .NULL ↔ element_of (find_loop hash_field t k) = none := by
  cases h : find_loop hash_field t k <;> simp [element_of]

/-- On an ordered subtree the lookup loop stops on the node holding the first
element of key `k` of the in-order sequence, or on the null pointer when there
is none. -/
theorem find_loop_element (hash_field : α → Nat) (k : Nat) :
    ∀ t : avl_tree_node α, bst_ordered hash_field t →
      element_of (find_loop hash_field t k) =
        (inorder t).find? (fun y => hash_field y == k) := by
  intro t
  induction t with
  | NULL => intro _; rfl
  | mk e l r ht ihl ihr =>
    intro hbst
    obtain ⟨hl, hr, bl, br⟩ := hbst
    rw [find_loop, inorder_mk, List.find?_append]
    by_cases hne : hash_field e ≠ k
    · rw [if_pos hne]
      by_cases hlt : k < hash_field e
      · rw [if_pos hlt, ihl bl, find_none_of_ne hash_field k (e :: inorder r), Option.or_none]
        intro y hy
        rcases List.mem_cons.1 hy with rfl | hy
        · exact hne
        · have := hr y hy; omega
      · rw [if_neg hlt, ihr br, find_none_of_ne hash_field k (inorder l), Option.none_or,
          List.find?_cons_of_neg _ (by simpa using hne)]
        intro y hy
        have := hl y hy; omega
    · rw [if_neg hne]
      have heq : hash_field e = k := not_not.1 hne
      rw [find_none_of_ne hash_field k (inorder l), Option.none_or,
        List.find?_cons_of_pos _ (by simpa using heq)]
      · rfl
      · intro y hy
        have := hl y hy; omega

/-- The node found holds an element of the requested key. -/
theorem find_loop_key (hash_field : α → Nat) (k : Nat) :
    ∀ (t : avl_tree_node α) (e : α) (l r : avl_tree_node α) (h : Int),
      find_loop hash_field t k = .mk e l r h → hash_field e = k := by
  intro t
  induction t with
  | NULL => intro e l r h hf; cases hf
  | mk e0 l0 r0 h0 ihl ihr =>
    intro e l r h hf
    rw [find_loop] at hf
    split at hf
    · split at hf
      · exact ihl e l r h hf
      · exact ihr e l r h hf
    · next hne =>
      cases hf
      exact not_not.1 hne

/-- When no node has key `k` the lookup loop ends on the null pointer. -/
theorem find_loop_absent (hash_field : α → Nat) (k : Nat) :
    ∀ t : avl_tree_node α, (∀ y ∈ inorder t, hash_field y ≠ k) →
      find_loop hash_field t k = .NULL := by
  intro t
  induction t with
  | NULL => intro _; rfl
  | mk e l r h ihl ihr =>
    intro hne
    simp only [inorder_mk, List.mem_append, List.mem_cons] at hne
    rw [find_loop, if_pos (hne e (Or.inr (Or.inl rfl)))]
    split
    · exact ihl fun y hy => hne y (Or.inl hy)
    · exact ihr fun y hy => hne y (Or.inr (Or.inr hy))

/-! ## Sorted sequences -/

/-- A sequence sorted by key without an element of key `k` is its part below
`k` followed by its part above `k`. -/
theorem sorted_split (hash_field : α → Nat) (k : Nat) :
    ∀ xs : List α, xs.Pairwise (fun a b => hash_field a < hash_field b) →
      (∀ y ∈ xs, hash_field y ≠ k) →
      xs.filter (fun y => hash_field y < k) ++ xs.filter (fun y => k < hash_field y) = xs := by
  intro xs
  induction xs with
  | nil => intro _ _; rfl
  | cons a xs ih =>
    intro hp hne
    rw [List.pairwise_cons] at hp
    have ha : hash_field a ≠ k := hne a (List.mem_cons_self _ _)
    have hxs : ∀ y ∈ xs, hash_field y ≠ k := fun y hy => hne y (List.mem_cons_of_mem _ hy)
    by_cases hlt : hash_field a < k
    · rw [List.filter_cons_of_pos (by simpa using hlt),
        List.filter_cons_of_neg (by simp only [decide_eq_true_eq]; omega), List.cons_append,
        ih hp.2 hxs]
    · have h1 : xs.filter (fun y => hash_field y < k) = [] := by
        rw [List.filter_eq_nil_iff]
        intro y hy
        have := hp.1 y hy
        simp only [decide_eq_true_eq]; omega
      have h2 : xs.filter (fun y => k < hash_field y) = xs := by
        rw [List.filter_eq_self]
        intro y hy
        have := hp.1 y hy
        simp only [decide_eq_true_eq]; omega
      rw [List.filter_cons_of_neg (by simpa using hlt),
        List.filter_cons_of_pos (by simp only [decide_eq_true_eq]; omega), h1, h2,
        List.nil_append]

theorem sorted_insert (hash_field : α → Nat) (x : α) (xs : List α)
    (hp : xs.Pairwise (fun a b => hash_field a < hash_field b)) :
    (xs.filter (fun y => hash_field y < hash_field x) ++
      x :: xs.filter (fun y => hash_field x < hash_field y)).Pairwise
        (fun a b => hash_field a < hash_field b) := by
  rw [List.pairwise_append, List.pairwise_cons]
  refine ⟨hp.filter _, ⟨?_, hp.filter _⟩, ?_⟩
  · intro y hy
    simpa using (List.mem_filter.1 hy).2
  · intro a ha b hb
    have h1 : hash_field a < hash_field x := by simpa using (List.mem_filter.1 ha).2
    rcases List.mem_cons.1 hb with rfl | hb
    · exact h1
    · have h2 : hash_field x < hash_field b := by simpa using (List.mem_filter.1 hb).2
      omega

/-! ## The invariants are kept -/

theorem insert_invariants (hash_field : α → Nat) (x : α) (t : avl_tree_node α)
    (hinv : invariants hash_field t) :
    ∃ t2, avl_tree_node_insert hash_field t (avl_tree_node_create x) = some t2 ∧
      invariants hash_field t2 := by
  obtain ⟨hbst, hb, hc⟩ := hinv
  obtain ⟨t2, h2, b2, c2, -⟩ := insert_avl hash_field x t hb hc
  refine ⟨t2, h2, ?_, b2, c2⟩
  by_cases hdup : ∃ y ∈ inorder t, hash_field y = hash_field x
  · rw [insert_duplicate hash_field x t hbst hb hc hdup] at h2
    cases h2
    exact hbst
  · have hnew : ∀ y ∈ inorder t, hash_field y ≠ hash_field x :=
      fun y hy he => hdup ⟨y, hy, he⟩
    rw [bst_ordered_iff_pairwise, insert_inorder hash_field x t t2 hbst hnew h2]
    exact sorted_insert hash_field x _ ((bst_ordered_iff_pairwise hash_field t).1 hbst)

theorem remove_invariants (hash_field : α → Nat) (k : Nat) (t : avl_tree_node α)
    (hinv : invariants hash_field t) :
    ∃ t2, avl_tree_node_remove hash_field t k =
        some (t2, ((inorder t).find? (fun y => hash_field y == k)).map
          avl_tree_node_create) ∧
      invariants hash_field t2 ∧
      inorder t2 = (inorder t).filter (fun y => hash_field y != k) := by
  obtain ⟨hbst, hb, hc⟩ := hinv
  obtain ⟨t2, h2, hi⟩ := remove_spec hash_field t k hbst (heights_nonneg_of_cached t hc)
  refine ⟨t2, h2, ⟨?_, (remove_balanced hash_field t k t2 _ hb hc h2).1,
    remove_cached hash_field t k t2 _ hc h2⟩, hi⟩
  rw [bst_ordered_iff_pairwise, hi]
  exact ((bst_ordered_iff_pairwise hash_field t).1 hbst).filter _

theorem insert_all_invariants :
    ∀ (es : List α) (t : avl_tree α), invariants t.hash_field t.root →
      ∃ t2, insert_all t es = some t2 ∧ t2.hash_field = t.hash_field ∧
        invariants t2.hash_field t2.root := by
  intro es
  induction es with
  | nil => intro t hinv; exact ⟨t, rfl, rfl, hinv⟩
  | cons x es ih =>
    intro t hinv
    obtain ⟨r2, h2, hinv2⟩ := insert_invariants t.hash_field x t.root hinv
    obtain ⟨t3, h3, hf3, hinv3⟩ := ih ⟨r2, t.hash_field⟩ hinv2
    refine ⟨t3, ?_, hf3, hinv3⟩
    simp only [insert_all, avl_tree_insert, h2, Option.map_some', Option.some_bind]
    exact h3

/-- Removing a key that no node holds gives back the very same subtree and
stores nothing through `removed`. -/
theorem remove_absent (hash_field : α → Nat) (k : Nat) :
    ∀ t : avl_tree_node α, avl_balanced t → height_cached t →
      (∀ y ∈ inorder t, hash_field y ≠ k) →
      avl_tree_node_remove hash_field t k = some (t, none) := by
  intro t
  induction t with
  | NULL => intro _ _ _; rfl
  | mk e l r h ihl ihr =>
    intro hb hc hne
    simp only [inorder_mk, List.mem_append, List.mem_cons] at hne
    have hee : hash_field e ≠ k := hne e (Or.inr (Or.inl rfl))
    simp only [avl_tree_node_remove]
    by_cases hlt : k < hash_field e
    · rw [if_pos hlt, ihl hb.2.1 hc.2.1 fun y hy => hne y (Or.inl hy), Option.some_bind,
        remove_rebalance_fixed _ hb hc, Option.map_some']
    · have hgt : k > hash_field e := by omega
      rw [if_neg hlt, if_pos hgt, ihr hb.2.2 hc.2.2 fun y hy => hne y (Or.inr (Or.inr hy)),
        Option.some_bind, remove_rebalance_fixed _ hb hc, Option.map_some']

/-! ## Sequences of insertions and removals -/

theorem inorder_eq_nil (t : avl_tree_node α) (h : inorder t = []) : t = .NULL := by
  cases t with
  | NULL => rfl
  | mk e l r ht => simp [inorder_mk] at h

/-- Inserting fresh nodes with pairwise distinct keys, none of them in the
tree, adds exactly these elements. -/
theorem insert_all_perm :
    ∀ (es : List α) (t : avl_tree α), invariants t.hash_field t.root →
      (es.map t.hash_field).Nodup →
      (∀ x ∈ es, ∀ y ∈ inorder t.root, t.hash_field y ≠ t.hash_field x) →
      ∃ t2, insert_all t es = some t2 ∧ t2.hash_field = t.hash_field ∧
        invariants t2.hash_field t2.root ∧ (inorder t2.root).Perm (es ++ inorder t.root) := by
  intro es
  induction es with
  | nil => intro t hinv _ _; exact ⟨t, rfl, rfl, hinv, List.Perm.refl _⟩
  | cons x es ih =>
    intro t hinv hnd hnew
    rw [List.map_cons, List.nodup_cons] at hnd
    obtain ⟨r2, h2, hinv2⟩ := insert_invariants t.hash_field x t.root hinv
    have hx : ∀ y ∈ inorder t.root, t.hash_field y ≠ t.hash_field x :=
      hnew x (List.mem_cons_self _ _)
    have hio := insert_inorder t.hash_field x t.root r2 hinv.1 hx h2
    have hsp := sorted_split t.hash_field (t.hash_field x) (inorder t.root)
      ((bst_ordered_iff_pairwise _ _).1 hinv.1) hx
    have hperm : (inorder r2).Perm (x :: inorder t.root) := by
      rw [hio]
      conv_rhs => rw [← hsp]
      exact List.perm_middle
    obtain ⟨t3, h3, hf3, hinv3, hp3⟩ := ih ⟨r2, t.hash_field⟩ hinv2 hnd.2 (by
      intro z hz y hy
      rcases List.mem_cons.1 (hperm.mem_iff.1 hy) with rfl | hy
      · intro he
        exact hnd.1 (List.mem_map.2 ⟨z, hz, he.symm⟩)
      · exact hnew z (List.mem_cons_of_mem _ hz) y hy)
    refine ⟨t3, ?_, hf3, hinv3, ?_⟩
    · simp only [insert_all, avl_tree_insert, h2, Option.map_some', Option.some_bind]
      exact h3
    · refine hp3.trans ?_
      refine ((List.Perm.append_left es hperm).trans ?_)
      exact List.perm_middle

/-- Removing pairwise distinct keys that are all present hands back, call by
call, a leaf node holding an element of the requested key, and leaves the
in-order sequence without the elements of these keys. -/
theorem remove_all_spec :
    ∀ (ks : List Nat) (t : avl_tree α), invariants t.hash_field t.root → ks.Nodup →
      (∀ k ∈ ks, ∃ y ∈ inorder t.root, t.hash_field y = k) →
      ∃ t2 removed, remove_all t ks = some (t2, removed) ∧
        inorder t2.root = (inorder t.root).filter (fun y => decide (t.hash_field y ∉ ks)) ∧
        removed.map (fun n => (element_of n).map t.hash_field) = ks.map some ∧
        ∀ n ∈ removed, ∃ e ∈ inorder t.root, n = avl_tree_node_create e := by
  intro ks
  induction ks with
  | nil =>
    intro t _ _ _
    refine ⟨t, [], rfl, ?_, rfl, fun n hn => by cases hn⟩
    simp
  | cons k ks ih =>
    intro t hinv hnd hpres
    rw [List.nodup_cons] at hnd
    obtain ⟨r2, h2, hinv2, hio⟩ := remove_invariants t.hash_field k t.root hinv
    obtain ⟨y, hy, hk⟩ := hpres k (List.mem_cons_self _ _)
    cases hfind : (inorder t.root).find? (fun y => t.hash_field y == k) with
    | none =>
      have := List.find?_eq_none.1 hfind y hy
      simp [hk] at this
    | some e =>
      rw [hfind] at h2
      have hek : t.hash_field e = k := by simpa using List.find?_some hfind
      have hmem : e ∈ inorder t.root := List.mem_of_find?_eq_some hfind
      obtain ⟨t3, removed, h3, hio3, hkeys, hnodes⟩ := ih ⟨r2, t.hash_field⟩ hinv2 hnd.2 (by
        intro k2 hk2
        obtain ⟨z, hz, hzk⟩ := hpres k2 (List.mem_cons_of_mem _ hk2)
        refine ⟨z, ?_, hzk⟩
        show z ∈ inorder r2
        rw [hio, List.mem_filter]
        refine ⟨hz, ?_⟩
        have : k2 ≠ k := fun h => hnd.1 (h ▸ hk2)
        simpa [hzk] using this)
      refine ⟨t3, avl_tree_node_create e :: removed, ?_, ?_, ?_, ?_⟩
      · simp only [remove_all, avl_tree_remove, h2, Option.map_some', Option.some_bind,
          Option.getD_some, h3]
      · rw [hio3]
        show (inorder r2).filter _ = _
        rw [hio, List.filter_filter]
        apply List.filter_congr
        intro z _
        by_cases hzk : t.hash_field z = k <;> by_cases hzks : t.hash_field z ∈ ks <;>
          simp [hzk, hzks]
      · have hkeys2 : removed.map (fun n => (element_of n).map t.hash_field) = ks.map some :=
          hkeys
        rw [List.map_cons, List.map_cons, hkeys2]
        show some (t.hash_field e) :: _ = _
        rw [hek]
      · intro n hn
        rcases List.mem_cons.1 hn with rfl | hn
        · exact ⟨e, hmem, rfl⟩
        · obtain ⟨e2, he2, hn2⟩ := hnodes n hn
          refine ⟨e2, ?_, hn2⟩
          have he2' : e2 ∈ inorder r2 := he2
          rw [hio] at he2'
          exact (List.mem_filter.1 he2').1

/-! ## The record of rotations does not change the result -/

theorem insert_rebalance_left_log_erase (hash_field : α → Nat) (key depth : Nat)
    (root : avl_tree_node α) :
    (insert_rebalance_left_log hash_field key depth root).map Prod.fst =
      insert_rebalance_left hash_field key root := by
  unfold insert_rebalance_left_log insert_rebalance_left
  split
  · split
    · split <;> simp [Option.map_map, Function.comp_def]
    · rfl
  · rfl

theorem insert_rebalance_right_log_erase (hash_field : α → Nat) (key depth : Nat)
    (root : avl_tree_node α) :
    (insert_rebalance_right_log hash_field key depth root).map Prod.fst =
      insert_rebalance_right hash_field key root := by
  unfold insert_rebalance_right_log insert_rebalance_right
  split
  · split
    · split <;> simp [Option.map_map, Function.comp_def]
    · rfl
  · rfl

/-- Forgetting the record of rotations gives `avl_tree_node_insert`. -/
theorem insert_log_erase (hash_field : α → Nat) :
    ∀ (root node : avl_tree_node α) (depth : Nat),
      (avl_tree_node_insert_log hash_field depth root node).map Prod.fst =
        avl_tree_node_insert hash_field root node := by
  intro root
  induction root with
  | NULL => intro node depth; rfl
  | mk e l r h ihl ihr =>
    intro node depth
    cases node with
    | NULL => rfl
    | mk ne nl nr nh =>
      simp only [avl_tree_node_insert_log, avl_tree_node_insert]
      split
      · rw [← ihl (.mk ne nl nr nh) (depth + 1)]
        cases avl_tree_node_insert_log hash_field (depth + 1) l (.mk ne nl nr nh) with
        | none => rfl
        | some res =>
          simp only [Option.some_bind, Option.map_some']
          rw [← insert_rebalance_left_log_erase hash_field (hash_field ne) depth]
          cases insert_rebalance_left_log hash_field (hash_field ne) depth (.mk e res.1 r h) with
          | none => rfl
          | some res2 =>
            simp only [Option.some_bind, Option.map_some', Option.map_map]
            cases update_height res2.1 <;> rfl
      · split
        · rw [← ihr (.mk ne nl nr nh) (depth + 1)]
          cases avl_tree_node_insert_log hash_field (depth + 1) r (.mk ne nl nr nh) with
          | none => rfl
          | some res =>
            simp only [Option.some_bind, Option.map_some']
            rw [← insert_rebalance_right_log_erase hash_field (hash_field ne) depth]
            cases insert_rebalance_right_log hash_field (hash_field ne) depth
                (.mk e l res.1 h) with
            | none => rfl
            | some res2 =>
              simp only [Option.some_bind, Option.map_some', Option.map_map]
              cases update_height res2.1 <;> rfl
        · simp [Option.map_map, Function.comp_def]

/-- Forgetting the records gives `insert_all`. -/
theorem insert_all_log_erase :
    ∀ (es : List α) (tree : avl_tree α),
      (insert_all_log tree es).map Prod.fst = insert_all tree es := by
  intro es
  induction es with
  | nil => intro tree; rfl
  | cons x es ih =>
    intro tree
    simp only [insert_all_log, insert_all, avl_tree_insert]
    rw [← insert_log_erase tree.hash_field tree.root (avl_tree_node_create x) 0]
    cases avl_tree_node_insert_log tree.hash_field 0 tree.root (avl_tree_node_create x) with
    | none => rfl
    | some res =>
      simp only [Option.some_bind, Option.map_some', Option.map_map]
      rw [← ih]
      cases insert_all_log ⟨res.1, tree.hash_field⟩ es <;> rfl

/-! ## Height, size and the length of a lookup -/

/-- Forgetting the count gives the lookup loop. -/
theorem find_loop_count_erase (hash_field : α → Nat) (k : Nat) :
    ∀ t : avl_tree_node α, (find_loop_count hash_field t k).1 = find_loop hash_field t k := by
  intro t
  induction t with
  | NULL => rfl
  | mk e l r h ihl ihr =>
    rw [find_loop_count, find_loop]
    split
    · split
      · exact ihl
      · exact ihr
    · rfl

/-- The lookup loop examines at most as many nodes as the cached height of
the subtree it starts from. -/
theorem find_loop_count_le (hash_field : α → Nat) (k : Nat) :
    ∀ t : avl_tree_node α, height_cached t →
      ((find_loop_count hash_field t k).2 : Int) ≤ avl_tree_node_height t := by
  intro t
  induction t with
  | NULL => intro _; simp [find_loop_count, height_NULL]
  | mk e l r h ihl ihr =>
    intro hc
    obtain ⟨c0, cl, cr⟩ := hc
    have nl := height_cached_nonneg l cl
    have nr := height_cached_nonneg r cr
    have h1 := ihl cl
    have h2 := ihr cr
    rw [find_loop_count, height_mk]
    split
    · split
      · push_cast; omega
      · push_cast; omega
    · push_cast; omega

theorem four_mul_le_sq (u v y : Nat) (hu : y ≤ u ^ 2) (hv : y ≤ v ^ 2) :
    4 * y ≤ (u + v) ^ 2 := by
  rcases Nat.le_total u v with huv | huv
  · have : u * u ≤ u * v := Nat.mul_le_mul_left u huv
    nlinarith
  · have : v * v ≤ u * v := Nat.mul_le_mul_right v huv
    nlinarith

/-- A balanced subtree of cached height `h` with `n` nodes has
`2 ^ h ≤ (n + 1) ^ 2`. -/
theorem avl_pow_height_le :
    ∀ t : avl_tree_node α, avl_balanced t → height_cached t →
      2 ^ (avl_tree_node_height t).toNat ≤ (node_count t + 1) ^ 2 := by
  intro t
  induction t with
  | NULL => intro _ _; simp [height_NULL, node_count]
  | mk e l r h ihl ihr =>
    intro hb hc
    obtain ⟨b0, bl, br⟩ := hb
    obtain ⟨c0, cl, cr⟩ := hc
    rw [abs_le] at b0
    have nl := height_cached_nonneg l cl
    have nr := height_cached_nonneg r cr
    have h1 := ihl bl cl
    have h2 := ihr br cr
    obtain ⟨p, hp⟩ := Int.eq_ofNat_of_zero_le nl
    obtain ⟨q, hq⟩ := Int.eq_ofNat_of_zero_le nr
    rw [hp, Int.toNat_ofNat] at h1
    rw [hq, Int.toNat_ofNat] at h2
    rw [hp, hq] at b0 c0
    rw [height_mk, node_count]
    have hm1 : 2 ^ Nat.min p q ≤ (node_count l + 1) ^ 2 :=
      le_trans (Nat.pow_le_pow_right (by norm_num) (Nat.min_le_left p q)) h1
    have hm2 : 2 ^ Nat.min p q ≤ (node_count r + 1) ^ 2 :=
      le_trans (Nat.pow_le_pow_right (by norm_num) (Nat.min_le_right p q)) h2
    have hh : h.toNat ≤ Nat.min p q + 2 := by
      have : Nat.min p q = min p q := rfl
      omega
    have hpow : 2 ^ h.toNat ≤ 4 * 2 ^ Nat.min p q := by
      calc 2 ^ h.toNat ≤ 2 ^ (Nat.min p q + 2) := Nat.pow_le_pow_right (by norm_num) hh
        _ = 4 * 2 ^ Nat.min p q := by rw [pow_add]; ring
    refine le_trans hpow ?_
    have hsum : node_count l + 1 + node_count r + 1 =
        (node_count l + 1) + (node_count r + 1) := by omega
    rw [hsum]
    exact four_mul_le_sq _ _ _ hm1 hm2

/-! ## The rotations do not read the cached height of the node they rotate -/

theorem rotate_right_height_irrelevant (e : α) (l r : avl_tree_node α) (h h2 : Int) :
    avl_tree_node_rotate_right (.mk e l r h) = avl_tree_node_rotate_right (.mk e l r h2) := by
  cases l <;> rfl

theorem rotate_left_height_irrelevant (e : α) (l r : avl_tree_node α) (h h2 : Int) :
    avl_tree_node_rotate_left (.mk e l r h) = avl_tree_node_rotate_left (.mk e l r h2) := by
  cases r <;> rfl

theorem rotate_left_right_height_irrelevant (e : α) (l r : avl_tree_node α) (h h2 : Int) :
    avl_tree_node_rotate_left_right (.mk e l r h) =
      avl_tree_node_rotate_left_right (.mk e l r h2) := by
  simp only [avl_tree_node_rotate_left_right]
  cases avl_tree_node_rotate_left l with
  | none => rfl
  | some l2 => exact rotate_right_height_irrelevant e l2 r h h2

theorem rotate_right_left_height_irrelevant (e : α) (l r : avl_tree_node α) (h h2 : Int) :
    avl_tree_node_rotate_right_left (.mk e l r h) =
      avl_tree_node_rotate_right_left (.mk e l r h2) := by
  simp only [avl_tree_node_rotate_right_left]
  cases avl_tree_node_rotate_right r with
  | none => rfl
  | some r2 => exact rotate_left_height_irrelevant e l r2 h h2

/-- What the rebalancing step of removal does at balance `+2`. -/
theorem remove_rebalance_pos (e : α) (l r : avl_tree_node α) (h : Int)
    (hb : avl_tree_node_balance (.mk e l r h) = 2) :
    remove_rebalance (.mk e l r h) =
      if avl_tree_node_balance r ≥ 0 then avl_tree_node_rotate_left (.mk e l r h)
      else avl_tree_node_rotate_right_left (.mk e l r h) := by
  rw [balance_mk] at hb
  simp only [remove_rebalance, balance_mk]
  rw [if_pos (by omega)]
  split
  · exact rotate_left_height_irrelevant _ _ _ _ _
  · exact rotate_right_left_height_irrelevant _ _ _ _ _

/-- What the rebalancing step of removal does at balance `-2`. -/
theorem remove_rebalance_neg (e : α) (l r : avl_tree_node α) (h : Int)
    (hb : avl_tree_node_balance (.mk e l r h) = -2) :
    remove_rebalance (.mk e l r h) =
      if avl_tree_node_balance l ≤ 0 then avl_tree_node_rotate_right (.mk e l r h)
      else avl_tree_node_rotate_left_right (.mk e l r h) := by
  rw [balance_mk] at hb
  simp only [remove_rebalance, balance_mk]
  rw [if_neg (by omega), if_pos (by omega)]
  split
  · exact rotate_right_height_irrelevant _ _ _ _ _
  · exact rotate_left_right_height_irrelevant _ _ _ _ _

/-! ## What removal leaves in place -/

theorem node_count_eq_length :
    ∀ t : avl_tree_node α, node_count t = (inorder t).length := by
  intro t
  induction t with
  | NULL => rfl
  | mk e l r h ihl ihr =>
    rw [node_count, inorder_mk, List.length_append, List.length_cons, ihl, ihr]
    omega

/-- Dropping the elements of key `k` does not change what a search for another
key finds. -/
theorem find_filter_ne (hash_field : α → Nat) (k k2 : Nat) (hne : k2 ≠ k) :
    ∀ xs : List α,
      (xs.filter (fun y => hash_field y != k)).find? (fun y => hash_field y == k2) =
        xs.find? (fun y => hash_field y == k2) := by
  intro xs
  induction xs with
  | nil => rfl
  | cons a xs ih =>
    by_cases hak : hash_field a = k
    · have hak2 : hash_field a ≠ k2 := fun h => hne (h.symm.trans hak)
      rw [List.filter_cons_of_neg (by simpa using hak),
        List.find?_cons_of_neg _ (by simpa using hak2), ih]
    · rw [List.filter_cons_of_pos (by simpa using hak)]
      by_cases hak2 : hash_field a = k2
      · rw [List.find?_cons_of_pos _ (by simpa using hak2),
          List.find?_cons_of_pos _ (by simpa using hak2)]
      · rw [List.find?_cons_of_neg _ (by simpa using hak2),
          List.find?_cons_of_neg _ (by simpa using hak2), ih]

/-- In a sequence sorted by key, dropping the elements of a key that occurs
takes out exactly one element. -/
theorem sorted_filter_split (hash_field : α → Nat) (k : Nat) (xs : List α)
    (hp : xs.Pairwise (fun a b => hash_field a < hash_field b))
    (hmem : ∃ y ∈ xs, hash_field y = k) :
    ∃ before y after, xs = before ++ y :: after ∧ hash_field y = k ∧
      xs.filter (fun y => hash_field y != k) = before ++ after := by
  cases hfind : xs.find? (fun y => hash_field y == k) with
  | none =>
    obtain ⟨y, hy, hk⟩ := hmem
    have := List.find?_eq_none.1 hfind y hy
    simp [hk] at this
  | some e =>
    obtain ⟨hpe, as, bs, hxs, has⟩ := List.find?_eq_some.1 hfind
    have hek : hash_field e = k := by simpa using hpe
    refine ⟨as, e, bs, hxs, hek, ?_⟩
    rw [hxs, List.pairwise_append, List.pairwise_cons] at hp
    rw [hxs, List.filter_append, List.filter_cons_of_neg (by simpa using hek),
      filter_self_of_ne hash_field k as (fun a ha => by simpa using has a ha),
      filter_self_of_ne hash_field k bs (fun b hb => by
        have := hp.2.1.1 b hb
        omega)]

/-! ## Insertion with the rebalancing step of removal -/

/-- After the recursion into the left child, on a balanced subtree with exact
cached heights: the balance seen is at least `-2`, and at `-2` the left child
is a node which the new key went left of exactly when it leans left. -/
theorem insert_left_balance (hash_field : α → Nat) (x e : α) (l r : avl_tree_node α) (h : Int)
    (hb : avl_balanced (.mk e l r h)) (hc : height_cached (.mk e l r h)) :
    ∃ l2, avl_tree_node_insert hash_field l (avl_tree_node_create x) = some l2 ∧
      avl_balanced l2 ∧ height_cached l2 ∧
      -2 ≤ avl_tree_node_balance (.mk e l2 r h) ∧ avl_tree_node_balance (.mk e l2 r h) ≤ 1 ∧
      (avl_tree_node_height l2 = avl_tree_node_height l ∨
        avl_tree_node_height l2 = avl_tree_node_height l + 1) ∧
      (avl_tree_node_balance (.mk e l2 r h) = -2 →
        avl_tree_node_height l2 = avl_tree_node_height l + 1 ∧
        ∃ le ll lr lh, l2 = .mk le ll lr lh ∧
          ((hash_field x < hash_field le ∧ avl_tree_node_balance l2 = -1) ∨
            (hash_field le < hash_field x ∧ avl_tree_node_balance l2 = 1))) := by
  obtain ⟨b0, bl, br⟩ := hb
  obtain ⟨c0, cl, cr⟩ := hc
  rw [abs_le] at b0
  have nl := height_cached_nonneg l cl
  have nr := height_cached_nonneg r cr
  obtain ⟨l2, hl2, bl2, cl2, hd⟩ := insert_avl hash_field x l bl cl
  refine ⟨l2, hl2, bl2, cl2, ?_, ?_, ?_, ?_⟩
  · rw [balance_mk]; omega
  · rw [balance_mk]; omega
  · omega
  · intro hbal
    rw [balance_mk] at hbal
    rcases hd with hd | ⟨hd, hs⟩
    · omega
    · refine ⟨hd, ?_⟩
      rcases hs with hs | ⟨le, ll, lr, lh, rfl, hs⟩
      · subst hs; simp only [height_NULL] at *; omega
      · refine ⟨le, ll, lr, lh, rfl, ?_⟩
        rw [balance_mk]
        rcases hs with ⟨h1, h2⟩ | ⟨h1, h2⟩
        · exact Or.inl ⟨h1, by omega⟩
        · exact Or.inr ⟨h1, by omega⟩

/-- After the recursion into the right child: the mirror image of
`insert_left_balance`. -/
theorem insert_right_balance (hash_field : α → Nat) (x e : α) (l r : avl_tree_node α) (h : Int)
    (hb : avl_balanced (.mk e l r h)) (hc : height_cached (.mk e l r h)) :
    ∃ r2, avl_tree_node_insert hash_field r (avl_tree_node_create x) = some r2 ∧
      avl_balanced r2 ∧ height_cached r2 ∧
      -1 ≤ avl_tree_node_balance (.mk e l r2 h) ∧ avl_tree_node_balance (.mk e l r2 h) ≤ 2 ∧
      (avl_tree_node_height r2 = avl_tree_node_height r ∨
        avl_tree_node_height r2 = avl_tree_node_height r + 1) ∧
      (avl_tree_node_balance (.mk e l r2 h) = 2 →
        avl_tree_node_height r2 = avl_tree_node_height r + 1 ∧
        ∃ re rl rr rh, r2 = .mk re rl rr rh ∧
          ((hash_field x < hash_field re ∧ avl_tree_node_balance r2 = -1) ∨
            (hash_field re < hash_field x ∧ avl_tree_node_balance r2 = 1))) := by
  obtain ⟨b0, bl, br⟩ := hb
  obtain ⟨c0, cl, cr⟩ := hc
  rw [abs_le] at b0
  have nl := height_cached_nonneg l cl
  have nr := height_cached_nonneg r cr
  obtain ⟨r2, hr2, br2, cr2, hd⟩ := insert_avl hash_field x r br cr
  refine ⟨r2, hr2, br2, cr2, ?_, ?_, ?_, ?_⟩
  · rw [balance_mk]; omega
  · rw [balance_mk]; omega
  · omega
  · intro hbal
    rw [balance_mk] at hbal
    rcases hd with hd | ⟨hd, hs⟩
    · omega
    · refine ⟨hd, ?_⟩
      rcases hs with hs | ⟨re, rl, rr, rh, rfl, hs⟩
      · subst hs; simp only [height_NULL] at *; omega
      · refine ⟨re, rl, rr, rh, rfl, ?_⟩
        rw [balance_mk]
        rcases hs with ⟨h1, h2⟩ | ⟨h1, h2⟩
        · exact Or.inl ⟨h1, by omega⟩
        · exact Or.inr ⟨h1, by omega⟩

/-- The test of lines 84-91 followed by the height update of line 109, on a
root whose left subtree comes back from the recursion: it succeeds, it computes
what the rebalancing step of removal computes, and it rotates (once, at this
root, giving a subtree as high as the left subtree) exactly when the balance
is `-2`. -/
theorem insert_rebalance_left_spec (hash_field : α → Nat) (x e : α) (depth : Nat)
    (l2 r : avl_tree_node α) (h : Int)
    (bl2 : avl_balanced l2) (cl2 : height_cached l2) (br : avl_balanced r) (cr : height_cached r)
    (h0 : -2 ≤ avl_tree_node_balance (.mk e l2 r h))
    (h1 : avl_tree_node_balance (.mk e l2 r h) ≤ 1)
    (hs : avl_tree_node_balance (.mk e l2 r h) = -2 →
      ∃ le ll lr lh, l2 = .mk le ll lr lh ∧
        ((hash_field x < hash_field le ∧ avl_tree_node_balance l2 = -1) ∨
          (hash_field le < hash_field x ∧ avl_tree_node_balance l2 = 1))) :
    ∃ t3 log t2,
      insert_rebalance_left_log hash_field (hash_field x) depth (.mk e l2 r h) = some (t3, log) ∧
      update_height t3 = some t2 ∧
      remove_rebalance (.mk e l2 r h) = some t2 ∧
      avl_balanced t2 ∧ height_cached t2 ∧
      ((avl_tree_node_balance (.mk e l2 r h) = -2 ∧ (∃ k, log = [⟨k, e, depth⟩]) ∧
          avl_tree_node_height t2 = avl_tree_node_height l2) ∨
        (avl_tree_node_balance (.mk e l2 r h) ≠ -2 ∧ log = [] ∧
          avl_tree_node_height t2 =
            1 + Max.max (avl_tree_node_height l2) (avl_tree_node_height r))) := by
  have nl := height_cached_nonneg l2 cl2
  have nr := height_cached_nonneg r cr
  by_cases hbal : avl_tree_node_balance (.mk e l2 r h) = -2
  · obtain ⟨le, ll, lr, lh, rfl, hs2⟩ := hs hbal
    have hc0 := cl2.1
    rw [remove_rebalance_neg _ _ _ _ hbal]
    simp only [insert_rebalance_left_log, if_pos hbal]
    rw [balance_mk, height_mk] at hbal
    rw [balance_mk] at hs2
    rcases hs2 with ⟨hk, hb2⟩ | ⟨hk, hb2⟩
    · obtain ⟨t2, ht2, bt2, ct2, hh2⟩ :=
        rotate_right_avl e le ll lr r h lh bl2 cl2 br cr (by omega) (by omega)
      rw [if_pos hk, ht2, if_pos (by rw [balance_mk]; omega)]
      cases t2 with
      | NULL => simp [avl_tree_node_rotate_right] at ht2
      | mk e3 l3 r3 h3 =>
        refine ⟨_, _, _, rfl, update_height_of_cached _ _ _ _ ct2, rfl, bt2, ct2,
          Or.inl ⟨by rw [balance_mk, height_mk]; omega, ⟨_, rfl⟩, ?_⟩⟩
        rw [hh2, if_neg (by omega)]; rfl
    · obtain ⟨t2, ht2, bt2, ct2, hh2⟩ :=
        rotate_left_right_avl e le ll lr r h lh bl2 cl2 br cr (by omega) (by omega)
      rw [if_neg (by omega), ht2, if_neg (by rw [balance_mk]; omega)]
      cases t2 with
      | NULL =>
        simp only [height_NULL] at hh2; omega
      | mk e3 l3 r3 h3 =>
        exact ⟨_, _, _, rfl, update_height_of_cached _ _ _ _ ct2, rfl, bt2, ct2,
          Or.inl ⟨by rw [balance_mk, height_mk]; omega, ⟨_, rfl⟩, hh2⟩⟩
  · simp only [insert_rebalance_left_log, if_neg hbal]
    rw [balance_mk] at hbal h0 h1
    refine ⟨_, _, _, rfl, rfl, ?_, ?_, ?_, Or.inr ⟨by rw [balance_mk]; exact hbal, rfl, ?_⟩⟩
    · simp only [remove_rebalance, balance_mk]
      rw [if_neg (by omega), if_neg (by omega)]
    · simp only [avl_balanced, abs_le]
      exact ⟨⟨by omega, by omega⟩, bl2, br⟩
    · simp only [height_cached, max_eq]
      exact ⟨by omega, cl2, cr⟩
    · simp only [height_mk, max_eq]; omega

/-- The mirror image of `insert_rebalance_left_spec`, for lines 97-104. -/
theorem insert_rebalance_right_spec (hash_field : α → Nat) (x e : α) (depth : Nat)
    (l r2 : avl_tree_node α) (h : Int)
    (bl : avl_balanced l) (cl : height_cached l) (br2 : avl_balanced r2)
    (cr2 : height_cached r2)
    (h0 : -1 ≤ avl_tree_node_balance (.mk e l r2 h))
    (h1 : avl_tree_node_balance (.mk e l r2 h) ≤ 2)
    (hs : avl_tree_node_balance (.mk e l r2 h) = 2 →
      ∃ re rl rr rh, r2 = .mk re rl rr rh ∧
        ((hash_field x < hash_field re ∧ avl_tree_node_balance r2 = -1) ∨
          (hash_field re < hash_field x ∧ avl_tree_node_balance r2 = 1))) :
    ∃ t3 log t2,
      insert_rebalance_right_log hash_field (hash_field x) depth (.mk e l r2 h) =
        some (t3, log) ∧
      update_height t3 = some t2 ∧
      remove_rebalance (.mk e l r2 h) = some t2 ∧
      avl_balanced t2 ∧ height_cached t2 ∧
      ((avl_tree_node_balance (.mk e l r2 h) = 2 ∧ (∃ k, log = [⟨k, e, depth⟩]) ∧
          avl_tree_node_height t2 = avl_tree_node_height r2) ∨
        (avl_tree_node_balance (.mk e l r2 h) ≠ 2 ∧ log = [] ∧
          avl_tree_node_height t2 =
            1 + Max.max (avl_tree_node_height l) (avl_tree_node_height r2))) := by
  have nl := height_cached_nonneg l cl
  have nr := height_cached_nonneg r2 cr2
  by_cases hbal : avl_tree_node_balance (.mk e l r2 h) = 2
  · obtain ⟨re, rl, rr, rh, rfl, hs2⟩ := hs hbal
    have hc0 := cr2.1
    rw [remove_rebalance_pos _ _ _ _ hbal]
    simp only [insert_rebalance_right_log, if_pos hbal]
    rw [balance_mk, height_mk] at hbal
    rw [balance_mk] at hs2
    rcases hs2 with ⟨hk, hb2⟩ | ⟨hk, hb2⟩
    · obtain ⟨t2, ht2, bt2, ct2, hh2⟩ :=
        rotate_right_left_avl e re l rl rr h rh br2 cr2 bl cl (by omega) (by omega)
      rw [if_neg (by omega), ht2, if_neg (by rw [balance_mk]; omega)]
      cases t2 with
      | NULL =>
        simp only [height_NULL] at hh2; omega
      | mk e3 l3 r3 h3 =>
        exact ⟨_, _, _, rfl, update_height_of_cached _ _ _ _ ct2, rfl, bt2, ct2,
          Or.inl ⟨by rw [balance_mk, height_mk]; omega, ⟨_, rfl⟩, hh2⟩⟩
    · obtain ⟨t2, ht2, bt2, ct2, hh2⟩ :=
        rotate_left_avl e re l rl rr h rh br2 cr2 bl cl (by omega) (by omega)
      rw [if_pos hk, ht2, if_pos (by rw [balance_mk]; omega)]
      cases t2 with
      | NULL => simp [avl_tree_node_rotate_left] at ht2
      | mk e3 l3 r3 h3 =>
        refine ⟨_, _, _, rfl, update_height_of_cached _ _ _ _ ct2, rfl, bt2, ct2,
          Or.inl ⟨by rw [balance_mk, height_mk]; omega, ⟨_, rfl⟩, ?_⟩⟩
        rw [hh2, if_neg (by omega)]; rfl
  · simp only [insert_rebalance_right_log, if_neg hbal]
    rw [balance_mk] at hbal h0 h1
    refine ⟨_, _, _, rfl, rfl, ?_, ?_, ?_, Or.inr ⟨by rw [balance_mk]; exact hbal, rfl, ?_⟩⟩
    · simp only [remove_rebalance, balance_mk]
      rw [if_neg (by omega), if_neg (by omega)]
    · simp only [avl_balanced, abs_le]
      exact ⟨⟨by omega, by omega⟩, bl, br2⟩
    · simp only [height_cached, max_eq]
      exact ⟨by omega, cl, cr2⟩
    · simp only [height_mk, max_eq]; omega

/-- On a balanced subtree with exact cached heights, insertion with the
rebalancing step of removal computes what `avl_tree_node_insert` computes. -/
theorem insert_remove_rule_eq (hash_field : α → Nat) (x : α) :
    ∀ t : avl_tree_node α, avl_balanced t → height_cached t →
      avl_tree_node_insert_remove_rule hash_field t (avl_tree_node_create x) =
        avl_tree_node_insert hash_field t (avl_tree_node_create x) := by
  intro t
  induction t with
  | NULL => intro _ _; rfl
  | mk e l r h ihl ihr =>
    intro hb hc
    simp only [avl_tree_node_create, avl_tree_node_insert_remove_rule, avl_tree_node_insert]
    split
    · obtain ⟨l2, hl2, bl2, cl2, h0, h1, -, hs⟩ := insert_left_balance hash_field x e l r h hb hc
      have ih := ihl hb.2.1 hc.2.1
      simp only [avl_tree_node_create] at ih hl2
      rw [ih, hl2, Option.some_bind, Option.some_bind]
      obtain ⟨t3, log, t2, h3, h4, h5, -⟩ :=
        insert_rebalance_left_spec hash_field x e 0 l2 r h bl2 cl2 hb.2.2 hc.2.2 h0 h1
          (fun hbal => (hs hbal).2)
      have h6 := insert_rebalance_left_log_erase hash_field (hash_field x) 0 (.mk e l2 r h)
      rw [h3, Option.map_some'] at h6
      rw [h5, ← h6, Option.some_bind, h4]
    · split
      · obtain ⟨r2, hr2, br2, cr2, h0, h1, -, hs⟩ :=
          insert_right_balance hash_field x e l r h hb hc
        have ih := ihr hb.2.2 hc.2.2
        simp only [avl_tree_node_create] at ih hr2
        rw [ih, hr2, Option.some_bind, Option.some_bind]
        obtain ⟨t3, log, t2, h3, h4, h5, -⟩ :=
          insert_rebalance_right_spec hash_field x e 0 l r2 h hb.2.1 hc.2.1 br2 cr2 h0 h1
            (fun hbal => (hs hbal).2)
        have h6 := insert_rebalance_right_log_erase hash_field (hash_field x) 0 (.mk e l r2 h)
        rw [h3, Option.map_some'] at h6
        rw [h5, ← h6, Option.some_bind, h4]
      · rfl

/-! ## The balance tests along an insertion path -/

/-- Forgetting the list of balance tests gives `avl_tree_node_insert`. -/
theorem insert_path_erase (hash_field : α → Nat) :
    ∀ (root node : avl_tree_node α) (depth : Nat),
      (avl_tree_node_insert_path hash_field depth root node).map Prod.fst =
        avl_tree_node_insert hash_field root node := by
  intro root
  induction root with
  | NULL => intro node depth; rfl
  | mk e l r h ihl ihr =>
    intro node depth
    cases node with
    | NULL => rfl
    | mk ne nl nr nh =>
      simp only [avl_tree_node_insert_path, avl_tree_node_insert]
      split
      · rw [← ihl (.mk ne nl nr nh) (depth + 1)]
        cases avl_tree_node_insert_path hash_field (depth + 1) l (.mk ne nl nr nh) with
        | none => rfl
        | some res =>
          simp only [Option.some_bind, Option.map_some']
          rw [← insert_rebalance_left_log_erase hash_field (hash_field ne) depth]
          cases insert_rebalance_left_log hash_field (hash_field ne) depth (.mk e res.1 r h) with
          | none => rfl
          | some res2 =>
            simp only [Option.some_bind, Option.map_some', Option.map_map]
            cases update_height res2.1 <;> rfl
      · split
        · rw [← ihr (.mk ne nl nr nh) (depth + 1)]
          cases avl_tree_node_insert_path hash_field (depth + 1) r (.mk ne nl nr nh) with
          | none => rfl
          | some res =>
            simp only [Option.some_bind, Option.map_some']
            rw [← insert_rebalance_right_log_erase hash_field (hash_field ne) depth]
            cases insert_rebalance_right_log hash_field (hash_field ne) depth
                (.mk e l res.1 h) with
            | none => rfl
            | some res2 =>
              simp only [Option.some_bind, Option.map_some', Option.map_map]
              cases update_height res2.1 <;> rfl
        · simp [Option.map_map, Function.comp_def]

/-- The balance tests of one insertion into a balanced subtree with exact
cached heights: the insertion succeeds, there is one test per level of the
path (deepest first), and either every test is calm, or the height of the
subtree is what it was and exactly one test found `±2`, rotated there and gave
back a subtree of the height the node had before, all other tests being
calm. -/
theorem insert_path_spec (hash_field : α → Nat) (x : α) :
    ∀ (t : avl_tree_node α) (depth : Nat), avl_balanced t → height_cached t →
      ∃ t2 path,
        avl_tree_node_insert_path hash_field depth t (avl_tree_node_create x) =
          some (t2, path) ∧
        avl_tree_node_insert hash_field t (avl_tree_node_create x) = some t2 ∧
        path.map (fun s => s.depth) = (List.range' depth path.length).reverse ∧
        ((∀ s ∈ path, s.calm) ∨
          (avl_tree_node_height t2 = avl_tree_node_height t ∧
            ∃ deeper s higher, path = deeper ++ s :: higher ∧
              s.rotation ≠ none ∧ (s.balance = 2 ∨ s.balance = -2) ∧
              s.height_after = s.height_before ∧
              (∀ s2 ∈ deeper, s2.calm) ∧ (∀ s2 ∈ higher, s2.calm))) := by
  intro t
  induction t with
  | NULL =>
    intro depth _ _
    exact ⟨avl_tree_node_create x, [], rfl, rfl, rfl, Or.inl (fun s hs => by cases hs)⟩
  | mk e l r h ihl ihr =>
    intro depth hb hc
    have hb2 := hb
    have hc2 := hc
    obtain ⟨b0, bl, br⟩ := hb2
    obtain ⟨c0, cl, cr⟩ := hc2
    rw [abs_le] at b0
    have nl := height_cached_nonneg l cl
    have nr := height_cached_nonneg r cr
    have herase := insert_path_erase hash_field (.mk e l r h) (avl_tree_node_create x) depth
    by_cases hlt : hash_field x < hash_field e
    · obtain ⟨l2, pl, hp, hi, hdep, hcase⟩ := ihl (depth + 1) bl cl
      obtain ⟨l3, hl3, bl2, cl2, h0, h1, hd, hs⟩ :=
        insert_left_balance hash_field x e l r h hb hc
      rw [hi] at hl3
      cases hl3
      obtain ⟨t3, log, t2, h3, h4, -, -, -, hlog⟩ :=
        insert_rebalance_left_spec hash_field x e depth l2 r h bl2 cl2 br cr h0 h1
          (fun hbal => (hs hbal).2)
      have hpath : avl_tree_node_insert_path hash_field depth (.mk e l r h)
          (avl_tree_node_create x) =
          some (t2, pl ++ [⟨depth, e, avl_tree_node_balance (.mk e l2 r h),
            log.head?.map (fun ev => ev.kind), h, avl_tree_node_height t2⟩]) := by
        simp only [avl_tree_node_create] at hp ⊢
        simp only [avl_tree_node_insert_path, if_pos hlt, hp, Option.some_bind, h3, h4,
          Option.map_some']
      rw [hpath, Option.map_some'] at herase
      refine ⟨_, _, hpath, herase.symm, ?_, ?_⟩
      · rw [List.map_append, hdep, List.length_append, List.length_singleton,
          List.range'_succ, List.reverse_cons]
        rfl
      · rw [balance_mk] at h0 h1 hlog
        rcases hcase with hcalm | ⟨hh, deeper, s, higher, hsplit, hrot, hbal, hsame, hdp, hhi⟩
        · rcases hlog with ⟨hbal, ⟨k, hk⟩, hh2⟩ | ⟨hbal, hk, hh2⟩
          · right
            have hg := (hs (by rw [balance_mk]; exact hbal)).1
            clear hs
            refine ⟨by simp only [height_mk]; omega, pl, _, [], rfl, ?_, Or.inr ?_, ?_, hcalm,
              fun s2 hs2 => by cases hs2⟩
            · rw [hk]; simp
            · rw [balance_mk]; exact hbal
            · show avl_tree_node_height t2 = h
              omega
          · left
            intro s hs2
            rcases List.mem_append.1 hs2 with hs2 | hs2
            · exact hcalm s hs2
            · rw [List.mem_singleton] at hs2
              subst hs2
              refine ⟨by rw [hk]; rfl, ?_, ?_⟩
              · show -1 ≤ avl_tree_node_balance (.mk e l2 r h)
                rw [balance_mk]; omega
              · show avl_tree_node_balance (.mk e l2 r h) ≤ 1
                rw [balance_mk]; omega
        · rcases hlog with ⟨hbal2, -, -⟩ | ⟨hbal2, hk, hh2⟩
          · omega
          · right
            refine ⟨by simp only [height_mk]; omega, deeper, s,
              higher ++ [⟨depth, e, avl_tree_node_balance (.mk e l2 r h),
                log.head?.map (fun ev => ev.kind), h, avl_tree_node_height t2⟩],
              ?_, hrot, hbal, hsame, hdp, ?_⟩
            · rw [hsplit, List.append_assoc, List.cons_append]
            · intro s2 hs2
              rcases List.mem_append.1 hs2 with hs2 | hs2
              · exact hhi s2 hs2
              · rw [List.mem_singleton] at hs2
                subst hs2
                refine ⟨by rw [hk]; rfl, ?_, ?_⟩
                · show -1 ≤ avl_tree_node_balance (.mk e l2 r h)
                  rw [balance_mk]; omega
                · show avl_tree_node_balance (.mk e l2 r h) ≤ 1
                  rw [balance_mk]; omega
    · by_cases hgt : hash_field x > hash_field e
      · obtain ⟨r2, pr, hp, hi, hdep, hcase⟩ := ihr (depth + 1) br cr
        obtain ⟨r3, hr3, br2, cr2, h0, h1, hd, hs⟩ :=
          insert_right_balance hash_field x e l r h hb hc
        rw [hi] at hr3
        cases hr3
        obtain ⟨t3, log, t2, h3, h4, -, -, -, hlog⟩ :=
          insert_rebalance_right_spec hash_field x e depth l r2 h bl cl br2 cr2 h0 h1
            (fun hbal => (hs hbal).2)
        have hpath : avl_tree_node_insert_path hash_field depth (.mk e l r h)
            (avl_tree_node_create x) =
            some (t2, pr ++ [⟨depth, e, avl_tree_node_balance (.mk e l r2 h),
              log.head?.map (fun ev => ev.kind), h, avl_tree_node_height t2⟩]) := by
          simp only [avl_tree_node_create] at hp ⊢
          simp only [avl_tree_node_insert_path, if_neg hlt, if_pos hgt, hp, Option.some_bind,
            h3, h4, Option.map_some']
        rw [hpath, Option.map_some'] at herase
        refine ⟨_, _, hpath, herase.symm, ?_, ?_⟩
        · rw [List.map_append, hdep, List.length_append, List.length_singleton,
            List.range'_succ, List.reverse_cons]
          rfl
        · rw [balance_mk] at h0 h1 hlog
          rcases hcase with hcalm | ⟨hh, deeper, s, higher, hsplit, hrot, hbal, hsame, hdp, hhi⟩
          · rcases hlog with ⟨hbal, ⟨k, hk⟩, hh2⟩ | ⟨hbal, hk, hh2⟩
            · right
              have hg := (hs (by rw [balance_mk]; exact hbal)).1
              clear hs
              refine ⟨by simp only [height_mk]; omega, pr, _, [], rfl, ?_, Or.inl ?_, ?_, hcalm,
                fun s2 hs2 => by cases hs2⟩
              · rw [hk]; simp
              · rw [balance_mk]; exact hbal
              · show avl_tree_node_height t2 = h
                omega
            · left
              intro s hs2
              rcases List.mem_append.1 hs2 with hs2 | hs2
              · exact hcalm s hs2
              · rw [List.mem_singleton] at hs2
                subst hs2
                refine ⟨by rw [hk]; rfl, ?_, ?_⟩
                · show -1 ≤ avl_tree_node_balance (.mk e l r2 h)
                  rw [balance_mk]; omega
                · show avl_tree_node_balance (.mk e l r2 h) ≤ 1
                  rw [balance_mk]; omega
          · rcases hlog with ⟨hbal2, -, -⟩ | ⟨hbal2, hk, hh2⟩
            · omega
            · right
              refine ⟨by simp only [height_mk]; omega, deeper, s,
                higher ++ [⟨depth, e, avl_tree_node_balance (.mk e l r2 h),
                  log.head?.map (fun ev => ev.kind), h, avl_tree_node_height t2⟩],
                ?_, hrot, hbal, hsame, hdp, ?_⟩
              · rw [hsplit, List.append_assoc, List.cons_append]
              · intro s2 hs2
                rcases List.mem_append.1 hs2 with hs2 | hs2
                · exact hhi s2 hs2
                · rw [List.mem_singleton] at hs2
                  subst hs2
                  refine ⟨by rw [hk]; rfl, ?_, ?_⟩
                  · show -1 ≤ avl_tree_node_balance (.mk e l r2 h)
                    rw [balance_mk]; omega
                  · show avl_tree_node_balance (.mk e l r2 h) ≤ 1
                    rw [balance_mk]; omega
      · have hpath : avl_tree_node_insert_path hash_field depth (.mk e l r h)
            (avl_tree_node_create x) = some (.mk e l r h, []) := by
          simp only [avl_tree_node_create, avl_tree_node_insert_path, if_neg hlt, if_neg hgt,
            update_height_of_cached _ _ _ _ hc, Option.map_some']
        rw [hpath, Option.map_some'] at herase
        exact ⟨_, _, hpath, herase.symm, rfl, Or.inl (fun s hs => by cases hs)⟩

/-! ## The balance tests of a removal -/

/-- Forgetting the balance test gives `remove_rebalance`. -/
theorem remove_rebalance_log_erase (t : avl_tree_node α) :
    (remove_rebalance_log t).map Prod.fst = remove_rebalance t := by
  cases t with
  | NULL => rfl
  | mk e l r h =>
    simp only [remove_rebalance_log, remove_rebalance]
    split
    · split <;> simp [Option.map_map, Function.comp_def]
    · split
      · split <;> simp [Option.map_map, Function.comp_def]
      · rfl

/-- Forgetting the list of balance tests gives `avl_tree_node_remove`. -/
theorem remove_log_erase (hash_field : α → Nat) :
    ∀ (t : avl_tree_node α) (k : Nat),
      (avl_tree_node_remove_log hash_field t k).map Prod.fst =
        avl_tree_node_remove hash_field t k := by
  intro t
  induction t with
  | NULL => intro k; rfl
  | mk e l r h ihl ihr =>
    intro k
    by_cases hlt : k < hash_field e
    · simp only [avl_tree_node_remove_log, avl_tree_node_remove, if_pos hlt]
      rw [← ihl k]
      cases avl_tree_node_remove_log hash_field l k with
      | none => rfl
      | some res =>
        simp only [Option.some_bind, Option.map_some', Option.map_map]
        rw [← remove_rebalance_log_erase]
        cases remove_rebalance_log (.mk e res.1.1 r h) <;> rfl
    · by_cases hgt : k > hash_field e
      · simp only [avl_tree_node_remove_log, avl_tree_node_remove, if_neg hlt, if_pos hgt]
        rw [← ihr k]
        cases avl_tree_node_remove_log hash_field r k with
        | none => rfl
        | some res =>
          simp only [Option.some_bind, Option.map_some', Option.map_map]
          rw [← remove_rebalance_log_erase]
          cases remove_rebalance_log (.mk e l res.1.1 h) <;> rfl
      · cases l with
        | NULL =>
          simp only [avl_tree_node_remove_log, avl_tree_node_remove, if_neg hlt, if_neg hgt]
          rw [← remove_rebalance_log_erase]
          cases remove_rebalance_log r <;> rfl
        | mk e1 l1 r1 h1 =>
          cases r with
          | NULL =>
            simp only [avl_tree_node_remove_log, avl_tree_node_remove, if_neg hlt, if_neg hgt]
            rw [← remove_rebalance_log_erase]
            cases remove_rebalance_log (.mk e1 l1 r1 h1) <;> rfl
          | mk e2 l2 r2 h2 =>
            rw [avl_tree_node_remove_log, avl_tree_node_remove, if_neg hlt, if_neg hgt,
              if_neg hlt, if_neg hgt]
            cases hlm : leftmost (.mk e2 l2 r2 h2) with
            | NULL => rfl
            | mk se sl sr sh =>
              simp only []
              rw [← ihr (hash_field se)]
              cases avl_tree_node_remove_log hash_field (.mk e2 l2 r2 h2) (hash_field se) with
              | none => rfl
              | some res =>
                obtain ⟨⟨r3, rem⟩, log⟩ := res
                simp only [Option.some_bind, Option.map_some']
                cases rem with
                | none => rfl
                | some n =>
                  cases n with
                  | NULL => rfl
                  | mk se2 sl2 sr2 sh2 =>
                    simp only []
                    rw [← remove_rebalance_log_erase, Option.map_map, Option.map_map]
                    cases remove_rebalance_log (.mk se2 (.mk e1 l1 r1 h1) r3 sh2) <;> rfl

/-- The balance test of removal on a root whose subtrees are balanced with
exact cached heights and differ in height by at most two: it succeeds and what
it records lies within two. -/
theorem remove_rebalance_log_spec (e : α) (l r : avl_tree_node α) (h : Int)
    (bl : avl_balanced l) (cl : height_cached l) (br : avl_balanced r) (cr : height_cached r)
    (d0 : -2 ≤ avl_tree_node_height r - avl_tree_node_height l)
    (d1 : avl_tree_node_height r - avl_tree_node_height l ≤ 2) :
    ∃ t2 c, remove_rebalance_log (.mk e l r h) = some (t2, [c]) ∧
      c.balance = avl_tree_node_height r - avl_tree_node_height l ∧ c.within_two := by
  have nl := height_cached_nonneg l cl
  have nr := height_cached_nonneg r cr
  simp only [remove_rebalance_log, balance_mk]
  split
  · next h1 =>
    cases r with
    | NULL => simp only [height_NULL] at h1; omega
    | mk e2 l2 r2 h2 =>
      have b2 := br.1
      have c2 := cr.1
      rw [abs_le] at b2
      simp only [height_mk] at h1 d0 d1 ⊢
      split
      · next h3 =>
        simp only [balance_mk] at h3
        obtain ⟨t2, ht2, -⟩ :=
          rotate_left_avl e e2 l l2 r2 (max (avl_tree_node_height l) h2 + 1) h2 br cr bl cl
            (by omega) (by omega)
        rw [ht2, Option.map_some']
        refine ⟨_, _, rfl, rfl, ?_⟩
        simp only [balance_check.within_two]
        refine ⟨by omega, by omega, by omega, by omega, ?_⟩
        exact ⟨fun _ => by omega, fun _ => by simp⟩
      · next h3 =>
        simp only [balance_mk] at h3
        obtain ⟨t2, ht2, -⟩ :=
          rotate_right_left_avl e e2 l l2 r2 (max (avl_tree_node_height l) h2 + 1) h2 br cr bl cl
            (by omega) (by omega)
        rw [ht2, Option.map_some']
        refine ⟨_, _, rfl, rfl, ?_⟩
        simp only [balance_check.within_two]
        refine ⟨by omega, by omega, by omega, by omega, ?_⟩
        exact ⟨fun _ => by omega, fun _ => by simp⟩
  · split
    · next h0 h1 =>
      cases l with
      | NULL => simp only [height_NULL] at h1; omega
      | mk e2 l2 r2 h2 =>
        have b2 := bl.1
        have c2 := cl.1
        rw [abs_le] at b2
        simp only [height_mk] at h1 d0 d1 ⊢
        split
        · next h3 =>
          simp only [balance_mk] at h3
          obtain ⟨t2, ht2, -⟩ :=
            rotate_right_avl e e2 l2 r2 r (max h2 (avl_tree_node_height r) + 1) h2 bl cl br cr
              (by omega) (by omega)
          rw [ht2, Option.map_some']
          refine ⟨_, _, rfl, rfl, ?_⟩
          simp only [balance_check.within_two]
          refine ⟨by omega, by omega, by omega, by omega, ?_⟩
          exact ⟨fun _ => by omega, fun _ => by simp⟩
        · next h3 =>
          simp only [balance_mk] at h3
          obtain ⟨t2, ht2, -⟩ :=
            rotate_left_right_avl e e2 l2 r2 r (max h2 (avl_tree_node_height r) + 1) h2 bl cl
              br cr (by omega) (by omega)
          rw [ht2, Option.map_some']
          refine ⟨_, _, rfl, rfl, ?_⟩
          simp only [balance_check.within_two]
          refine ⟨by omega, by omega, by omega, by omega, ?_⟩
          exact ⟨fun _ => by omega, fun _ => by simp⟩
    · next h0 h1 =>
      refine ⟨_, _, rfl, rfl, ?_⟩
      simp only [balance_check.within_two]
      refine ⟨by omega, by omega, by omega, by omega, ?_⟩
      exact ⟨fun hne => absurd rfl hne, fun _ => by omega⟩

/-- The balance test of removal on a balanced subtree with exact cached
heights: at most one test, within two. -/
theorem remove_rebalance_log_fixed (t : avl_tree_node α) (b : avl_balanced t)
    (c : height_cached t) :
    ∃ t2 log, remove_rebalance_log t = some (t2, log) ∧ ∀ c ∈ log, c.within_two := by
  cases t with
  | NULL => exact ⟨.NULL, [], rfl, fun c hc => by cases hc⟩
  | mk e l r h =>
    have b0 := b.1
    rw [abs_le] at b0
    obtain ⟨t2, c2, h2, -, hw⟩ :=
      remove_rebalance_log_spec e l r h b.2.1 c.2.1 b.2.2 c.2.2 (by omega) (by omega)
    refine ⟨t2, [c2], h2, ?_⟩
    intro c3 hc3
    rw [List.mem_singleton] at hc3
    rw [hc3]; exact hw

/-- The balance tests of one removal from a tree satisfying the invariants:
the removal succeeds and every test lies within two. -/
theorem remove_log_spec (hash_field : α → Nat) :
    ∀ (t : avl_tree_node α) (k : Nat), invariants hash_field t →
      ∃ res log, avl_tree_node_remove_log hash_field t k = some (res, log) ∧
        avl_tree_node_remove hash_field t k = some res ∧ ∀ c ∈ log, c.within_two := by
  intro t
  induction t with
  | NULL => intro k _; exact ⟨(.NULL, none), [], rfl, rfl, fun c hc => by cases hc⟩
  | mk e l r h ihl ihr =>
    intro k hinv
    obtain ⟨⟨hl, hr, bstl, bstr⟩, ⟨b0, bl, br⟩, ⟨c0, cl, cr⟩⟩ := hinv
    rw [abs_le] at b0
    have herase := remove_log_erase hash_field (.mk e l r h) k
    have happ : ∀ (log : List balance_check) (c : balance_check),
        (∀ c2 ∈ log, c2.within_two) → c.within_two → ∀ c2 ∈ log ++ [c], c2.within_two := by
      intro log c h1 h2 c2 hc2
      rcases List.mem_append.1 hc2 with hc2 | hc2
      · exact h1 c2 hc2
      · rw [List.mem_singleton] at hc2
        rw [hc2]; exact h2
    by_cases hlt : k < hash_field e
    · obtain ⟨resl, logl, hl1, hl2, hl3⟩ := ihl k ⟨bstl, bl, cl⟩
      obtain ⟨b2, hd⟩ := remove_balanced hash_field l k resl.1 resl.2 bl cl hl2
      have c2 := remove_cached hash_field l k resl.1 resl.2 cl hl2
      obtain ⟨t2, c, h3, -, hw⟩ :=
        remove_rebalance_log_spec e resl.1 r h b2 c2 br cr (by omega) (by omega)
      have hlog : avl_tree_node_remove_log hash_field (.mk e l r h) k =
          some ((t2, resl.2), logl ++ [c]) := by
        simp only [avl_tree_node_remove_log, if_pos hlt, hl1, Option.some_bind, h3,
          Option.map_some']
      rw [hlog, Option.map_some'] at herase
      exact ⟨_, _, hlog, herase.symm, happ logl c hl3 hw⟩
    · by_cases hgt : k > hash_field e
      · obtain ⟨resr, logr, hr1, hr2, hr3⟩ := ihr k ⟨bstr, br, cr⟩
        obtain ⟨b2, hd⟩ := remove_balanced hash_field r k resr.1 resr.2 br cr hr2
        have c2 := remove_cached hash_field r k resr.1 resr.2 cr hr2
        obtain ⟨t2, c, h3, -, hw⟩ :=
          remove_rebalance_log_spec e l resr.1 h bl cl b2 c2 (by omega) (by omega)
        have hlog : avl_tree_node_remove_log hash_field (.mk e l r h) k =
            some ((t2, resr.2), logr ++ [c]) := by
          simp only [avl_tree_node_remove_log, if_neg hlt, if_pos hgt, hr1, Option.some_bind, h3,
            Option.map_some']
        rw [hlog, Option.map_some'] at herase
        exact ⟨_, _, hlog, herase.symm, happ logr c hr3 hw⟩
      · cases l with
        | NULL =>
          obtain ⟨t2, log, h3, hw⟩ := remove_rebalance_log_fixed r br cr
          have hlog : avl_tree_node_remove_log hash_field (.mk e .NULL r h) k =
              some ((t2, some (.mk e .NULL .NULL 1)), log) := by
            simp only [avl_tree_node_remove_log, if_neg hlt, if_neg hgt, h3, Option.map_some']
          rw [hlog, Option.map_some'] at herase
          exact ⟨_, _, hlog, herase.symm, hw⟩
        | mk e1 l1 r1 h1 =>
          cases r with
          | NULL =>
            obtain ⟨t2, log, h3, hw⟩ := remove_rebalance_log_fixed _ bl cl
            have hlog : avl_tree_node_remove_log hash_field (.mk e (.mk e1 l1 r1 h1) .NULL h) k =
                some ((t2, some (.mk e .NULL .NULL 1)), log) := by
              simp only [avl_tree_node_remove_log, if_neg hlt, if_neg hgt, h3, Option.map_some']
            rw [hlog, Option.map_some'] at herase
            exact ⟨_, _, hlog, herase.symm, hw⟩
          | mk e2 l2 r2 h2 =>
            obtain ⟨se, sr, sh, rest, hs1, hs2⟩ := leftmost_spec l2 r2 e2 h2
            obtain ⟨resr, logr, hr1, hr2, hr3⟩ := ihr (hash_field se) ⟨bstr, br, cr⟩
            obtain ⟨r3, hr4, -⟩ := remove_spec hash_field (.mk e2 l2 r2 h2) (hash_field se)
              bstr (heights_nonneg_of_cached _ cr)
            rw [hs2, List.find?_cons_of_pos _ (by simp), hr2] at hr4
            have hres : resr = (r3, some (.mk se .NULL .NULL 1)) := Option.some.inj hr4
            subst hres
            obtain ⟨b3, hd⟩ := remove_balanced hash_field _ _ r3 _ br cr hr2
            have c3 := remove_cached hash_field _ _ r3 _ cr hr2
            simp only [height_mk] at hd b0
            obtain ⟨t2, c, h3, -, hw⟩ :=
              remove_rebalance_log_spec se (.mk e1 l1 r1 h1) r3 1 bl cl b3 c3
                (by simp only [height_mk]; omega) (by simp only [height_mk]; omega)
            have hlog : avl_tree_node_remove_log hash_field
                (.mk e (.mk e1 l1 r1 h1) (.mk e2 l2 r2 h2) h) k =
                some ((t2, some (.mk e .NULL .NULL 1)), logr ++ [c]) := by
              rw [avl_tree_node_remove_log, if_neg hlt, if_neg hgt]
              simp only [hs1, hr1, Option.some_bind, h3, Option.map_some']
            rw [hlog, Option.map_some'] at herase
            exact ⟨_, _, hlog, herase.symm, happ logr c hr3 hw⟩

/-! ## The trees the module can hold -/

/-- C1: for every sequence of inserts of fresh nodes with pairwise distinct
keys into an initially empty tree, after each `avl_tree_insert` (that is,
after every initial part of the sequence) the insertions have succeeded and the
tree satisfies BST ordering, AVL balance and the cached-height invariant at
every node. -/
theorem C1_insert_sequence_keeps_invariants (hash_field : α → Nat) (es : List α)
    (_hdistinct : (es.map hash_field).Nodup) :
    ∀ pre : List α, pre <+: es →
      ∃ t, insert_all (avl_tree_init hash_field) pre = some t ∧
        bst_ordered hash_field t.root ∧ avl_balanced t.root ∧ height_cached t.root := by
  intro pre _
  obtain ⟨t, h1, h2, h3⟩ :=
    insert_all_invariants pre (avl_tree_init hash_field) ⟨trivial, trivial, trivial⟩
  rw [h2] at h3
  exact ⟨t, h1, h3⟩

theorem C1_insert_sequence_keeps_invariants_witness :
    (([10, 20, 30, 25, 5] : List Nat).map (fun x => x)).Nodup ∧
      ∀ pre : List Nat, pre <+: [10, 20, 30, 25, 5] →
        ∃ t, insert_all (avl_tree_init (fun x => x)) pre = some t ∧
          bst_ordered (fun x => x) t.root ∧ avl_balanced t.root ∧ height_cached t.root :=
  ⟨by decide, C1_insert_sequence_keeps_invariants (fun x => x) [10, 20, 30, 25, 5] (by decide)⟩

/-- C2: for every tree satisfying BST ordering, AVL balance and the
cached-height invariant and for every key, present or absent,
`avl_tree_remove` returns and the tree it leaves satisfies the three
invariants again at every node. -/
theorem C2_remove_keeps_invariants (tree : avl_tree α) (hash : Nat)
    (hinv : invariants tree.hash_field tree.root) :
    ∃ t2 removed, avl_tree_remove tree hash = some (t2, removed) ∧
      t2.hash_field = tree.hash_field ∧
      bst_ordered tree.hash_field t2.root ∧ avl_balanced t2.root ∧ height_cached t2.root := by
  obtain ⟨r2, h2, hinv2, -⟩ := remove_invariants tree.hash_field hash tree.root hinv
  refine ⟨⟨r2, tree.hash_field⟩, Option.getD (((inorder tree.root).find?
    (fun y => tree.hash_field y == hash)).map avl_tree_node_create) .NULL, ?_, rfl, hinv2⟩
  simp only [avl_tree_remove, h2, Option.map_some']

theorem C2_remove_keeps_invariants_witness :
    invariants (fun x : Nat => x)
        (.mk 20 (.mk 10 .NULL .NULL 1) (.mk 30 .NULL (.mk 40 .NULL .NULL 1) 2) 3) ∧
      ∃ t2 removed,
        avl_tree_remove
            ⟨.mk 20 (.mk 10 .NULL .NULL 1) (.mk 30 .NULL (.mk 40 .NULL .NULL 1) 2) 3,
              fun x : Nat => x⟩ 10 = some (t2, removed) ∧
          t2.hash_field = (fun x : Nat => x) ∧
          bst_ordered (fun x : Nat => x) t2.root ∧ avl_balanced t2.root ∧
            height_cached t2.root :=
  ⟨by decide,
    C2_remove_keeps_invariants
      ⟨.mk 20 (.mk 10 .NULL .NULL 1) (.mk 30 .NULL (.mk 40 .NULL .NULL 1) 2) 3,
        fun x : Nat => x⟩ 10 (by decide)⟩

/-- C3: for every tree satisfying BST ordering and every key `k`: if some node
holds an element of key `k`, `avl_tree_find` returns a node whose element has
key `k`; if no node has key `k`, it returns the null pointer; and on the empty
tree it returns the null pointer. -/
theorem C3_find_present_absent (tree : avl_tree α) (k : Nat)
    (hbst : bst_ordered tree.hash_field tree.root) :
    ((∃ y ∈ inorder tree.root, tree.hash_field y = k) →
        ∃ e l r h, avl_tree_find tree k = .mk e l r h ∧ tree.hash_field e = k) ∧
      ((¬ ∃ y ∈ inorder tree.root, tree.hash_field y = k) →
        avl_tree_find tree k = .NULL) ∧
      avl_tree_find (avl_tree_init tree.hash_field) k = .NULL := by
  refine ⟨?_, ?_, rfl⟩
  · rintro ⟨y, hy, hk⟩
    have h1 := find_loop_element tree.hash_field k tree.root hbst
    cases hf : find_loop tree.hash_field tree.root k with
    | NULL =>
      rw [hf] at h1
      have h2 := List.find?_eq_none.1 h1.symm y hy
      simp [hk] at h2
    | mk e l r h =>
      exact ⟨e, l, r, h, hf, find_loop_key tree.hash_field k _ e l r h hf⟩
  · intro habs
    exact find_loop_absent tree.hash_field k tree.root fun y hy he => habs ⟨y, hy, he⟩

theorem C3_find_present_absent_witness :
    bst_ordered (fun x : Nat => x) (.mk 20 (.mk 10 .NULL .NULL 1) (.mk 30 .NULL .NULL 1) 2) ∧
      ∃ e l r h,
        avl_tree_find ⟨.mk 20 (.mk 10 .NULL .NULL 1) (.mk 30 .NULL .NULL 1) 2, fun x : Nat => x⟩
            30 = .mk e l r h ∧ e = 30 :=
  ⟨by decide,
    (C3_find_present_absent
      ⟨.mk 20 (.mk 10 .NULL .NULL 1) (.mk 30 .NULL .NULL 1) 2, fun x : Nat => x⟩ 30
      (by decide)).1 ⟨30, by decide, rfl⟩⟩

/-- C4: for every tree satisfying the invariants and every fresh node wrapping
an element `x` whose key is not in the tree, `avl_tree_insert` succeeds;
afterwards `avl_tree_find` on the key of `x` returns a node holding `x`, every
other key yields the same element (or absence) as before, and the in-order
sequence is the old one with `x` put in between the smaller and the larger
keys. -/
theorem C4_insert_then_find (tree : avl_tree α) (x : α)
    (hinv : invariants tree.hash_field tree.root)
    (hnew : ∀ y ∈ inorder tree.root, tree.hash_field y ≠ tree.hash_field x) :
    ∃ t2, avl_tree_insert tree (avl_tree_node_create x) = some t2 ∧
      t2.hash_field = tree.hash_field ∧
      element_of (avl_tree_find t2 (tree.hash_field x)) = some x ∧
      (∀ k, k ≠ tree.hash_field x →
        element_of (avl_tree_find t2 k) = element_of (avl_tree_find tree k)) ∧
      ∃ before after, inorder tree.root = before ++ after ∧
        inorder t2.root = before ++ x :: after ∧
        (∀ y ∈ before, tree.hash_field y < tree.hash_field x) ∧
        (∀ y ∈ after, tree.hash_field x < tree.hash_field y) := by
  obtain ⟨r2, h2, hinv2⟩ := insert_invariants tree.hash_field x tree.root hinv
  have hio := insert_inorder tree.hash_field x tree.root r2 hinv.1 hnew h2
  have hsp := sorted_split tree.hash_field (tree.hash_field x) (inorder tree.root)
    ((bst_ordered_iff_pairwise _ _).1 hinv.1) hnew
  have hbefore : ∀ y ∈ (inorder tree.root).filter
      (fun y => tree.hash_field y < tree.hash_field x),
      tree.hash_field y < tree.hash_field x := by
    intro y hy
    simpa using (List.mem_filter.1 hy).2
  have hafter : ∀ y ∈ (inorder tree.root).filter
      (fun y => tree.hash_field x < tree.hash_field y),
      tree.hash_field x < tree.hash_field y := by
    intro y hy
    simpa using (List.mem_filter.1 hy).2
  refine ⟨⟨r2, tree.hash_field⟩, ?_, rfl, ?_, ?_, _, _, hsp.symm, hio, hbefore, hafter⟩
  · simp only [avl_tree_insert, h2, Option.map_some']
  · simp only [avl_tree_find]
    rw [find_loop_element _ _ _ hinv2.1, hio, List.find?_append,
      find_none_of_ne _ _ _ (fun y hy => by have := hbefore y hy; omega), Option.none_or,
      List.find?_cons_of_pos _ (by simp)]
  · intro k hk
    simp only [avl_tree_find]
    rw [find_loop_element _ _ _ hinv2.1, find_loop_element _ _ _ hinv.1, hio]
    conv_rhs => rw [← hsp]
    rw [List.find?_append, List.find?_append,
      List.find?_cons_of_neg _ (by simpa using fun h => hk h.symm)]

theorem C4_insert_then_find_witness :
    invariants (fun x : Nat => x) (.mk 20 (.mk 10 .NULL .NULL 1) (.mk 30 .NULL .NULL 1) 2) ∧
      (∀ y ∈ inorder (.mk 20 (.mk 10 .NULL .NULL 1) (.mk 30 .NULL .NULL 1) 2 :
        avl_tree_node Nat), y ≠ 25) ∧
      ∃ t2 : avl_tree Nat,
        avl_tree_insert ⟨.mk 20 (.mk 10 .NULL .NULL 1) (.mk 30 .NULL .NULL 1) 2, fun x => x⟩
            (avl_tree_node_create 25) = some t2 ∧
          t2.hash_field = (fun x => x) ∧
          element_of (avl_tree_find t2 25) = some 25 ∧
          (∀ k, k ≠ 25 →
            element_of (avl_tree_find t2 k) =
              element_of (avl_tree_find
                ⟨.mk 20 (.mk 10 .NULL .NULL 1) (.mk 30 .NULL .NULL 1) 2, fun x => x⟩ k)) ∧
          ∃ before after,
            inorder (.mk 20 (.mk 10 .NULL .NULL 1) (.mk 30 .NULL .NULL 1) 2 :
              avl_tree_node Nat) = before ++ after ∧
            inorder t2.root = before ++ 25 :: after ∧
            (∀ y ∈ before, y < 25) ∧ (∀ y ∈ after, 25 < y) :=
  ⟨by decide, by decide,
    C4_insert_then_find
      ⟨.mk 20 (.mk 10 .NULL .NULL 1) (.mk 30 .NULL .NULL 1) 2, fun x => x⟩ 25
      (by decide) (by decide)⟩

/-- C5: for every tree satisfying the invariants and every key `k` present in
it, `avl_tree_remove` succeeds, a following `avl_tree_find` of `k` returns the
null pointer, and the node handed back has both child links null and height
exactly 1, whatever the number of children the removed node had. -/
theorem C5_remove_then_find (tree : avl_tree α) (k : Nat)
    (hinv : invariants tree.hash_field tree.root)
    (hpresent : ∃ y ∈ inorder tree.root, tree.hash_field y = k) :
    ∃ t2 removed, avl_tree_remove tree k = some (t2, removed) ∧
      t2.hash_field = tree.hash_field ∧
      avl_tree_find t2 k = .NULL ∧
      ∃ e, removed = .mk e .NULL .NULL 1 := by
  obtain ⟨r2, h2, -, hio⟩ := remove_invariants tree.hash_field k tree.root hinv
  obtain ⟨y, hy, hk⟩ := hpresent
  cases hfind : (inorder tree.root).find? (fun y => tree.hash_field y == k) with
  | none =>
    have := List.find?_eq_none.1 hfind y hy
    simp [hk] at this
  | some e =>
    rw [hfind] at h2
    refine ⟨⟨r2, tree.hash_field⟩, .mk e .NULL .NULL 1, ?_, rfl, ?_, e, rfl⟩
    · simp only [avl_tree_remove, h2, Option.map_some', Option.getD_some, avl_tree_node_create]
    · simp only [avl_tree_find]
      apply find_loop_absent
      rw [hio]
      intro z hz
      simpa using (List.mem_filter.1 hz).2

theorem C5_remove_then_find_witness :
    invariants (fun x : Nat => x)
        (.mk 20 (.mk 10 .NULL .NULL 1) (.mk 30 .NULL (.mk 40 .NULL .NULL 1) 2) 3) ∧
      (∃ y ∈ inorder (.mk 20 (.mk 10 .NULL .NULL 1) (.mk 30 .NULL (.mk 40 .NULL .NULL 1) 2) 3 :
        avl_tree_node Nat), y = 20) ∧
      ∃ (t2 : avl_tree Nat) (removed : avl_tree_node Nat),
        avl_tree_remove
            ⟨.mk 20 (.mk 10 .NULL .NULL 1) (.mk 30 .NULL (.mk 40 .NULL .NULL 1) 2) 3,
              fun x => x⟩ 20 = some (t2, removed) ∧
          t2.hash_field = (fun x => x) ∧
          avl_tree_find t2 20 = .NULL ∧
          ∃ e, removed = .mk e .NULL .NULL 1 :=
  ⟨by decide, by decide,
    C5_remove_then_find
      ⟨.mk 20 (.mk 10 .NULL .NULL 1) (.mk 30 .NULL (.mk 40 .NULL .NULL 1) 2) 3, fun x => x⟩ 20
      (by decide) (by decide)⟩

/-- C7: for every tree satisfying the invariants and every key `k` that no
node holds, `avl_tree_remove` returns the null pointer and leaves the very same
tree: same shape, same elements and same cached height at every node. -/
theorem C7_remove_absent_unchanged (tree : avl_tree α) (k : Nat)
    (hinv : invariants tree.hash_field tree.root)
    (habsent : ∀ y ∈ inorder tree.root, tree.hash_field y ≠ k) :
    avl_tree_remove tree k = some (tree, .NULL) := by
  simp only [avl_tree_remove,
    remove_absent tree.hash_field k tree.root hinv.2.1 hinv.2.2 habsent, Option.map_some',
    Option.getD_none]

theorem C7_remove_absent_unchanged_witness :
    invariants (fun x : Nat => x)
        (.mk 20 (.mk 10 .NULL .NULL 1) (.mk 30 .NULL (.mk 40 .NULL .NULL 1) 2) 3) ∧
      (∀ y ∈ inorder (.mk 20 (.mk 10 .NULL .NULL 1) (.mk 30 .NULL (.mk 40 .NULL .NULL 1) 2) 3 :
        avl_tree_node Nat), y ≠ 35) ∧
      avl_tree_remove
          ⟨.mk 20 (.mk 10 .NULL .NULL 1) (.mk 30 .NULL (.mk 40 .NULL .NULL 1) 2) 3,
            fun x : Nat => x⟩ 35 =
        some (⟨.mk 20 (.mk 10 .NULL .NULL 1) (.mk 30 .NULL (.mk 40 .NULL .NULL 1) 2) 3,
            fun x : Nat => x⟩, .NULL) :=
  ⟨by decide, by decide,
    C7_remove_absent_unchanged
      ⟨.mk 20 (.mk 10 .NULL .NULL 1) (.mk 30 .NULL (.mk 40 .NULL .NULL 1) 2) 3, fun x => x⟩ 35
      (by decide) (by decide)⟩

/-- C8: for every tree satisfying the invariants and every fresh node whose
key is already present, `avl_tree_insert` leaves the very same tree (same
shape, same elements, same cached heights), hence the same node count and the
same in-order sequence; the new element is not adopted. -/
theorem C8_insert_duplicate_unchanged (tree : avl_tree α) (x : α)
    (hinv : invariants tree.hash_field tree.root)
    (hdup : ∃ y ∈ inorder tree.root, tree.hash_field y = tree.hash_field x) :
    avl_tree_insert tree (avl_tree_node_create x) = some tree ∧
      ∀ t2, avl_tree_insert tree (avl_tree_node_create x) = some t2 →
        t2.root = tree.root ∧ node_count t2.root = node_count tree.root ∧
          inorder t2.root = inorder tree.root := by
  have h : avl_tree_insert tree (avl_tree_node_create x) = some tree := by
    simp only [avl_tree_insert,
      insert_duplicate tree.hash_field x tree.root hinv.1 hinv.2.1 hinv.2.2 hdup,
      Option.map_some']
  refine ⟨h, ?_⟩
  intro t2 h2
  rw [h] at h2
  cases h2
  exact ⟨rfl, rfl, rfl⟩

theorem C8_insert_duplicate_unchanged_witness :
    invariants (fun p : Nat × Nat => p.1)
        (.mk (20, 0) (.mk (10, 0) .NULL .NULL 1) (.mk (30, 0) .NULL .NULL 1) 2) ∧
      (∃ y ∈ inorder (.mk (20, 0) (.mk (10, 0) .NULL .NULL 1) (.mk (30, 0) .NULL .NULL 1) 2 :
        avl_tree_node (Nat × Nat)), y.1 = 30) ∧
      inorder (.mk (20, 0) (.mk (10, 0) .NULL .NULL 1) (.mk (30, 0) .NULL .NULL 1) 2 :
        avl_tree_node (Nat × Nat)) = [(10, 0), (20, 0), (30, 0)] ∧
      avl_tree_insert
          ⟨.mk (20, 0) (.mk (10, 0) .NULL .NULL 1) (.mk (30, 0) .NULL .NULL 1) 2,
            fun p : Nat × Nat => p.1⟩ (avl_tree_node_create (30, 7)) =
        some ⟨.mk (20, 0) (.mk (10, 0) .NULL .NULL 1) (.mk (30, 0) .NULL .NULL 1) 2,
            fun p : Nat × Nat => p.1⟩ :=
  ⟨by decide, by decide, by decide,
    (C8_insert_duplicate_unchanged
      ⟨.mk (20, 0) (.mk (10, 0) .NULL .NULL 1) (.mk (30, 0) .NULL .NULL 1) 2,
        fun p : Nat × Nat => p.1⟩ (30, 7) (by decide) (by decide)).1⟩

/-- C9: for every list of elements with pairwise distinct keys and every
permutation `ks` of their keys: inserting all of them into an empty tree and
then calling `avl_tree_remove` on the keys in the order of `ks` succeeds, each
removal hands back a non-null leaf node wrapping the element of the requested
key (so as many pairwise distinct nodes as there are elements), and the root
of the tree is null at the end. -/
theorem C9_insert_all_then_remove_all (hash_field : α → Nat) (es : List α) (ks : List Nat)
    (hdistinct : (es.map hash_field).Nodup) (hperm : ks.Perm (es.map hash_field)) :
    ∃ t, insert_all (avl_tree_init hash_field) es = some t ∧
      ∃ t2 removed, remove_all t ks = some (t2, removed) ∧
        t2.root = .NULL ∧
        removed.length = es.length ∧
        (∀ n ∈ removed, n ≠ .NULL ∧ ∃ e ∈ es, n = avl_tree_node_create e) ∧
        removed.Nodup ∧
        removed.map (fun n => (element_of n).map hash_field) = ks.map some := by
  obtain ⟨t, h1, hf1, hinv1, hp1⟩ :=
    insert_all_perm es (avl_tree_init hash_field) ⟨trivial, trivial, trivial⟩ hdistinct
      (fun _ _ y hy => by cases hy)
  have hf1' : t.hash_field = hash_field := hf1
  rw [hf1'] at hinv1
  have hp1' : (inorder t.root).Perm es := by
    simpa [avl_tree_init, inorder] using hp1
  have hksnd : ks.Nodup := (hperm.nodup_iff).2 hdistinct
  obtain ⟨t2, removed, h2, hio2, hkeys, hnodes⟩ := remove_all_spec ks t (by rw [hf1']; exact hinv1)
    hksnd (by
      intro k hk
      obtain ⟨x, hx, hxk⟩ := List.mem_map.1 (hperm.mem_iff.1 hk)
      exact ⟨x, hp1'.mem_iff.2 hx, by rw [hf1']; exact hxk⟩)
  rw [hf1'] at hio2 hkeys
  refine ⟨t, h1, t2, removed, h2, ?_, ?_, ?_, ?_, hkeys⟩
  · apply inorder_eq_nil
    rw [hio2, List.filter_eq_nil_iff]
    intro y hy
    have : hash_field y ∈ ks :=
      hperm.mem_iff.2 (List.mem_map.2 ⟨y, hp1'.mem_iff.1 hy, rfl⟩)
    simpa using this
  · have := congrArg List.length hkeys
    simp only [List.length_map] at this
    rw [this, hperm.length_eq, List.length_map]
  · intro n hn
    obtain ⟨e, he, hne⟩ := hnodes n hn
    refine ⟨?_, e, hp1'.mem_iff.1 he, hne⟩
    rw [hne]
    simp [avl_tree_node_create]
  · apply List.Nodup.of_map (fun n => (element_of n).map hash_field)
    rw [hkeys]
    exact hksnd.map (Option.some_injective _)

theorem C9_insert_all_then_remove_all_witness :
    (([10, 20, 30, 25] : List Nat).map (fun x => x)).Nodup ∧
      ([25, 10, 30, 20] : List Nat).Perm (([10, 20, 30, 25] : List Nat).map (fun x => x)) ∧
      ∃ t, insert_all (avl_tree_init (fun x : Nat => x)) [10, 20, 30, 25] = some t ∧
        ∃ t2 removed, remove_all t [25, 10, 30, 20] = some (t2, removed) ∧
          t2.root = .NULL ∧
          removed.length = ([10, 20, 30, 25] : List Nat).length ∧
          (∀ n ∈ removed, n ≠ .NULL ∧
            ∃ e ∈ ([10, 20, 30, 25] : List Nat), n = avl_tree_node_create e) ∧
          removed.Nodup ∧
          removed.map (fun n => (element_of n).map (fun x : Nat => x)) =
            ([25, 10, 30, 20] : List Nat).map some :=
  ⟨by decide, by decide,
    C9_insert_all_then_remove_all (fun x => x) [10, 20, 30, 25] [25, 10, 30, 20]
      (by decide) (by decide)⟩

/-- C10: inserting fresh nodes with keys 10, 20, 30 in that order into an
empty tree gives exactly the root of key 20 and height 2, with left child of
key 10, height 1, no children, and right child of key 30, height 1, no
children; the in-order key sequence is `[10, 20, 30]`; the first two inserts
perform no rotation and the third performs exactly one, a rotate-left applied
at the root (the node of key 10, depth 0). -/
theorem C10_insert_10_20_30 :
    (insert_all (avl_tree_init (fun x : Nat => x)) [10, 20, 30]).map (fun t => t.root) =
        some (.mk 20 (.mk 10 .NULL .NULL 1) (.mk 30 .NULL .NULL 1) 2) ∧
      (insert_all (avl_tree_init (fun x : Nat => x)) [10, 20, 30]).map
          (fun t => (inorder t.root).map t.hash_field) = some [10, 20, 30] ∧
      (insert_all (avl_tree_init (fun x : Nat => x)) [10, 20]).map (fun t => element_of t.root) =
        some (some 10) ∧
      (insert_all_log (avl_tree_init (fun x : Nat => x)) [10, 20, 30]).map
          (fun res => (res.1.root, res.2)) =
        some (.mk 20 (.mk 10 .NULL .NULL 1) (.mk 30 .NULL .NULL 1) 2,
          [[], [], [⟨.left, 10, 0⟩]]) := by
  refine ⟨by decide, by decide, by decide, by decide⟩

/-- C11: inserting keys 5, 3, 8, 1, 4, 7, 9, 2 in that order builds the tree
`5(3(1(-,2),4), 8(7,9))`; removing key 5, a node with two children whose
in-order successor is 7, hands back the node of key 5 and leaves a tree whose
root has key 7, which satisfies AVL balance and BST ordering and has the
in-order sequence `[1, 2, 3, 4, 7, 8, 9]`. -/
theorem C11_remove_root_with_two_children :
    (insert_all (avl_tree_init (fun x : Nat => x)) [5, 3, 8, 1, 4, 7, 9, 2]).map
        (fun t => t.root) =
      some (.mk 5
        (.mk 3 (.mk 1 .NULL (.mk 2 .NULL .NULL 1) 2) (.mk 4 .NULL .NULL 1) 3)
        (.mk 8 (.mk 7 .NULL .NULL 1) (.mk 9 .NULL .NULL 1) 2) 4) ∧
      element_of (leftmost (.mk 8 (.mk 7 .NULL .NULL 1) (.mk 9 .NULL .NULL 1) 2 :
        avl_tree_node Nat)) = some 7 ∧
      ((insert_all (avl_tree_init (fun x : Nat => x)) [5, 3, 8, 1, 4, 7, 9, 2]).bind
        (fun t => avl_tree_remove t 5)).map (fun res => (res.1.root, res.2)) =
      some (.mk 7
          (.mk 3 (.mk 1 .NULL (.mk 2 .NULL .NULL 1) 2) (.mk 4 .NULL .NULL 1) 3)
          (.mk 8 .NULL (.mk 9 .NULL .NULL 1) 2) 4,
        .mk 5 .NULL .NULL 1) ∧
      avl_balanced (.mk 7
          (.mk 3 (.mk 1 .NULL (.mk 2 .NULL .NULL 1) 2) (.mk 4 .NULL .NULL 1) 3)
          (.mk 8 .NULL (.mk 9 .NULL .NULL 1) 2) 4 : avl_tree_node Nat) ∧
      bst_ordered (fun x : Nat => x) (.mk 7
          (.mk 3 (.mk 1 .NULL (.mk 2 .NULL .NULL 1) 2) (.mk 4 .NULL .NULL 1) 3)
          (.mk 8 .NULL (.mk 9 .NULL .NULL 1) 2) 4) ∧
      inorder (.mk 7
          (.mk 3 (.mk 1 .NULL (.mk 2 .NULL .NULL 1) 2) (.mk 4 .NULL .NULL 1) 3)
          (.mk 8 .NULL (.mk 9 .NULL .NULL 1) 2) 4 : avl_tree_node Nat) =
        [1, 2, 3, 4, 7, 8, 9] := by
  refine ⟨by decide, by decide, by decide, by decide, by decide, by decide⟩

/-- C12: for every tree with `n` nodes satisfying the cached-height and
AVL-balance invariants, the root height `h` satisfies `2 ^ h ≤ (n + 1) ^ 2`,
that is `h ≤ 2 * log2 (n + 1)`; and the descent of `avl_tree_find`, for any
key, examines at most `h` nodes, hence a number `c` of nodes with
`2 ^ c ≤ (n + 1) ^ 2`. -/
theorem C12_height_logarithmic (tree : avl_tree α) (k : Nat)
    (hbal : avl_balanced tree.root) (hcached : height_cached tree.root) :
    2 ^ (avl_tree_node_height tree.root).toNat ≤ (node_count tree.root + 1) ^ 2 ∧
      ((avl_tree_node_height tree.root : Int) : ℝ) ≤
        2 * Real.logb 2 ((node_count tree.root : ℝ) + 1) ∧
      (find_loop_count tree.hash_field tree.root k).1 = avl_tree_find tree k ∧
      ((find_loop_count tree.hash_field tree.root k).2 : Int) ≤
        avl_tree_node_height tree.root ∧
      2 ^ (find_loop_count tree.hash_field tree.root k).2 ≤ (node_count tree.root + 1) ^ 2 := by
  have hpow := avl_pow_height_le tree.root hbal hcached
  have hcnt := find_loop_count_le tree.hash_field k tree.root hcached
  have hnn := height_cached_nonneg tree.root hcached
  refine ⟨hpow, ?_, find_loop_count_erase tree.hash_field k tree.root, hcnt, ?_⟩
  · obtain ⟨p, hp⟩ := Int.eq_ofNat_of_zero_le hnn
    rw [hp, Int.toNat_ofNat] at hpow
    rw [hp]
    have h1 : ((2 : ℝ)) ^ p ≤ ((node_count tree.root : ℝ) + 1) ^ 2 := by exact_mod_cast hpow
    have h2 := Real.logb_le_logb_of_le (b := 2) (by norm_num) (by positivity) h1
    rw [Real.logb_pow, Real.logb_pow, Real.logb_self_eq_one (by norm_num)] at h2
    simpa using h2
  · refine le_trans (Nat.pow_le_pow_right (by norm_num) ?_) hpow
    omega

theorem C12_height_logarithmic_witness :
    avl_balanced (.mk 20 (.mk 10 .NULL .NULL 1) (.mk 30 .NULL (.mk 40 .NULL .NULL 1) 2) 3 :
        avl_tree_node Nat) ∧
      height_cached (.mk 20 (.mk 10 .NULL .NULL 1) (.mk 30 .NULL (.mk 40 .NULL .NULL 1) 2) 3 :
        avl_tree_node Nat) ∧
      (find_loop_count (fun x : Nat => x)
        (.mk 20 (.mk 10 .NULL .NULL 1) (.mk 30 .NULL (.mk 40 .NULL .NULL 1) 2) 3) 40).2 = 3 ∧
      2 ^ (find_loop_count (fun x : Nat => x)
        (.mk 20 (.mk 10 .NULL .NULL 1) (.mk 30 .NULL (.mk 40 .NULL .NULL 1) 2) 3) 40).2 ≤
        (node_count (.mk 20 (.mk 10 .NULL .NULL 1) (.mk 30 .NULL (.mk 40 .NULL .NULL 1) 2) 3 :
          avl_tree_node Nat) + 1) ^ 2 :=
  ⟨by decide, by decide, by decide,
    (C12_height_logarithmic
      ⟨.mk 20 (.mk 10 .NULL .NULL 1) (.mk 30 .NULL (.mk 40 .NULL .NULL 1) 2) 3, fun x => x⟩ 40
      (by decide) (by decide)).2.2.2.2⟩

/-- C13: each of the four rotation primitives is defined on the subtrees named
in the claim (rotate-right: left child present; rotate-left: right child
present; rotate-left-right: left child and its right child present;
rotate-right-left: right child and its left child present), returns a subtree
with the same in-order element sequence, and so returns an ordered subtree
exactly when the input was ordered.  Rotate-right of `n` returns the former
`n.left` as root, with `n` as its right child and the former `n.left.right` as
the new left child of `n`. -/
theorem C13_rotations_preserve_order (hash_field : α → Nat) (e e2 e3 : α)
    (a b c d : avl_tree_node α) (h h2 h3 : Int) :
    (avl_tree_node_rotate_right (.mk e (.mk e2 a b h2) c h) =
        some (.mk e2 a
          (.mk e b c (max (avl_tree_node_height b) (avl_tree_node_height c) + 1))
          (max (avl_tree_node_height a)
            (max (avl_tree_node_height b) (avl_tree_node_height c) + 1) + 1)) ∧
      inorder (.mk e2 a (.mk e b c (max (avl_tree_node_height b) (avl_tree_node_height c) + 1))
          (max (avl_tree_node_height a)
            (max (avl_tree_node_height b) (avl_tree_node_height c) + 1) + 1)) =
        inorder (.mk e (.mk e2 a b h2) c h)) ∧
    (∃ t, avl_tree_node_rotate_right (.mk e (.mk e2 a b h2) c h) = some t ∧
      inorder t = inorder (.mk e (.mk e2 a b h2) c h) ∧
      (bst_ordered hash_field t ↔ bst_ordered hash_field (.mk e (.mk e2 a b h2) c h))) ∧
    (∃ t, avl_tree_node_rotate_left (.mk e a (.mk e2 b c h2) h) = some t ∧
      inorder t = inorder (.mk e a (.mk e2 b c h2) h) ∧
      (bst_ordered hash_field t ↔ bst_ordered hash_field (.mk e a (.mk e2 b c h2) h))) ∧
    (∃ t, avl_tree_node_rotate_left_right (.mk e (.mk e2 a (.mk e3 b c h3) h2) d h) = some t ∧
      inorder t = inorder (.mk e (.mk e2 a (.mk e3 b c h3) h2) d h) ∧
      (bst_ordered hash_field t ↔
        bst_ordered hash_field (.mk e (.mk e2 a (.mk e3 b c h3) h2) d h))) ∧
    (∃ t, avl_tree_node_rotate_right_left (.mk e a (.mk e2 (.mk e3 b c h3) d h2) h) = some t ∧
      inorder t = inorder (.mk e a (.mk e2 (.mk e3 b c h3) d h2) h) ∧
      (bst_ordered hash_field t ↔
        bst_ordered hash_field (.mk e a (.mk e2 (.mk e3 b c h3) d h2) h))) := by
  refine ⟨⟨rfl, ?_⟩, ⟨_, rfl, ?_⟩, ⟨_, rfl, ?_⟩, ⟨_, rfl, ?_⟩, ⟨_, rfl, ?_⟩⟩
  · exact rotate_right_inorder _ _ rfl
  · have hi := rotate_right_inorder (.mk e (.mk e2 a b h2) c h) _ rfl
    exact ⟨hi, by rw [bst_ordered_iff_pairwise, bst_ordered_iff_pairwise, hi]⟩
  · have hi := rotate_left_inorder (.mk e a (.mk e2 b c h2) h) _ rfl
    exact ⟨hi, by rw [bst_ordered_iff_pairwise, bst_ordered_iff_pairwise, hi]⟩
  · have hi := rotate_left_right_inorder (.mk e (.mk e2 a (.mk e3 b c h3) h2) d h) _ rfl
    exact ⟨hi, by rw [bst_ordered_iff_pairwise, bst_ordered_iff_pairwise, hi]⟩
  · have hi := rotate_right_left_inorder (.mk e a (.mk e2 (.mk e3 b c h3) d h2) h) _ rfl
    exact ⟨hi, by rw [bst_ordered_iff_pairwise, bst_ordered_iff_pairwise, hi]⟩

/-- C14: for every tree satisfying the invariants and every fresh node with a
key not in the tree, `avl_tree_insert` succeeds and performs one balance test
per node of the insertion path (deepest first, the root last); at most one of
these tests applies a rotation (single or double); a test rotates exactly when
the balance it finds is `+2` or `-2`; and when one does, every test below it
and every test above it finds a balance within `[-1, 1]` and rotates nothing
(so the rotated node is the lowest one whose balance becomes `±2`, and no
higher ancestor is rotated), and the subtree returned in place of the rotated
node has the cached height that node had before the insertion. -/
theorem C14_insert_rotates_at_most_once (tree : avl_tree α) (x : α)
    (hinv : invariants tree.hash_field tree.root)
    (_hnew : ∀ y ∈ inorder tree.root, tree.hash_field y ≠ tree.hash_field x) :
    ∃ t2 path,
      avl_tree_node_insert_path tree.hash_field 0 tree.root (avl_tree_node_create x) =
        some (t2, path) ∧
      avl_tree_insert tree (avl_tree_node_create x) = some ⟨t2, tree.hash_field⟩ ∧
      path.map (fun s => s.depth) = (List.range path.length).reverse ∧
      (path.filter (fun s => s.rotation.isSome)).length ≤ 1 ∧
      (∀ s ∈ path, s.rotation ≠ none ↔ (s.balance = 2 ∨ s.balance = -2)) ∧
      ((∀ s ∈ path, s.calm) ∨
        ∃ deeper s higher, path = deeper ++ s :: higher ∧
          s.rotation ≠ none ∧ (s.balance = 2 ∨ s.balance = -2) ∧
          s.height_after = s.height_before ∧
          (∀ s2 ∈ deeper, s2.calm) ∧ (∀ s2 ∈ higher, s2.calm)) := by
  obtain ⟨t2, path, hp, hi, hdep, hcase⟩ :=
    insert_path_spec tree.hash_field x tree.root 0 hinv.2.1 hinv.2.2
  have hcalm_filter : ∀ ss : List (insert_step α), (∀ s ∈ ss, s.calm) →
      ss.filter (fun s => s.rotation.isSome) = [] := by
    intro ss hss
    rw [List.filter_eq_nil_iff]
    intro s hs
    rw [(hss s hs).1]
    simp
  have hcalm_iff : ∀ s : insert_step α, s.calm →
      (s.rotation ≠ none ↔ (s.balance = 2 ∨ s.balance = -2)) := by
    intro s hs
    obtain ⟨h1, h2, h3⟩ := hs
    exact ⟨fun h => absurd h1 h, fun h => by omega⟩
  refine ⟨t2, path, hp, ?_, ?_, ?_, ?_, ?_⟩
  · simp only [avl_tree_insert, hi, Option.map_some']
  · rw [hdep, List.range_eq_range']
  · rcases hcase with hcalm | ⟨-, deeper, s, higher, hsplit, hrot, hbal, hsame, hdp, hhi⟩
    · rw [hcalm_filter path hcalm]; simp
    · rw [hsplit, List.filter_append, List.filter_cons, hcalm_filter deeper hdp,
        hcalm_filter higher hhi]
      split <;> simp
  · intro s hs
    rcases hcase with hcalm | ⟨-, deeper, s1, higher, hsplit, hrot, hbal, hsame, hdp, hhi⟩
    · exact hcalm_iff s (hcalm s hs)
    · rw [hsplit, List.mem_append, List.mem_cons] at hs
      rcases hs with hs | rfl | hs
      · exact hcalm_iff s (hdp s hs)
      · exact ⟨fun _ => hbal, fun _ => hrot⟩
      · exact hcalm_iff s (hhi s hs)
  · rcases hcase with hcalm | ⟨-, hsplit⟩
    · exact Or.inl hcalm
    · exact Or.inr hsplit

theorem C14_insert_rotates_at_most_once_witness :
    invariants (fun x : Nat => x)
        (.mk 5 (.mk 3 (.mk 1 .NULL .NULL 1) .NULL 2) (.mk 8 .NULL .NULL 1) 3) ∧
      (∀ y ∈ inorder (.mk 5 (.mk 3 (.mk 1 .NULL .NULL 1) .NULL 2) (.mk 8 .NULL .NULL 1) 3 :
        avl_tree_node Nat), y ≠ 0) ∧
      avl_tree_node_insert_path (fun x : Nat => x) 0
          (.mk 5 (.mk 3 (.mk 1 .NULL .NULL 1) .NULL 2) (.mk 8 .NULL .NULL 1) 3)
          (avl_tree_node_create 0) =
        some (.mk 5 (.mk 1 (.mk 0 .NULL .NULL 1) (.mk 3 .NULL .NULL 1) 2) (.mk 8 .NULL .NULL 1) 3,
          [⟨2, 1, -1, none, 1, 2⟩, ⟨1, 3, -2, some .right, 2, 2⟩, ⟨0, 5, -1, none, 3, 3⟩]) ∧
      ∃ t2 path,
        avl_tree_node_insert_path (fun x : Nat => x) 0
            (.mk 5 (.mk 3 (.mk 1 .NULL .NULL 1) .NULL 2) (.mk 8 .NULL .NULL 1) 3)
            (avl_tree_node_create 0) = some (t2, path) ∧
          avl_tree_insert
              ⟨.mk 5 (.mk 3 (.mk 1 .NULL .NULL 1) .NULL 2) (.mk 8 .NULL .NULL 1) 3,
                fun x : Nat => x⟩ (avl_tree_node_create 0) = some ⟨t2, fun x : Nat => x⟩ ∧
          path.map (fun s => s.depth) = (List.range path.length).reverse ∧
          (path.filter (fun s => s.rotation.isSome)).length ≤ 1 ∧
          (∀ s ∈ path, s.rotation ≠ none ↔ (s.balance = 2 ∨ s.balance = -2)) ∧
          ((∀ s ∈ path, s.calm) ∨
            ∃ deeper s higher, path = deeper ++ s :: higher ∧
              s.rotation ≠ none ∧ (s.balance = 2 ∨ s.balance = -2) ∧
              s.height_after = s.height_before ∧
              (∀ s2 ∈ deeper, s2.calm) ∧ (∀ s2 ∈ higher, s2.calm)) :=
  ⟨by decide, by decide, by decide,
    C14_insert_rotates_at_most_once
      ⟨.mk 5 (.mk 3 (.mk 1 .NULL .NULL 1) .NULL 2) (.mk 8 .NULL .NULL 1) 3, fun x : Nat => x⟩ 0
      (by decide) (by decide)⟩

/-- C15: for every tree satisfying the invariants: every balance test performed
by `avl_tree_insert` of a fresh node (after the recursion into a child) finds a
balance factor within `[-2, 2]` and rotates only at `+2` or `-2`; and every
balance test performed by `avl_tree_remove` of a key finds a balance factor
within `[-2, 2]`, so that its tests `balance > 1` and `balance < -1` hold
exactly at `+2` and at `-2`, and a rotation is applied exactly at an imbalance
of magnitude 2.  Both calls succeed. -/
theorem C15_balance_within_two (tree : avl_tree α) (x : α) (k : Nat)
    (hinv : invariants tree.hash_field tree.root) :
    (∃ t2 path,
      avl_tree_node_insert_path tree.hash_field 0 tree.root (avl_tree_node_create x) =
        some (t2, path) ∧
      avl_tree_insert tree (avl_tree_node_create x) = some ⟨t2, tree.hash_field⟩ ∧
      ∀ s ∈ path, -2 ≤ s.balance ∧ s.balance ≤ 2 ∧
        (s.rotation ≠ none ↔ (s.balance = 2 ∨ s.balance = -2))) ∧
    (∃ res log,
      avl_tree_node_remove_log tree.hash_field tree.root k = some (res, log) ∧
      avl_tree_remove tree k = some (⟨res.1, tree.hash_field⟩, res.2.getD .NULL) ∧
      ∀ c ∈ log, -2 ≤ c.balance ∧ c.balance ≤ 2 ∧
        (c.balance > 1 ↔ c.balance = 2) ∧ (c.balance < -1 ↔ c.balance = -2) ∧
        (c.rotation ≠ none ↔ (c.balance = 2 ∨ c.balance = -2))) := by
  constructor
  · obtain ⟨t2, path, hp, hi, -, hcase⟩ :=
      insert_path_spec tree.hash_field x tree.root 0 hinv.2.1 hinv.2.2
    have hcalm : ∀ s : insert_step α, s.calm →
        -2 ≤ s.balance ∧ s.balance ≤ 2 ∧
          (s.rotation ≠ none ↔ (s.balance = 2 ∨ s.balance = -2)) := by
      intro s hs
      obtain ⟨h1, h2, h3⟩ := hs
      exact ⟨by omega, by omega, fun h => absurd h1 h, fun h => by omega⟩
    refine ⟨t2, path, hp, by simp only [avl_tree_insert, hi, Option.map_some'], ?_⟩
    intro s hs
    rcases hcase with hc | ⟨-, deeper, s1, higher, hsplit, hrot, hbal, -, hdp, hhi⟩
    · exact hcalm s (hc s hs)
    · rw [hsplit, List.mem_append, List.mem_cons] at hs
      rcases hs with hs | rfl | hs
      · exact hcalm s (hdp s hs)
      · exact ⟨by omega, by omega, fun _ => hbal, fun _ => hrot⟩
      · exact hcalm s (hhi s hs)
  · obtain ⟨res, log, h1, h2, h3⟩ := remove_log_spec tree.hash_field tree.root k hinv
    refine ⟨res, log, h1, by simp only [avl_tree_remove, h2, Option.map_some'], ?_⟩
    intro c hc
    exact h3 c hc

theorem C15_balance_within_two_witness :
    invariants (fun x : Nat => x)
        (.mk 20 (.mk 10 .NULL .NULL 1) (.mk 30 .NULL (.mk 40 .NULL .NULL 1) 2) 3) ∧
      (avl_tree_node_remove_log (fun x : Nat => x)
          (.mk 20 (.mk 10 .NULL .NULL 1) (.mk 30 .NULL (.mk 40 .NULL .NULL 1) 2) 3) 10).map
          Prod.snd = some [⟨2, some .left⟩] ∧
      (avl_tree_node_insert_path (fun x : Nat => x) 0
          (.mk 20 (.mk 10 .NULL .NULL 1) (.mk 30 .NULL (.mk 40 .NULL .NULL 1) 2) 3)
          (avl_tree_node_create 50)).map Prod.snd =
        some [⟨2, 40, 1, none, 1, 2⟩, ⟨1, 30, 2, some .left, 2, 2⟩, ⟨0, 20, 1, none, 3, 3⟩] ∧
      ((∃ t2 path,
        avl_tree_node_insert_path (fun x : Nat => x) 0
            (.mk 20 (.mk 10 .NULL .NULL 1) (.mk 30 .NULL (.mk 40 .NULL .NULL 1) 2) 3)
            (avl_tree_node_create 50) = some (t2, path) ∧
          avl_tree_insert
              ⟨.mk 20 (.mk 10 .NULL .NULL 1) (.mk 30 .NULL (.mk 40 .NULL .NULL 1) 2) 3,
                fun x : Nat => x⟩ (avl_tree_node_create 50) = some ⟨t2, fun x : Nat => x⟩ ∧
          ∀ s ∈ path, -2 ≤ s.balance ∧ s.balance ≤ 2 ∧
            (s.rotation ≠ none ↔ (s.balance = 2 ∨ s.balance = -2))) ∧
        (∃ res log,
          avl_tree_node_remove_log (fun x : Nat => x)
              (.mk 20 (.mk 10 .NULL .NULL 1) (.mk 30 .NULL (.mk 40 .NULL .NULL 1) 2) 3) 10 =
            some (res, log) ∧
          avl_tree_remove
              ⟨.mk 20 (.mk 10 .NULL .NULL 1) (.mk 30 .NULL (.mk 40 .NULL .NULL 1) 2) 3,
                fun x : Nat => x⟩ 10 = some (⟨res.1, fun x : Nat => x⟩, res.2.getD .NULL) ∧
          ∀ c ∈ log, -2 ≤ c.balance ∧ c.balance ≤ 2 ∧
            (c.balance > 1 ↔ c.balance = 2) ∧ (c.balance < -1 ↔ c.balance = -2) ∧
            (c.rotation ≠ none ↔ (c.balance = 2 ∨ c.balance = -2)))) :=
  ⟨by decide, by decide, by decide,
    C15_balance_within_two
      ⟨.mk 20 (.mk 10 .NULL .NULL 1) (.mk 30 .NULL (.mk 40 .NULL .NULL 1) 2) 3,
        fun x : Nat => x⟩ 50 10 (by decide)⟩

/-- C16: for every node whose two subtrees each satisfy the three invariants:
when its balance factor is `+2`, rotate-left if the balance of the right child
is `≥ 0` and rotate-right-left otherwise is defined, is what the rebalancing
step of removal computes, and yields a subtree that satisfies the cached-height
and AVL-balance invariants at every node and has the same in-order sequence;
symmetrically at balance `-2`, with rotate-right if the balance of the left
child is `≤ 0` and rotate-left-right otherwise. -/
theorem C16_remove_tie_break_repairs (hash_field : α → Nat) (e : α)
    (l r : avl_tree_node α) (h : Int)
    (hl : invariants hash_field l) (hr : invariants hash_field r) :
    (avl_tree_node_balance (.mk e l r h) = 2 →
      ∃ t2,
        (if avl_tree_node_balance r ≥ 0 then avl_tree_node_rotate_left (.mk e l r h)
          else avl_tree_node_rotate_right_left (.mk e l r h)) = some t2 ∧
        remove_rebalance (.mk e l r h) = some t2 ∧
        height_cached t2 ∧ avl_balanced t2 ∧ inorder t2 = inorder (.mk e l r h)) ∧
    (avl_tree_node_balance (.mk e l r h) = -2 →
      ∃ t2,
        (if avl_tree_node_balance l ≤ 0 then avl_tree_node_rotate_right (.mk e l r h)
          else avl_tree_node_rotate_left_right (.mk e l r h)) = some t2 ∧
        remove_rebalance (.mk e l r h) = some t2 ∧
        height_cached t2 ∧ avl_balanced t2 ∧ inorder t2 = inorder (.mk e l r h)) := by
  obtain ⟨-, bl, cl⟩ := hl
  obtain ⟨-, br, cr⟩ := hr
  have nl := height_cached_nonneg l cl
  have nr := height_cached_nonneg r cr
  constructor
  · intro hb
    rw [remove_rebalance_pos e l r h hb]
    rw [balance_mk] at hb
    cases r with
    | NULL => simp only [height_NULL] at hb; omega
    | mk e2 l2 r2 h2 =>
      simp only [height_mk] at hb
      simp only [balance_mk]
      split
      · next h3 =>
        obtain ⟨t2, ht2, bt2, ct2, -⟩ :=
          rotate_left_avl e e2 l l2 r2 h h2 br cr bl cl (by omega) (by omega)
        exact ⟨t2, ht2, ht2, ct2, bt2, rotate_left_inorder _ _ ht2⟩
      · next h3 =>
        obtain ⟨t2, ht2, bt2, ct2, -⟩ :=
          rotate_right_left_avl e e2 l l2 r2 h h2 br cr bl cl (by omega) (by omega)
        exact ⟨t2, ht2, ht2, ct2, bt2, rotate_right_left_inorder _ _ ht2⟩
  · intro hb
    rw [remove_rebalance_neg e l r h hb]
    rw [balance_mk] at hb
    cases l with
    | NULL => simp only [height_NULL] at hb; omega
    | mk e2 l2 r2 h2 =>
      simp only [height_mk] at hb
      simp only [balance_mk]
      split
      · next h3 =>
        obtain ⟨t2, ht2, bt2, ct2, -⟩ :=
          rotate_right_avl e e2 l2 r2 r h h2 bl cl br cr (by omega) (by omega)
        exact ⟨t2, ht2, ht2, ct2, bt2, rotate_right_inorder _ _ ht2⟩
      · next h3 =>
        obtain ⟨t2, ht2, bt2, ct2, -⟩ :=
          rotate_left_right_avl e e2 l2 r2 r h h2 bl cl br cr (by omega) (by omega)
        exact ⟨t2, ht2, ht2, ct2, bt2, rotate_left_right_inorder _ _ ht2⟩

theorem C16_remove_tie_break_repairs_witness :
    invariants (fun x : Nat => x) (.NULL : avl_tree_node Nat) ∧
      invariants (fun x : Nat => x) (.mk 20 (.mk 15 .NULL .NULL 1) (.mk 30 .NULL .NULL 1) 2) ∧
      avl_tree_node_balance
        (.mk 10 .NULL (.mk 20 (.mk 15 .NULL .NULL 1) (.mk 30 .NULL .NULL 1) 2) 3 :
          avl_tree_node Nat) = 2 ∧
      ∃ t2 : avl_tree_node Nat,
        (if avl_tree_node_balance
              (.mk 20 (.mk 15 .NULL .NULL 1) (.mk 30 .NULL .NULL 1) 2 : avl_tree_node Nat) ≥ 0
          then avl_tree_node_rotate_left
            (.mk 10 .NULL (.mk 20 (.mk 15 .NULL .NULL 1) (.mk 30 .NULL .NULL 1) 2) 3)
          else avl_tree_node_rotate_right_left
            (.mk 10 .NULL (.mk 20 (.mk 15 .NULL .NULL 1) (.mk 30 .NULL .NULL 1) 2) 3)) =
            some t2 ∧
          remove_rebalance
            (.mk 10 .NULL (.mk 20 (.mk 15 .NULL .NULL 1) (.mk 30 .NULL .NULL 1) 2) 3) =
            some t2 ∧
          height_cached t2 ∧ avl_balanced t2 ∧
          inorder t2 = inorder
            (.mk 10 .NULL (.mk 20 (.mk 15 .NULL .NULL 1) (.mk 30 .NULL .NULL 1) 2) 3 :
              avl_tree_node Nat) :=
  ⟨by decide, by decide, by decide,
    (C16_remove_tie_break_repairs (fun x : Nat => x) 10 .NULL
      (.mk 20 (.mk 15 .NULL .NULL 1) (.mk 30 .NULL .NULL 1) 2) 3 (by decide) (by decide)).1
      (by decide)⟩

/-- C17: for every tree satisfying the invariants whose root holds key `k`:
(a) when the root has no left child, the tree left by `remove(k)` is exactly
the right subtree (the empty tree when there is none), and when it has no right
child, exactly the left subtree; (b) when the root has two children, the
subtree handed to the final rebalancing step has as root element the element
`se` of minimum key of the original right subtree (the one the successor loop
stops on), as left subtree the original left subtree, and as right subtree the
result of removing the key of `se` from the original right subtree.  In every
case the node handed back is the old root, reset to a leaf. -/
theorem C17_remove_replacement_rule (hash_field : α → Nat) (e : α)
    (l r : avl_tree_node α) (h : Int) (hinv : invariants hash_field (.mk e l r h)) :
    (l = .NULL →
      avl_tree_remove ⟨.mk e l r h, hash_field⟩ (hash_field e) =
        some (⟨r, hash_field⟩, .mk e .NULL .NULL 1)) ∧
    (r = .NULL →
      avl_tree_remove ⟨.mk e l r h, hash_field⟩ (hash_field e) =
        some (⟨l, hash_field⟩, .mk e .NULL .NULL 1)) ∧
    (l ≠ .NULL → r ≠ .NULL →
      ∃ se r2,
        element_of (leftmost r) = some se ∧
        se ∈ inorder r ∧ (∀ y ∈ inorder r, hash_field se ≤ hash_field y) ∧
        avl_tree_node_remove hash_field r (hash_field se) =
          some (r2, some (.mk se .NULL .NULL 1)) ∧
        avl_tree_node_remove hash_field (.mk e l r h) (hash_field e) =
          (remove_rebalance (.mk se l r2 1)).map
            (fun root => (root, some (.mk e .NULL .NULL 1)))) := by
  obtain ⟨hbst, hb, hc⟩ := hinv
  refine ⟨?_, ?_, ?_⟩
  · rintro rfl
    simp only [avl_tree_remove, avl_tree_node_remove, lt_irrefl, if_false, gt_iff_lt,
      remove_rebalance_fixed r hb.2.2 hc.2.2, Option.map_some', Option.getD_some]
  · rintro rfl
    cases l with
    | NULL =>
      simp only [avl_tree_remove, avl_tree_node_remove, lt_irrefl, if_false, gt_iff_lt,
        remove_rebalance, Option.map_some', Option.getD_some]
    | mk e1 l1 r1 h1 =>
      simp only [avl_tree_remove, avl_tree_node_remove, lt_irrefl, if_false, gt_iff_lt,
        remove_rebalance_fixed _ hb.2.1 hc.2.1, Option.map_some', Option.getD_some]
  · intro hl hr
    cases l with
    | NULL => exact absurd rfl hl
    | mk e1 l1 r1 h1 =>
      cases r with
      | NULL => exact absurd rfl hr
      | mk e2 l2 r2 h2 =>
        obtain ⟨se, sr, sh, rest, hs1, hs2⟩ := leftmost_spec l2 r2 e2 h2
        obtain ⟨r3, hr3, -⟩ := remove_spec hash_field (.mk e2 l2 r2 h2) (hash_field se)
          hbst.2.2.2 (heights_nonneg_of_cached _ hc.2.2)
        have hpw := (bst_ordered_iff_pairwise hash_field _).1 hbst.2.2.2
        rw [hs2, List.pairwise_cons] at hpw
        rw [hs2, List.find?_cons_of_pos _ (by simp)] at hr3
        refine ⟨se, r3, ?_, ?_, ?_, hr3, ?_⟩
        · rw [hs1]; rfl
        · rw [hs2]; exact List.mem_cons_self _ _
        · intro y hy
          rw [hs2] at hy
          rcases List.mem_cons.1 hy with rfl | hy
          · exact le_refl _
          · exact le_of_lt (hpw.1 y hy)
        · rw [avl_tree_node_remove, if_neg (lt_irrefl _), if_neg (lt_irrefl _)]
          simp only [hs1, hr3, Option.some_bind, Option.map_some', avl_tree_node_create]

theorem C17_remove_replacement_rule_witness :
    invariants (fun x : Nat => x)
        (.mk 20 (.mk 10 .NULL .NULL 1) (.mk 30 .NULL (.mk 40 .NULL .NULL 1) 2) 3) ∧
      ∃ se r2,
        element_of (leftmost (.mk 30 .NULL (.mk 40 .NULL .NULL 1) 2 : avl_tree_node Nat)) =
          some se ∧
        se ∈ inorder (.mk 30 .NULL (.mk 40 .NULL .NULL 1) 2 : avl_tree_node Nat) ∧
        (∀ y ∈ inorder (.mk 30 .NULL (.mk 40 .NULL .NULL 1) 2 : avl_tree_node Nat), se ≤ y) ∧
        avl_tree_node_remove (fun x : Nat => x) (.mk 30 .NULL (.mk 40 .NULL .NULL 1) 2) se =
          some (r2, some (.mk se .NULL .NULL 1)) ∧
        avl_tree_node_remove (fun x : Nat => x)
            (.mk 20 (.mk 10 .NULL .NULL 1) (.mk 30 .NULL (.mk 40 .NULL .NULL 1) 2) 3) 20 =
          (remove_rebalance (.mk se (.mk 10 .NULL .NULL 1) r2 1)).map
            (fun root => (root, some (.mk 20 .NULL .NULL 1))) :=
  ⟨by decide,
    (C17_remove_replacement_rule (fun x : Nat => x) 20 (.mk 10 .NULL .NULL 1)
      (.mk 30 .NULL (.mk 40 .NULL .NULL 1) 2) 3 (by decide)).2.2
      (by decide) (by decide)⟩

/-- C18: for every tree satisfying the invariants and every key `k`,
`avl_tree_remove` returns and every key other than `k` yields from
`avl_tree_find` the same element (or absence) as before; the in-order sequence
of the result is the original one without the element of key `k`: when `k` was
present exactly that one element is taken out and the node count drops by
one, when `k` was absent the sequence and the node count are unchanged. -/
theorem C18_remove_frame (tree : avl_tree α) (k : Nat)
    (hinv : invariants tree.hash_field tree.root) :
    ∃ t2 removed, avl_tree_remove tree k = some (t2, removed) ∧
      t2.hash_field = tree.hash_field ∧
      (∀ k2, k2 ≠ k →
        element_of (avl_tree_find t2 k2) = element_of (avl_tree_find tree k2)) ∧
      inorder t2.root = (inorder tree.root).filter (fun y => tree.hash_field y != k) ∧
      ((∃ y ∈ inorder tree.root, tree.hash_field y = k) →
        (∃ before y after, inorder tree.root = before ++ y :: after ∧
          tree.hash_field y = k ∧ inorder t2.root = before ++ after) ∧
        node_count t2.root + 1 = node_count tree.root) ∧
      ((∀ y ∈ inorder tree.root, tree.hash_field y ≠ k) →
        inorder t2.root = inorder tree.root ∧ node_count t2.root = node_count tree.root) := by
  obtain ⟨r2, h2, hinv2, hio⟩ := remove_invariants tree.hash_field k tree.root hinv
  refine ⟨⟨r2, tree.hash_field⟩, Option.getD (((inorder tree.root).find?
    (fun y => tree.hash_field y == k)).map avl_tree_node_create) .NULL, ?_, rfl, ?_, hio, ?_, ?_⟩
  · simp only [avl_tree_remove, h2, Option.map_some']
  · intro k2 hk2
    simp only [avl_tree_find]
    rw [find_loop_element _ _ _ hinv2.1, find_loop_element _ _ _ hinv.1, hio,
      find_filter_ne tree.hash_field k k2 hk2]
  · intro hpres
    obtain ⟨before, y, after, h1, h3, h4⟩ :=
      sorted_filter_split tree.hash_field k (inorder tree.root)
        ((bst_ordered_iff_pairwise _ _).1 hinv.1) hpres
    refine ⟨⟨before, y, after, h1, h3, hio.trans h4⟩, ?_⟩
    rw [node_count_eq_length, node_count_eq_length]
    show (inorder r2).length + 1 = _
    rw [hio, h4, h1]
    simp only [List.length_append, List.length_cons]
    omega
  · intro habs
    have h5 : inorder r2 = inorder tree.root :=
      hio.trans (filter_self_of_ne tree.hash_field k _ habs)
    refine ⟨h5, ?_⟩
    rw [node_count_eq_length, node_count_eq_length]
    exact congrArg List.length h5

theorem C18_remove_frame_witness :
    invariants (fun x : Nat => x)
        (.mk 20 (.mk 10 .NULL .NULL 1) (.mk 30 .NULL (.mk 40 .NULL .NULL 1) 2) 3) ∧
      ∃ (t2 : avl_tree Nat) (removed : avl_tree_node Nat),
        avl_tree_remove
            ⟨.mk 20 (.mk 10 .NULL .NULL 1) (.mk 30 .NULL (.mk 40 .NULL .NULL 1) 2) 3,
              fun x => x⟩ 30 = some (t2, removed) ∧
          t2.hash_field = (fun x => x) ∧
          (∀ k2, k2 ≠ 30 →
            element_of (avl_tree_find t2 k2) =
              element_of (avl_tree_find
                ⟨.mk 20 (.mk 10 .NULL .NULL 1) (.mk 30 .NULL (.mk 40 .NULL .NULL 1) 2) 3,
                  fun x => x⟩ k2)) ∧
          inorder t2.root =
            (inorder (.mk 20 (.mk 10 .NULL .NULL 1) (.mk 30 .NULL (.mk 40 .NULL .NULL 1) 2) 3 :
              avl_tree_node Nat)).filter (fun y => y != 30) ∧
          ((∃ y ∈ inorder
              (.mk 20 (.mk 10 .NULL .NULL 1) (.mk 30 .NULL (.mk 40 .NULL .NULL 1) 2) 3 :
                avl_tree_node Nat), y = 30) →
            (∃ before y after,
              inorder (.mk 20 (.mk 10 .NULL .NULL 1) (.mk 30 .NULL (.mk 40 .NULL .NULL 1) 2) 3 :
                avl_tree_node Nat) = before ++ y :: after ∧
              y = 30 ∧ inorder t2.root = before ++ after) ∧
            node_count t2.root + 1 = node_count
              (.mk 20 (.mk 10 .NULL .NULL 1) (.mk 30 .NULL (.mk 40 .NULL .NULL 1) 2) 3 :
                avl_tree_node Nat)) ∧
          ((∀ y ∈ inorder
              (.mk 20 (.mk 10 .NULL .NULL 1) (.mk 30 .NULL (.mk 40 .NULL .NULL 1) 2) 3 :
                avl_tree_node Nat), y ≠ 30) →
            inorder t2.root = inorder
              (.mk 20 (.mk 10 .NULL .NULL 1) (.mk 30 .NULL (.mk 40 .NULL .NULL 1) 2) 3 :
                avl_tree_node Nat) ∧
            node_count t2.root = node_count
              (.mk 20 (.mk 10 .NULL .NULL 1) (.mk 30 .NULL (.mk 40 .NULL .NULL 1) 2) 3 :
                avl_tree_node Nat)) :=
  ⟨by decide,
    C18_remove_frame
      ⟨.mk 20 (.mk 10 .NULL .NULL 1) (.mk 30 .NULL (.mk 40 .NULL .NULL 1) 2) 3, fun x => x⟩ 30
      (by decide)⟩

/-- C19: for every tree satisfying the invariants and every fresh node with a
key not in the tree: when the root is a node and the new key goes left, the
recursion into the left child succeeds, and if the balance then found at the
root is `-2`, the left child is a node and the new key is smaller than its key
if and only if its balance factor is `≤ 0`; symmetrically, when the new key
goes right and the balance found is `+2`, the new key is greater than the key
of the right child if and only if its balance factor is `≥ 0`; and insertion
with the rebalancing step of removal in place of its own produces the
identical tree.  (Every node of the insertion path is the root of a subtree
satisfying the same hypotheses.) -/
theorem C19_insert_rule_agrees_with_remove_rule (hash_field : α → Nat) (x : α)
    (t : avl_tree_node α) (hinv : invariants hash_field t)
    (_hnew : ∀ y ∈ inorder t, hash_field y ≠ hash_field x) :
    (∀ e l r h, t = .mk e l r h → hash_field x < hash_field e →
      ∃ l2, avl_tree_node_insert hash_field l (avl_tree_node_create x) = some l2 ∧
        (avl_tree_node_balance (.mk e l2 r h) = -2 →
          ∃ le ll lr lh, l2 = .mk le ll lr lh ∧
            (hash_field x < hash_field le ↔ avl_tree_node_balance l2 ≤ 0))) ∧
    (∀ e l r h, t = .mk e l r h → hash_field x > hash_field e →
      ∃ r2, avl_tree_node_insert hash_field r (avl_tree_node_create x) = some r2 ∧
        (avl_tree_node_balance (.mk e l r2 h) = 2 →
          ∃ re rl rr rh, r2 = .mk re rl rr rh ∧
            (hash_field x > hash_field re ↔ avl_tree_node_balance r2 ≥ 0))) ∧
    (∃ t2, avl_tree_node_insert hash_field t (avl_tree_node_create x) = some t2 ∧
      avl_tree_node_insert_remove_rule hash_field t (avl_tree_node_create x) = some t2) := by
  obtain ⟨-, hb, hc⟩ := hinv
  refine ⟨?_, ?_, ?_⟩
  · rintro e l r h rfl -
    obtain ⟨l2, hl2, -, -, -, -, -, hs⟩ := insert_left_balance hash_field x e l r h hb hc
    refine ⟨l2, hl2, fun hbal => ?_⟩
    obtain ⟨-, le, ll, lr, lh, rfl, hd⟩ := hs hbal
    refine ⟨le, ll, lr, lh, rfl, ?_⟩
    rcases hd with ⟨h1, h2⟩ | ⟨h1, h2⟩
    · exact ⟨fun _ => by omega, fun _ => h1⟩
    · exact ⟨fun hk => by omega, fun hk => by omega⟩
  · rintro e l r h rfl -
    obtain ⟨r2, hr2, -, -, -, -, -, hs⟩ := insert_right_balance hash_field x e l r h hb hc
    refine ⟨r2, hr2, fun hbal => ?_⟩
    obtain ⟨-, re, rl, rr, rh, rfl, hd⟩ := hs hbal
    refine ⟨re, rl, rr, rh, rfl, ?_⟩
    rcases hd with ⟨h1, h2⟩ | ⟨h1, h2⟩
    · exact ⟨fun hk => by omega, fun hk => by omega⟩
    · exact ⟨fun _ => by omega, fun _ => h1⟩
  · obtain ⟨t2, ht2, -⟩ := insert_avl hash_field x t hb hc
    exact ⟨t2, ht2, by rw [insert_remove_rule_eq hash_field x t hb hc, ht2]⟩

theorem C19_insert_rule_agrees_with_remove_rule_witness :
    invariants (fun x : Nat => x) (.mk 20 (.mk 10 .NULL .NULL 1) .NULL 2) ∧
      (∀ y ∈ inorder (.mk 20 (.mk 10 .NULL .NULL 1) .NULL 2 : avl_tree_node Nat), y ≠ 5) ∧
      avl_tree_node_balance
        (.mk 20 (.mk 10 (.mk 5 .NULL .NULL 1) .NULL 2) .NULL 2 : avl_tree_node Nat) = -2 ∧
      (∃ l2, avl_tree_node_insert (fun x : Nat => x) (.mk 10 .NULL .NULL 1)
          (avl_tree_node_create 5) = some l2 ∧
        (avl_tree_node_balance (.mk 20 l2 .NULL 2) = -2 →
          ∃ le ll lr lh, l2 = .mk le ll lr lh ∧ (5 < le ↔ avl_tree_node_balance l2 ≤ 0))) ∧
      ∃ t2, avl_tree_node_insert (fun x : Nat => x) (.mk 20 (.mk 10 .NULL .NULL 1) .NULL 2)
          (avl_tree_node_create 5) = some t2 ∧
        avl_tree_node_insert_remove_rule (fun x : Nat => x)
          (.mk 20 (.mk 10 .NULL .NULL 1) .NULL 2) (avl_tree_node_create 5) = some t2 :=
  ⟨by decide, by decide, by decide,
    (C19_insert_rule_agrees_with_remove_rule (fun x : Nat => x) 5
      (.mk 20 (.mk 10 .NULL .NULL 1) .NULL 2) (by decide) (by decide)).1
      20 (.mk 10 .NULL .NULL 1) .NULL 2 rfl (by decide),
    (C19_insert_rule_agrees_with_remove_rule (fun x : Nat => x) 5
      (.mk 20 (.mk 10 .NULL .NULL 1) .NULL 2) (by decide) (by decide)).2.2⟩

end AvlTree
